import Mathlib

/-!
# keyvi `DictionaryMerger` (dictionary_merger.h)

A shallow embedding of `keyvi::dictionary::DictionaryMerger` and of its private
`SegmentIterator`, followed by theorems about `Add`, `SetManifestFromString` and `Merge`.

Keys are values of a linearly ordered type `K` (byte strings under the lexicographic
order; the concrete examples use `List Nat`).  Value ids, weights, segment indices and
type tags are natural numbers.

The collaborators whose headers are not part of the merger's source file (`fsa::Automata`,
`fsa::EntryIterator`, the value store, the generator) are modelled at their interface.
The generator is modelled by the sequence of calls made on it.
-/

namespace keyvi.dictionary

/-! ## Collaborators -/

/-- The parameter map `vs_param_t` (a string to string map), as an association list. -/
abbrev vs_param_t := List (String × String)

/-- Modelled from the spec: the content of a dictionary file, as far as the merger reads
it (automata.h is not part of the source file).  `entries` is the dictionary's sequence of
(key, value id) pairs in cursor order, `valueStoreType` its value-store type tag,
`sparseArraySize` its entry-count estimate, `payload` its raw value-store payload handle. -/
structure DictionaryFile (K : Type) where
  entries : List (K × Nat)
  valueStoreType : Nat
  sparseArraySize : Nat
  payload : Nat

/-- Modelled from the spec: `fsa::Automata`, an opened dictionary: the file name it was
opened from, the loading strategy that was asked for, and the content read. -/
structure Automata (K : Type) where
  filename : String
  lazy : Bool
  file : DictionaryFile K

/-- Modelled from the spec: `new fsa::Automata(filename, ...)` over a file system `fs` that
maps a path to the dictionary stored there (`none`: the file cannot be opened). -/
def Automata.load {K : Type} (fs : String → Option (DictionaryFile K)) (filename : String)
    (lazy : Bool) : Option (Automata K) :=
  (fs filename).map (fun d => { filename := filename, lazy := lazy, file := d })

/-- The method `GetValueStoreType` of `fsa::Automata`. -/
def Automata.GetValueStoreType {K : Type} (a : Automata K) : Nat := a.file.valueStoreType

/-- The method `SparseArraySize` of `fsa::Automata`. -/
def Automata.SparseArraySize {K : Type} (a : Automata K) : Nat := a.file.sparseArraySize

/-- Modelled from the spec: `fsa::EntryIterator` (entry_iterator.h is not part of the source
file): a forward cursor over one dictionary, holding the entries not yet passed.  The end
sentinel is the cursor with no entry left. -/
structure EntryIterator (K : Type) where
  fsa : Automata K
  rest : List (K × Nat)

namespace EntryIterator

variable {K : Type}

/-- The constructor `EntryIterator(fsa)`: a cursor at the first entry of the dictionary. -/
def ofAutomata (a : Automata K) : EntryIterator K := { fsa := a, rest := a.file.entries }

/-- The method `GetKey`; the end sentinel has no current key. -/
def GetKey (e : EntryIterator K) : Option K := e.rest.head?.map Prod.fst

/-- The method `GetValueId`; the end sentinel has no current value id. -/
def GetValueId (e : EntryIterator K) : Option Nat := e.rest.head?.map Prod.snd

/-- The method `GetFsa`. -/
def GetFsa (e : EntryIterator K) : Automata K := e.fsa

/-- The increment `operator++` of the cursor: move to the next entry. -/
def inc (e : EntryIterator K) : EntryIterator K := { e with rest := e.rest.tail }

/-- Comparison with the end sentinel, `e != endIterator()`. -/
def notEnd (e : EntryIterator K) : Bool := !e.rest.isEmpty

/-- The comparison `e == key` with a string: the current key equals `key`; the end sentinel
compares unequal to every key. -/
def eqKey [LinearOrder K] (e : EntryIterator K) (key : K) : Bool :=
  match e.GetKey with
  | some k => decide (k = key)
  | none => false

/-- The comparison `a < b` of two cursors: the strict order of their current keys; the end
sentinel, which holds no key, is ordered before every key. -/
def lt [LinearOrder K] (a b : EntryIterator K) : Bool :=
  match a.GetKey, b.GetKey with
  | some x, some y => decide (x < y)
  | none, some _ => true
  | _, none => false

/-- Modelled from the spec: the cursor comparison `a > b` of entry_iterator.h, which is not
part of the source file, as the spec describes the comparator (cursors are comparable by
current key, and the comparator orders by key only): the mirrored strict order, `b < a`. -/
def gtStrict [LinearOrder K] (a b : EntryIterator K) : Bool :=
  lt b a

/-- The other reading of the cursor comparison `a > b`: the negation of `a < b`. -/
def gtNotLess [LinearOrder K] (a b : EntryIterator K) : Bool :=
  !(lt a b)

end EntryIterator

/-- The cursor comparison `>` is not in the merger's source file, so the embedding takes it
as a parameter `gt`.  `GtCompatible gt`: `gt` lies between the two readings, that is
`b < a` implies `a > b`, and `a > b` implies that `a < b` does not hold. -/
def GtCompatible {K : Type} [LinearOrder K]
    (gt : EntryIterator K → EntryIterator K → Bool) : Prop :=
  ∀ a b, (EntryIterator.lt b a = true → gt a b = true) ∧
    (gt a b = true → EntryIterator.lt a b = false)

/-- The reading of the cursor comparison `a > b` as the negation of `a < b`. -/
def GtNotLess {K : Type} [LinearOrder K]
    (gt : EntryIterator K → EntryIterator K → Bool) : Prop :=
  ∀ a b, gt a b = !(EntryIterator.lt a b)

/-! ## SegmentIterator -/

/-- The class `SegmentIterator`: an entry cursor with the index of its segment. -/
structure SegmentIterator (K : Type) where
  entry_iterator_ptr_ : EntryIterator K
  segment_index_ : Nat

namespace SegmentIterator

variable {K : Type}

/-- The accessor `entryIterator`. -/
def entryIterator (s : SegmentIterator K) : EntryIterator K := s.entry_iterator_ptr_

/-- The accessor `segmentIndex`. -/
def segmentIndex (s : SegmentIterator K) : Nat := s.segment_index_

/-- The comparison `operator<` of `SegmentIterator`, over the cursor comparison `gt`. -/
def lt [LinearOrder K]
    (gt : EntryIterator K → EntryIterator K → Bool) (x rhs : SegmentIterator K) : Bool :=
  if x.segment_index_ < rhs.segment_index_ then
    gt x.entryIterator rhs.entryIterator
  else
    EntryIterator.lt rhs.entryIterator x.entryIterator

/-- The conversion `operator bool`: the cursor is not the end sentinel. -/
def toBool (s : SegmentIterator K) : Bool := s.entryIterator.notEnd

/-- The increment `operator++`: advance the entry cursor, keep the segment index. -/
def inc (s : SegmentIterator K) : SegmentIterator K :=
  { s with entry_iterator_ptr_ := s.entry_iterator_ptr_.inc }

end SegmentIterator

/-! ## The frontier: `std::priority_queue<SegmentIterator>` -/

/-- The frontier `std::priority_queue<SegmentIterator>`, as the list of its elements. -/
abbrev PriorityQueue (K : Type) := List (SegmentIterator K)

namespace PriorityQueue

variable {K : Type} [LinearOrder K]

/-- The member `push`. -/
def push (q : PriorityQueue K) (x : SegmentIterator K) : PriorityQueue K := q ++ [x]

/-- Selection of a greatest element under `operator<` together with the remaining elements:
`top` followed by `pop`.  Among elements none of which is below another, the one pushed
first is selected: `std::push_heap` moves a pushed element up only past a parent that is
strictly below it, so an element already on top stays there when an incomparable one is
pushed. -/
def popMax (gt : EntryIterator K → EntryIterator K → Bool) :
    PriorityQueue K → Option (SegmentIterator K × PriorityQueue K)
  | [] => none
  | x :: xs =>
    match popMax gt xs with
    | none => some (x, [])
    | some (m, r) => if SegmentIterator.lt gt x m then some (m, x :: r) else some (x, m :: r)

/-- The member `top`. -/
def top (gt : EntryIterator K → EntryIterator K → Bool) (q : PriorityQueue K) :
    Option (SegmentIterator K) :=
  (popMax gt q).map Prod.fst

/-- The member `pop`. -/
def pop (gt : EntryIterator K → EntryIterator K → Bool) (q : PriorityQueue K) :
    PriorityQueue K :=
  match popMax gt q with
  | none => []
  | some (_, r) => r

/-- The number of entries not yet passed by the cursors of the frontier. -/
def remaining (q : PriorityQueue K) : Nat := (q.map (fun c => c.entryIterator.rest.length)).sum

end PriorityQueue

/-! ## Value store and generator -/

/-- The argument of the value store constructor: the input file list (append merge) or the
parameter map. -/
inductive ValueStoreArg where
  | inputFiles (files : List String)
  | params (p : vs_param_t)
  deriving DecidableEq, Repr

/-- Modelled from the spec: the value store `ValueStoreT` with internal state `σ`, at the
interface the merger uses: its static type tag, its constructor, the weight lookup, the
id remapping of the append merge, and the copying lookup `GetValue`, which may change the
store and may set the `no_minimization` flag it is handed. -/
structure ValueStoreT (σ : Type) where
  GetValueStoreType : Nat
  create : ValueStoreArg → σ
  GetMergeWeight : σ → Nat → Nat
  GetMergeValueId : σ → Nat → Nat → Nat
  GetValue : σ → Nat → Nat → Bool → Nat × Bool × σ

/-- The record `fsa::ValueHandle`. -/
structure ValueHandle where
  value_idx : Nat
  weight : Nat
  no_minimization : Bool
  deriving DecidableEq, Repr

/-- A call made on the value store during the drain loop. -/
inductive ValueStoreCall where
  | GetMergeWeight (valueId : Nat)
  | GetMergeValueId (segmentIndex valueId : Nat)
  | GetValue (payload valueId : Nat)
  deriving DecidableEq, Repr

/-- A call made on the generator. -/
inductive GeneratorCall (K : Type) where
  | Add (key : K) (handle : ValueHandle)
  | CloseFeeding
  | SetManifestFromString (manifest : String)
  | WriteToFile (filename : String)
  deriving DecidableEq, Repr

/-- The key of an `Add` call. -/
def GeneratorCall.addKey? {K : Type} : GeneratorCall K → Option K
  | .Add key _ => some key
  | _ => none

/-- The ways a run of `Merge` leaves defined behaviour: a key or value id is read from the
end sentinel, or a loop runs longer than the bound the embedding gives it. -/
inductive MergeError where
  | endIteratorDereferenced
  | loopBoundExceeded
  deriving DecidableEq, Repr

/-- One pass of the outer loop of `Merge`: the key fed to the generator, the winner cursor
`segment_it` as popped, the value id read from it, the handle built, and the calls made on
the value store to build it. -/
structure Emit (K : Type) where
  top_key : K
  segment_it : SegmentIterator K
  valueId : Nat
  handle : ValueHandle
  valueStoreCalls : List ValueStoreCall

/-! ## DictionaryMerger -/

/-- The string constants of constants.h the constructor uses; the header is not part of the
source file, so they are taken as parameters. -/
structure Constants where
  TEMPORARY_PATH_KEY : String
  MERGE_MODE : String
  MERGE_APPEND : String

/-- The member `count` of the parameter map: 1 when the key is present, 0 otherwise. -/
def mapCount (p : vs_param_t) (key : String) : Nat :=
  if (p.lookup key).isSome then 1 else 0

/-- Reading `p[key]` for a key that is present (the empty string otherwise). -/
def mapGet (p : vs_param_t) (key : String) : String :=
  (p.lookup key).getD ""

/-- The assignment `p[key] = value`. -/
def mapSet (p : vs_param_t) (key value : String) : vs_param_t :=
  if (p.lookup key).isSome then p.map (fun e => if e.1 = key then (key, value) else e)
  else p ++ [(key, value)]

/-- The members of `DictionaryMerger`. -/
structure DictionaryMerger (K : Type) where
  append_merge_ : Bool
  dicts_to_merge_ : List (Automata K)
  inputFiles_ : List String
  memory_limit_ : Nat
  params_ : vs_param_t
  manifest_ : String

/-- The error of `Add`: the dictionary cannot be opened, or
`std::invalid_argument("Dictionaries must have the same type.")`. -/
inductive AddError where
  | openFailure
  | invalid_argument
  deriving DecidableEq, Repr

/-- What a completed `Merge` did: the argument the value store was constructed from, the
arguments of `CreateGenerator`, the passes of the outer loop, and the calls on the
generator in order. -/
structure MergeRun (K : Type) where
  valueStoreArg : ValueStoreArg
  sparse_array_size_sum : Nat
  memory_limit : Nat
  generatorParams : vs_param_t
  emits : List (Emit K)
  calls : List (GeneratorCall K)

namespace DictionaryMerger

variable {K : Type} [LinearOrder K] {σ : Type}

/-- The constructor `DictionaryMerger(memory_limit, params)`; `tempDir` is what
`boost::filesystem::temp_directory_path().string()` returns.  The member initialisers set
`append_merge_ = false` and `manifest_` to the empty string. -/
def create (c : Constants) (tempDir : String) (memory_limit : Nat) (params : vs_param_t) :
    DictionaryMerger K :=
  let params1 := if mapCount params c.TEMPORARY_PATH_KEY = 0
                 then mapSet params c.TEMPORARY_PATH_KEY tempDir else params
  let append_merge := if mapCount params1 c.MERGE_MODE > 0
                      then decide (c.MERGE_APPEND = mapGet params1 c.MERGE_MODE) else false
  { append_merge_ := append_merge, dicts_to_merge_ := [], inputFiles_ := [],
    memory_limit_ := memory_limit, params_ := params1, manifest_ := "" }

/-- The method `Add`.  The state after the call is returned on every path, since the
members written before an exception is thrown keep their new value. -/
def Add (fs : String → Option (DictionaryFile K)) (vs : ValueStoreT σ)
    (m : DictionaryMerger K) (filename : String) :
    DictionaryMerger K × Except AddError Unit :=
  let m1 := { m with inputFiles_ := m.inputFiles_ ++ [filename] }
  match Automata.load fs filename m.append_merge_ with
  | none => (m1, .error .openFailure)
  | some fsa =>
    if fsa.GetValueStoreType ≠ vs.GetValueStoreType then
      (m1, .error .invalid_argument)
    else
      ({ m1 with dicts_to_merge_ := m1.dicts_to_merge_ ++ [fsa] }, .ok ())

/-- The method `SetManifestFromString`. -/
def SetManifestFromString (m : DictionaryMerger K) (manifest : String) : DictionaryMerger K :=
  { m with manifest_ := manifest }

/-- The seeding loop of `Merge`: one cursor per registered dictionary, numbered from `i`. -/
def seed : List (Automata K) → Nat → PriorityQueue K → PriorityQueue K
  | [], _, pqueue => pqueue
  | fsa :: rest, i, pqueue =>
    seed rest (i + 1) (pqueue.push { entry_iterator_ptr_ := EntryIterator.ofAutomata fsa,
                                     segment_index_ := i })

/-- The inner loop of `Merge`: while the top of the frontier is at `top_key`, pop it,
advance it, and push it again unless it reached the end.  `none`: the bound is used up. -/
def shadowLoop (gt : EntryIterator K → EntryIterator K → Bool) :
    Nat → PriorityQueue K → K → Option (PriorityQueue K)
  | 0, _, _ => none
  | n + 1, pqueue, top_key =>
    match PriorityQueue.top gt pqueue with
    | none => some pqueue
    | some t =>
      if t.entryIterator.eqKey top_key then
        let to_inc := t.inc
        let pqueue := PriorityQueue.pop gt pqueue
        shadowLoop gt n (if to_inc.toBool then pqueue.push to_inc else pqueue) top_key
      else
        some pqueue

/-- The construction of the value handle for the winner `segment_it` holding `valueId`:
the handle, the calls made on the value store, and the store afterwards. -/
def makeHandle (vs : ValueStoreT σ) (append_merge : Bool) (s : σ)
    (segment_it : SegmentIterator K) (valueId : Nat) :
    ValueHandle × List ValueStoreCall × σ :=
  let weight := vs.GetMergeWeight s valueId
  if append_merge then
    ({ value_idx := vs.GetMergeValueId s segment_it.segmentIndex valueId,
       weight := weight, no_minimization := false },
     [.GetMergeWeight valueId, .GetMergeValueId segment_it.segmentIndex valueId], s)
  else
    let payload := segment_it.entryIterator.GetFsa.file.payload
    let r := vs.GetValue s payload valueId false
    ({ value_idx := r.1, weight := weight, no_minimization := r.2.1 },
     [.GetMergeWeight valueId, .GetValue payload valueId], r.2.2)

/-- The outer loop of `Merge`, bounded by a number of passes: the passes made and the value
store afterwards. -/
def drainLoop (gt : EntryIterator K → EntryIterator K → Bool) (vs : ValueStoreT σ)
    (append_merge : Bool) :
    Nat → PriorityQueue K → σ → Except MergeError (List (Emit K) × σ)
  | 0, _, _ => .error .loopBoundExceeded
  | n + 1, pqueue, s =>
    match PriorityQueue.top gt pqueue with
    | none => .ok ([], s)
    | some segment_it =>
      let pqueue1 := PriorityQueue.pop gt pqueue
      match segment_it.entryIterator.GetKey, segment_it.entryIterator.GetValueId with
      | some top_key, some valueId =>
        match shadowLoop gt (pqueue1.remaining + 1) pqueue1 top_key with
        | none => .error .loopBoundExceeded
        | some pqueue2 =>
          let h := makeHandle vs append_merge s segment_it valueId
          let next := segment_it.inc
          let pqueue3 := if next.toBool then pqueue2.push next else pqueue2
          match drainLoop gt vs append_merge n pqueue3 h.2.2 with
          | .error e => .error e
          | .ok (out, s1) =>
            .ok ({ top_key := top_key, segment_it := segment_it, valueId := valueId,
                   handle := h.1, valueStoreCalls := h.2.1 } :: out, s1)
      | _, _ => .error .endIteratorDereferenced

/-- The method `Merge`: on completion, the merger afterwards and what the run did. -/
def Merge (gt : EntryIterator K → EntryIterator K → Bool) (vs : ValueStoreT σ)
    (m : DictionaryMerger K) (filename : String) :
    Except MergeError (DictionaryMerger K × MergeRun K) :=
  let pqueue := seed m.dicts_to_merge_ 0 []
  let sparse_array_size_sum := (m.dicts_to_merge_.map Automata.SparseArraySize).sum
  let arg := if m.append_merge_ then ValueStoreArg.inputFiles m.inputFiles_
             else ValueStoreArg.params m.params_
  match drainLoop gt vs m.append_merge_ (pqueue.remaining + 1) pqueue (vs.create arg) with
  | .error e => .error e
  | .ok (emits, _) =>
    .ok ({ m with dicts_to_merge_ := [] },
         { valueStoreArg := arg,
           sparse_array_size_sum := sparse_array_size_sum,
           memory_limit := m.memory_limit_,
           generatorParams := m.params_,
           emits := emits,
           calls := emits.map (fun e => GeneratorCall.Add e.top_key e.handle) ++
             [.CloseFeeding, .SetManifestFromString m.manifest_, .WriteToFile filename] })

end DictionaryMerger

/-! ## The drain loop of `Merge`, one read of the frontier at a time -/

/-- The state of the drain loop of `Merge` at a read of the frontier: the frontier, the
winner `segment_it` held by the pass of the outer loop under way (`none` at the head of the
outer loop, `some` at the head of the inner loop), and three counters: the calls of
`generator->Add`, the duplicates popped by the inner loop, and the cursor increments made
so far. -/
structure DrainState (K : Type) where
  pqueue : PriorityQueue K
  segment_it : Option (SegmentIterator K)
  adds : Nat
  shadowPops : Nat
  advances : Nat

namespace DrainState

variable {K : Type} [LinearOrder K]

/-- The state at the first evaluation of the outer loop condition: the seeded frontier. -/
def start (m : DictionaryMerger K) : DrainState K :=
  { pqueue := DictionaryMerger.seed m.dicts_to_merge_ 0 [], segment_it := none,
    adds := 0, shadowPops := 0, advances := 0 }

/-- The end of a pass of the outer loop, after the inner loop: the handle is built, `Add`
is called, and the winner is advanced and pushed again unless it reached the end. -/
def finishPass (c : DrainState K) (segment_it : SegmentIterator K) : DrainState K :=
  { pqueue := if segment_it.inc.toBool then c.pqueue.push segment_it.inc else c.pqueue,
    segment_it := none,
    adds := c.adds + 1, shadowPops := c.shadowPops, advances := c.advances + 1 }

/-- From one read of the frontier to the next.  At the head of the outer loop: the loop
ends on an empty frontier (`none`); otherwise the top is popped as the winner and its key
is read (`none` when it is the end sentinel).  At the head of the inner loop: when the top
of the frontier is at the key of the winner, it is popped, advanced, and pushed again unless
it reached the end; otherwise the pass is finished. -/
def step (gt : EntryIterator K → EntryIterator K → Bool) (c : DrainState K) :
    Option (DrainState K) :=
  match c.segment_it with
  | none =>
    match PriorityQueue.top gt c.pqueue with
    | none => none
    | some segment_it =>
      match segment_it.entryIterator.GetKey with
      | none => none
      | some _ =>
        some { c with pqueue := PriorityQueue.pop gt c.pqueue, segment_it := some segment_it }
  | some segment_it =>
    match segment_it.entryIterator.GetKey with
    | none => none
    | some top_key =>
      match PriorityQueue.top gt c.pqueue with
      | none => some (finishPass c segment_it)
      | some t =>
        if t.entryIterator.eqKey top_key then
          some { c with
                 pqueue := if t.inc.toBool then (PriorityQueue.pop gt c.pqueue).push t.inc
                           else PriorityQueue.pop gt c.pqueue,
                 shadowPops := c.shadowPops + 1, advances := c.advances + 1 }
        else
          some (finishPass c segment_it)

/-- The state `n` reads of the frontier later, if the loop gets that far. -/
def stepN (gt : EntryIterator K → EntryIterator K → Bool) :
    Nat → DrainState K → Option (DrainState K)
  | 0, c => some c
  | n + 1, c => (stepN gt n c).bind (step gt)

/-- The segment indices of the cursors in the frontier, followed by that of the winner
held. -/
def indices (c : DrainState K) : List Nat :=
  c.pqueue.map SegmentIterator.segment_index_ ++
    (c.segment_it.map SegmentIterator.segment_index_).toList

/-- The cursors in the frontier, followed by the winner held. -/
def cursors (c : DrainState K) : List (SegmentIterator K) :=
  c.pqueue ++ c.segment_it.toList

/-- The entries the cursors of the frontier and the winner held have not yet passed. -/
def pending (c : DrainState K) : Nat :=
  c.pqueue.remaining + (c.segment_it.map (fun w => w.entryIterator.rest.length)).getD 0

end DrainState

/-- A call of a public method on a merger. -/
inductive Call where
  | Add (filename : String)
  | SetManifestFromString (manifest : String)
  | Merge (filename : String)
  deriving DecidableEq, Repr

/-- The merger after one call of a public method; a call that throws leaves the members as
they are at the throw. -/
def DictionaryMerger.call {K : Type} [LinearOrder K] {σ : Type}
    (fs : String → Option (DictionaryFile K))
    (gt : EntryIterator K → EntryIterator K → Bool) (vs : ValueStoreT σ)
    (m : DictionaryMerger K) : Call → DictionaryMerger K
  | .Add filename => (DictionaryMerger.Add fs vs m filename).1
  | .SetManifestFromString manifest => m.SetManifestFromString manifest
  | .Merge filename =>
    match DictionaryMerger.Merge gt vs m filename with
    | .ok (m1, _) => m1
    | .error _ => m

/-- The merger after a sequence of calls. -/
def DictionaryMerger.callAll {K : Type} [LinearOrder K] {σ : Type}
    (fs : String → Option (DictionaryFile K))
    (gt : EntryIterator K → EntryIterator K → Bool) (vs : ValueStoreT σ)
    (m : DictionaryMerger K) (calls : List Call) : DictionaryMerger K :=
  calls.foldl (DictionaryMerger.call fs gt vs) m

/-- The string of the most recent `SetManifestFromString` among `calls`, or `start` when
there is none. -/
def lastManifest (start : String) (calls : List Call) : String :=
  calls.foldl (fun acc c => match c with
    | .SetManifestFromString manifest => manifest
    | _ => acc) start

/-- The keys of the `Add` calls of a run, in call order. -/
def MergeRun.addedKeys {K : Type} (r : MergeRun K) : List K :=
  r.calls.filterMap GeneratorCall.addKey?

/-! ## Example data -/

/-- A value store without state: type tag 1, weight equal to the value id, append-merge ids
`1000 * segment + id`, and `GetValue` returning payload plus id and the flag unchanged. -/
def exampleStore : ValueStoreT Unit :=
  { GetValueStoreType := 1
    create := fun _ => ()
    GetMergeWeight := fun _ v => v
    GetMergeValueId := fun _ s v => 1000 * s + v
    GetValue := fun _ p v flag => (p + v, flag, ()) }

/-- The source S0: key "a" (byte 97) with value id 1, key "b" (byte 98) with value id 2. -/
def exampleS0 : Automata (List Nat) :=
  { filename := "s0", lazy := true,
    file := { entries := [([97], 1), ([98], 2)], valueStoreType := 1, sparseArraySize := 2,
              payload := 10 } }

/-- The source S1: key "b" (byte 98) with value id 9, key "c" (byte 99) with value id 3. -/
def exampleS1 : Automata (List Nat) :=
  { filename := "s1", lazy := true,
    file := { entries := [([98], 9), ([99], 3)], valueStoreType := 1, sparseArraySize := 2,
              payload := 20 } }

/-- A source with the single key "a" (byte 97), value id 1. -/
def exampleA : Automata (List Nat) :=
  { filename := "a", lazy := true,
    file := { entries := [([97], 1)], valueStoreType := 1, sparseArraySize := 1,
              payload := 40 } }

/-- A dictionary without entries. -/
def exampleEmpty : Automata (List Nat) :=
  { filename := "empty", lazy := true,
    file := { entries := [], valueStoreType := 1, sparseArraySize := 0, payload := 30 } }

/-- A file system with the dictionaries "s0" and "s1" of value-store type 1 and a dictionary
"other" of value-store type 2; no other path can be opened. -/
def exampleFs (path : String) : Option (DictionaryFile (List Nat)) :=
  if path = "s0" then some exampleS0.file
  else if path = "s1" then some exampleS1.file
  else if path = "other" then
    some { entries := [([100], 5)], valueStoreType := 2, sparseArraySize := 1, payload := 50 }
  else none

/-- A value store with a counter as state: `GetValue` returns the counter as the new id,
sets the flag for odd value ids, and counts up. -/
def exampleCountingStore : ValueStoreT Nat :=
  { GetValueStoreType := 1
    create := fun _ => 0
    GetMergeWeight := fun _ v => v
    GetMergeValueId := fun _ s v => 1000 * s + v
    GetValue := fun n _ v flag => (n, flag || decide (v % 2 = 1), n + 1) }

/-- The three string constants, distinct from one another. -/
def exampleConstants : Constants :=
  { TEMPORARY_PATH_KEY := "temporary_path", MERGE_MODE := "merge_mode",
    MERGE_APPEND := "append" }

/-- A rebuild-mode merger with the given registered dictionaries and input file list. -/
def exampleRebuildMerger (dicts : List (Automata (List Nat))) (files : List String) :
    DictionaryMerger (List Nat) :=
  { append_merge_ := false, dicts_to_merge_ := dicts, inputFiles_ := files,
    memory_limit_ := 1073741824, params_ := [("temporary_path", "/tmp")], manifest_ := "" }

/-- An append-mode merger with the given registered dictionaries and input file list. -/
def exampleMerger (dicts : List (Automata (List Nat))) (files : List String) :
    DictionaryMerger (List Nat) :=
  { append_merge_ := true, dicts_to_merge_ := dicts, inputFiles_ := files,
    memory_limit_ := 1073741824, params_ := [], manifest_ := "" }

/-- The state of the drain loop over S0 and S1 at its fourth read of the frontier, with `>`
read as the negation of `<`: "a" has been added, the cursor of S1 at "b" is the winner held,
and the cursor of S0 at "b" is in the frontier. -/
def exampleDrainState : DrainState (List Nat) :=
  (DrainState.stepN EntryIterator.gtNotLess 3
    (DrainState.start (exampleMerger [exampleS0, exampleS1] ["s0", "s1"]))).getD
    (DrainState.start (exampleMerger [exampleS0, exampleS1] ["s0", "s1"]))

/-! ## Vocabulary of the statements -/

section Vocabulary

variable {K : Type} [LinearOrder K]

/-- The current key of an entry cursor, with the end sentinel as the bottom element. -/
def EntryIterator.keyB (e : EntryIterator K) : WithBot K := e.GetKey

/-- The current key of a cursor, with the end sentinel as the bottom element. -/
def SegmentIterator.keyB (c : SegmentIterator K) : WithBot K := c.entryIterator.keyB

/-- The keys a cursor has not yet passed. -/
def SegmentIterator.keys (c : SegmentIterator K) : List K :=
  c.entryIterator.rest.map Prod.fst

/-- A cursor of the frontier in good standing: it is not the end sentinel and the keys it
has not yet passed are strictly ascending. -/
def CursorOk (c : SegmentIterator K) : Prop :=
  c.entryIterator.rest ≠ [] ∧ c.keys.Pairwise (fun a b => a < b)

/-- What one pass of the outer loop does to a cursor of the frontier, for the key `k` of the
pass: a cursor at `k` is advanced and dropped when it reaches the end, any other is kept. -/
def stepCursor (k : K) (c : SegmentIterator K) : Option (SegmentIterator K) :=
  if c.entryIterator.eqKey k then (if c.inc.toBool then some c.inc else none) else some c

/-- The frontier after every cursor at `k` has been advanced. -/
def advanceAll (k : K) (q : PriorityQueue K) : PriorityQueue K := q.filterMap (stepCursor k)

/-- The number of cursors of the frontier at key `k`. -/
def atKey (k : K) (q : PriorityQueue K) : Nat :=
  q.countP (fun c => c.entryIterator.eqKey k)

/-- A frontier in good standing: every cursor is, and no two cursors share a segment
index. -/
def FrontierOk (q : PriorityQueue K) : Prop :=
  (∀ c ∈ q, CursorOk c) ∧ (q.map SegmentIterator.segment_index_).Nodup

/-- What the passes `out` of the outer loop, started on the frontier `q`, satisfy: every
pass emits an entry of a cursor of `q` under that cursor's segment index; every key of every
cursor is emitted; the emitted keys are strictly ascending; and, when `>` is the negation of
`<`, no cursor of `q` holding an emitted key has a higher segment index than its winner. -/
def DrainPost (gt : EntryIterator K → EntryIterator K → Bool) (q : PriorityQueue K)
    (out : List (Emit K)) : Prop :=
  (∀ e ∈ out, ∃ c ∈ q, c.segment_index_ = e.segment_it.segment_index_ ∧
      (e.top_key, e.valueId) ∈ c.entryIterator.rest) ∧
  (∀ c ∈ q, ∀ x ∈ c.keys, ∃ e ∈ out, e.top_key = x) ∧
  (out.map Emit.top_key).Pairwise (fun a b => a < b) ∧
  (GtNotLess gt → ∀ e ∈ out, ∀ c ∈ q, e.top_key ∈ c.keys →
      c.segment_index_ ≤ e.segment_it.segment_index_)

/-- The keys of a dictionary, in cursor order. -/
def Automata.keys (a : Automata K) : List K := a.file.entries.map Prod.fst

/-- Every registered source is strictly ascending by key. -/
def SourcesSorted (m : DictionaryMerger K) : Prop :=
  ∀ a ∈ m.dicts_to_merge_, a.keys.Pairwise (fun x y => x < y)

/-- Every registered source holds at least one entry. -/
def SourcesNonEmpty (m : DictionaryMerger K) : Prop :=
  ∀ a ∈ m.dicts_to_merge_, a.file.entries ≠ []

/-- The winners of a run: for each pass of the outer loop the key fed to the generator, the
segment index of the winner cursor and the value id read from it. -/
def MergeRun.winners (r : MergeRun K) : List (K × Nat × Nat) :=
  r.emits.map (fun e => (e.top_key, e.segment_it.segmentIndex, e.valueId))

/-- The handles the rebuild merge builds when `GetValue` is called once per entry of
`winners`, in order, on the store `s`: each call is handed the payload handle and the value
id of one winner and the flag `false`; the handle takes the id and the flag the call
returns, and the weight `GetMergeWeight` gives for the value id. -/
def rebuildHandles {σ : Type} (vs : ValueStoreT σ) : σ → List (Nat × Nat) → List ValueHandle
  | _, [] => []
  | s, (payload, valueId) :: rest =>
    { value_idx := (vs.GetValue s payload valueId false).1,
      weight := vs.GetMergeWeight s valueId,
      no_minimization := (vs.GetValue s payload valueId false).2.1 } ::
      rebuildHandles vs (vs.GetValue s payload valueId false).2.2 rest

/-- The `GetValue` calls among the calls on the value store. -/
def getValueCalls (calls : List ValueStoreCall) : List ValueStoreCall :=
  calls.filter (fun c => match c with
    | .GetValue _ _ => true
    | _ => false)

/-- The number of entries of all registered sources. -/
def totalEntries (m : DictionaryMerger K) : Nat :=
  (m.dicts_to_merge_.map (fun a => a.file.entries.length)).sum

/-- The bookkeeping of the drain loop over sources with `total` entries in all: no cursor
of the frontier, nor the winner held, is at the end; every cursor increment so far belongs
to an `Add` or to the pop of a shadowed duplicate; and the increments made so far together
with the entries not yet passed make up `total`. -/
def DrainState.Balanced (total : Nat) (c : DrainState K) : Prop :=
  (∀ x ∈ c.cursors, x.entryIterator.rest ≠ []) ∧
  c.adds + c.shadowPops = c.advances ∧
  c.advances + c.pending = total

/-- A bound on the reads of the frontier still to come. -/
def DrainState.measure (c : DrainState K) : Nat :=
  2 * c.pending + (if c.segment_it.isNone then 1 else 0)

end Vocabulary

set_option linter.unusedSectionVars false

/-! ## The frontier surfaces a cursor with the least current key -/

section Frontier

variable {K : Type} [LinearOrder K]

theorem EntryIterator.lt_iff (a b : EntryIterator K) :
    EntryIterator.lt a b = true ↔ a.keyB < b.keyB := by
  unfold EntryIterator.lt EntryIterator.keyB
  cases ha : a.GetKey <;> cases hb : b.GetKey <;>
    simp [WithBot.none_eq_bot, WithBot.some_eq_coe]

theorem EntryIterator.lt_eq_false_iff (a b : EntryIterator K) :
    EntryIterator.lt a b = false ↔ b.keyB ≤ a.keyB := by
  rw [← not_lt, ← EntryIterator.lt_iff]
  simp

theorem GtNotLess.compatible {gt : EntryIterator K → EntryIterator K → Bool}
    (h : GtNotLess gt) : GtCompatible gt := by
  intro a b
  rw [h a b]
  constructor
  · intro hba
    have h1 := (EntryIterator.lt_iff b a).1 hba
    have h2 : EntryIterator.lt a b = false := by
      rw [EntryIterator.lt_eq_false_iff]
      exact le_of_lt h1
    simp [h2]
  · intro hab
    simpa using hab

theorem SegmentIterator.lt_key {gt : EntryIterator K → EntryIterator K → Bool}
    (hgt : GtCompatible gt) {m x : SegmentIterator K}
    (h : SegmentIterator.lt gt m x = true) : x.keyB ≤ m.keyB := by
  unfold SegmentIterator.lt at h
  split at h
  · exact (EntryIterator.lt_eq_false_iff _ _).1 ((hgt _ _).2 h)
  · exact le_of_lt ((EntryIterator.lt_iff _ _).1 h)

theorem SegmentIterator.not_lt_key {gt : EntryIterator K → EntryIterator K → Bool}
    (hgt : GtCompatible gt) {m x : SegmentIterator K}
    (h : SegmentIterator.lt gt m x = false) : m.keyB ≤ x.keyB := by
  unfold SegmentIterator.lt at h
  split at h
  · apply (EntryIterator.lt_eq_false_iff _ _).1
    cases hl : EntryIterator.lt x.entryIterator m.entryIterator
    · rfl
    · rw [(hgt _ _).1 hl] at h
      cases h
  · exact (EntryIterator.lt_eq_false_iff _ _).1 h

theorem SegmentIterator.lt_index {gt : EntryIterator K → EntryIterator K → Bool}
    {m x : SegmentIterator K}
    (h : SegmentIterator.lt gt m x = true) (hk : x.keyB = m.keyB) :
    m.segment_index_ < x.segment_index_ := by
  unfold SegmentIterator.lt at h
  split at h
  · assumption
  · have := (EntryIterator.lt_iff _ _).1 h
    exact absurd hk (ne_of_lt this)

theorem SegmentIterator.not_lt_index {gt : EntryIterator K → EntryIterator K → Bool}
    (hgt : GtNotLess gt) {m x : SegmentIterator K}
    (h : SegmentIterator.lt gt m x = false) (hk : x.keyB = m.keyB) :
    x.segment_index_ ≤ m.segment_index_ := by
  unfold SegmentIterator.lt at h
  split at h
  · rw [hgt] at h
    have h2 : EntryIterator.lt m.entryIterator x.entryIterator = true := by simpa using h
    have := (EntryIterator.lt_iff _ _).1 h2
    exact absurd hk.symm (ne_of_lt this)
  · omega

theorem PriorityQueue.popMax_eq_none {gt : EntryIterator K → EntryIterator K → Bool}
    {q : PriorityQueue K} (h : PriorityQueue.popMax gt q = none) : q = [] := by
  cases q with
  | nil => rfl
  | cons x xs =>
    unfold PriorityQueue.popMax at h
    split at h
    · cases h
    · split at h <;> cases h

theorem PriorityQueue.popMax_perm {gt : EntryIterator K → EntryIterator K → Bool} :
    ∀ {q : PriorityQueue K} {t : SegmentIterator K} {r : PriorityQueue K},
      PriorityQueue.popMax gt q = some (t, r) → List.Perm q (t :: r) := by
  intro q
  induction q with
  | nil => intro t r h; cases h
  | cons x xs ih =>
    intro t r h
    unfold PriorityQueue.popMax at h
    split at h
    · next hn =>
      cases h
      rw [PriorityQueue.popMax_eq_none hn]
    · next m r1 hs =>
      have hp := ih hs
      split at h
      · cases h
        exact (List.Perm.cons _ hp).trans (List.Perm.swap _ _ _)
      · cases h
        exact List.Perm.cons _ hp

theorem PriorityQueue.popMax_key {gt : EntryIterator K → EntryIterator K → Bool}
    (hgt : GtCompatible gt) :
    ∀ {q : PriorityQueue K} {t : SegmentIterator K} {r : PriorityQueue K},
      PriorityQueue.popMax gt q = some (t, r) → ∀ c ∈ r, t.keyB ≤ c.keyB := by
  intro q
  induction q with
  | nil => intro t r h; cases h
  | cons x xs ih =>
    intro t r h
    unfold PriorityQueue.popMax at h
    split at h
    · cases h
      intro c hc
      cases hc
    · next m r1 hs =>
      have hm := ih hs
      split at h
      · next hlt =>
        cases h
        have hmx := SegmentIterator.lt_key hgt hlt
        intro c hc
        rcases List.mem_cons.1 hc with rfl | hc
        · exact hmx
        · exact hm c hc
      · next hlt =>
        cases h
        have hxm := SegmentIterator.not_lt_key hgt (by simpa using hlt)
        intro c hc
        rcases List.mem_cons.1 hc with rfl | hc
        · exact hxm
        · exact le_trans hxm (hm c hc)

theorem PriorityQueue.popMax_index {gt : EntryIterator K → EntryIterator K → Bool}
    (hgt : GtNotLess gt) :
    ∀ {q : PriorityQueue K} {t : SegmentIterator K} {r : PriorityQueue K},
      PriorityQueue.popMax gt q = some (t, r) →
      ∀ c ∈ r, c.keyB = t.keyB → c.segment_index_ ≤ t.segment_index_ := by
  intro q
  induction q with
  | nil => intro t r h; cases h
  | cons x xs ih =>
    intro t r h
    unfold PriorityQueue.popMax at h
    split at h
    · cases h
      intro c hc
      cases hc
    · next m r1 hs =>
      have hm := ih hs
      have hmk := PriorityQueue.popMax_key hgt.compatible hs
      split at h
      · next hlt =>
        cases h
        intro c hc hk
        rcases List.mem_cons.1 hc with rfl | hc
        · exact le_of_lt (SegmentIterator.lt_index hlt hk.symm)
        · exact hm c hc hk
      · next hlt =>
        have hlt2 : SegmentIterator.lt gt x m = false := by simpa using hlt
        cases h
        have hxm := SegmentIterator.not_lt_key hgt.compatible hlt2
        intro c hc hk
        rcases List.mem_cons.1 hc with rfl | hc
        · exact SegmentIterator.not_lt_index hgt hlt2 hk
        · have h1 : c.keyB = m.keyB :=
            le_antisymm (hk ▸ hxm) (hmk c hc)
          have h2 := hm c hc h1
          have h3 := SegmentIterator.not_lt_index hgt hlt2 (h1.symm.trans hk)
          omega

end Frontier

/-! ## Cursors over strictly ascending sources -/

section Cursors

variable {K : Type} [LinearOrder K]

theorem SegmentIterator.inc_rest (c : SegmentIterator K) :
    c.inc.entryIterator.rest = c.entryIterator.rest.tail := rfl

theorem SegmentIterator.inc_index (c : SegmentIterator K) :
    c.inc.segment_index_ = c.segment_index_ := rfl

theorem SegmentIterator.toBool_iff (c : SegmentIterator K) :
    c.toBool = true ↔ c.entryIterator.rest ≠ [] := by
  unfold SegmentIterator.toBool EntryIterator.notEnd
  cases c.entryIterator.rest <;> simp

theorem SegmentIterator.keyB_of_cons {c : SegmentIterator K} {k : K} {v : Nat}
    {tl : List (K × Nat)} (h : c.entryIterator.rest = (k, v) :: tl) :
    c.keyB = (k : WithBot K) := by
  unfold SegmentIterator.keyB EntryIterator.keyB EntryIterator.GetKey
  rw [h]
  rfl

theorem SegmentIterator.eqKey_iff (c : SegmentIterator K) (k : K) :
    c.entryIterator.eqKey k = true ↔ c.keyB = (k : WithBot K) := by
  unfold EntryIterator.eqKey SegmentIterator.keyB EntryIterator.keyB
  cases h : c.entryIterator.GetKey with
  | none => simp [WithBot.none_eq_bot]
  | some x => simp [WithBot.some_eq_coe]

theorem SegmentIterator.rest_of_eqKey {c : SegmentIterator K} {k : K}
    (h : c.entryIterator.eqKey k = true) :
    ∃ v tl, c.entryIterator.rest = (k, v) :: tl := by
  unfold EntryIterator.eqKey EntryIterator.GetKey at h
  cases hr : c.entryIterator.rest with
  | nil => rw [hr] at h; simp at h
  | cons a tl =>
    rw [hr] at h
    obtain ⟨k1, v⟩ := a
    simp at h
    exact ⟨v, tl, by rw [h]⟩

theorem CursorOk.exists_cons {c : SegmentIterator K} (h : CursorOk c) :
    ∃ k v tl, c.entryIterator.rest = (k, v) :: tl := by
  cases hr : c.entryIterator.rest with
  | nil => exact absurd hr h.1
  | cons a tl => exact ⟨a.1, a.2, tl, rfl⟩

/-- After a cursor at `k` in good standing is advanced, all its keys are above `k`. -/
theorem CursorOk.inc_keys {c : SegmentIterator K} {k : K} (h : CursorOk c)
    (hk : c.entryIterator.eqKey k = true) :
    c.inc.keys.Pairwise (fun a b => a < b) ∧ ∀ x ∈ c.inc.keys, k < x := by
  obtain ⟨v, tl, hr⟩ := SegmentIterator.rest_of_eqKey hk
  have hp := h.2
  unfold SegmentIterator.keys at hp ⊢
  rw [SegmentIterator.inc_rest, hr]
  rw [hr] at hp
  simp only [List.map_cons, List.tail_cons] at hp ⊢
  rw [List.pairwise_cons] at hp
  exact ⟨hp.2, hp.1⟩

theorem CursorOk.inc_ok {c : SegmentIterator K} {k : K} (h : CursorOk c)
    (hk : c.entryIterator.eqKey k = true) (hb : c.inc.toBool = true) : CursorOk c.inc :=
  ⟨(SegmentIterator.toBool_iff _).1 hb, (h.inc_keys hk).1⟩

/-- Every key a cursor in good standing has not yet passed is at or above its current
key. -/
theorem CursorOk.keyB_le {c : SegmentIterator K} (h : CursorOk c) :
    ∀ x ∈ c.keys, c.keyB ≤ (x : WithBot K) := by
  obtain ⟨k, v, tl, hr⟩ := h.exists_cons
  have hp := h.2
  rw [SegmentIterator.keyB_of_cons hr]
  unfold SegmentIterator.keys at hp ⊢
  rw [hr] at hp ⊢
  simp only [List.map_cons] at hp ⊢
  rw [List.pairwise_cons] at hp
  intro x hx
  rcases List.mem_cons.1 hx with rfl | hx
  · exact le_refl _
  · exact le_of_lt (WithBot.coe_lt_coe.2 (hp.1 x hx))

theorem CursorOk.inc_not_eqKey {c : SegmentIterator K} {k : K} (h : CursorOk c)
    (hk : c.entryIterator.eqKey k = true) : c.inc.entryIterator.eqKey k = false := by
  cases hq : c.inc.entryIterator.eqKey k with
  | false => rfl
  | true =>
    obtain ⟨v, tl, hr⟩ := SegmentIterator.rest_of_eqKey hq
    have hmem : k ∈ c.inc.keys := by
      unfold SegmentIterator.keys
      rw [hr]
      simp
    exact absurd ((h.inc_keys hk).2 k hmem) (lt_irrefl _)

theorem filterMap_eq_self_of {α : Type} (f : α → Option α) :
    ∀ (l : List α), (∀ a ∈ l, f a = some a) → l.filterMap f = l := by
  intro l
  induction l with
  | nil => intro _; rfl
  | cons a l ih =>
    intro h
    rw [List.filterMap_cons, h a (List.mem_cons_self _ _)]
    simp only
    rw [ih (fun b hb => h b (List.mem_cons_of_mem _ hb))]

theorem PriorityQueue.top_eq {gt : EntryIterator K → EntryIterator K → Bool}
    {q : PriorityQueue K} {t : SegmentIterator K} {r : PriorityQueue K}
    (h : PriorityQueue.popMax gt q = some (t, r)) :
    PriorityQueue.top gt q = some t ∧ PriorityQueue.pop gt q = r := by
  unfold PriorityQueue.top PriorityQueue.pop
  rw [h]
  exact ⟨rfl, rfl⟩

theorem PriorityQueue.top_nil (gt : EntryIterator K → EntryIterator K → Bool) :
    PriorityQueue.top gt ([] : PriorityQueue K) = none := rfl

theorem stepCursor_of_not_eqKey {k : K} {c : SegmentIterator K}
    (h : c.entryIterator.eqKey k = false) : stepCursor k c = some c := by
  unfold stepCursor
  simp [h]

theorem atKey_le_length (k : K) (q : PriorityQueue K) : atKey k q ≤ q.length :=
  List.countP_le_length _

/-- A frontier of cursors none of which is at the end holds at most as many cursors as
entries not yet passed. -/
theorem PriorityQueue.length_le_remaining :
    ∀ (q : PriorityQueue K), (∀ c ∈ q, c.entryIterator.rest ≠ []) →
      q.length ≤ PriorityQueue.remaining q := by
  intro q
  induction q with
  | nil => intro _; simp [PriorityQueue.remaining]
  | cons c q ih =>
    intro h
    have h1 := ih (fun d hd => h d (List.mem_cons_of_mem _ hd))
    have h2 : 0 < c.entryIterator.rest.length :=
      List.length_pos.2 (h c (List.mem_cons_self _ _))
    unfold PriorityQueue.remaining at h1 ⊢
    simp only [List.map_cons, List.sum_cons, List.length_cons]
    omega

/-- The inner loop advances exactly the cursors at `top_key`: its result is, up to the order
of the underlying list, the frontier with every cursor at `top_key` advanced. -/
theorem shadowLoop_spec {gt : EntryIterator K → EntryIterator K → Bool}
    (hgt : GtCompatible gt) (k : K) :
    ∀ (n : Nat) (q : PriorityQueue K), (∀ c ∈ q, CursorOk c) →
      (∀ c ∈ q, (k : WithBot K) ≤ c.keyB) → atKey k q < n →
      ∃ q2, DictionaryMerger.shadowLoop gt n q k = some q2 ∧ List.Perm q2 (advanceAll k q) := by
  intro n
  induction n with
  | zero => intro q _ _ h; omega
  | succ n ih =>
    intro q hok hle hcnt
    unfold DictionaryMerger.shadowLoop
    cases hp : PriorityQueue.popMax gt q with
    | none =>
      have hq := PriorityQueue.popMax_eq_none hp
      subst hq
      rw [PriorityQueue.top_nil]
      exact ⟨[], rfl, List.Perm.refl _⟩
    | some tr =>
      obtain ⟨t, r⟩ := tr
      obtain ⟨htop, hpop⟩ := PriorityQueue.top_eq hp
      have hperm := PriorityQueue.popMax_perm hp
      have hmin := PriorityQueue.popMax_key hgt hp
      have htq : t ∈ q := hperm.symm.subset (List.mem_cons_self _ _)
      have hrq : ∀ c ∈ r, c ∈ q := fun c hc => hperm.symm.subset (List.mem_cons_of_mem _ hc)
      rw [htop]
      simp only [hpop]
      cases hk : t.entryIterator.eqKey k with
      | true =>
        simp only [if_true]
        have hstep : List.Perm (advanceAll k q) (advanceAll k (t :: r)) := by
          unfold advanceAll
          exact hperm.filterMap _
        have hcq : atKey k q = atKey k r + 1 := by
          unfold atKey
          rw [hperm.countP_eq, List.countP_cons]
          simp [hk]
        have hne := (hok t htq).inc_not_eqKey hk
        cases hb : t.inc.toBool with
        | true =>
          simp only [if_true]
          have hok2 : ∀ c ∈ PriorityQueue.push r t.inc, CursorOk c := by
            intro c hc
            rcases List.mem_append.1 hc with hc | hc
            · exact hok c (hrq c hc)
            · rw [List.mem_singleton.1 hc]
              exact (hok t htq).inc_ok hk hb
          have hle2 : ∀ c ∈ PriorityQueue.push r t.inc, (k : WithBot K) ≤ c.keyB := by
            intro c hc
            rcases List.mem_append.1 hc with hc | hc
            · exact hle c (hrq c hc)
            · rw [List.mem_singleton.1 hc]
              obtain ⟨k1, v1, tl1, hr1⟩ := ((hok t htq).inc_ok hk hb).exists_cons
              rw [SegmentIterator.keyB_of_cons hr1]
              have : k1 ∈ t.inc.keys := by
                unfold SegmentIterator.keys
                rw [hr1]
                simp
              exact le_of_lt (WithBot.coe_lt_coe.2 (((hok t htq).inc_keys hk).2 k1 this))
          have hc2 : atKey k (PriorityQueue.push r t.inc) < n := by
            unfold atKey PriorityQueue.push
            rw [List.countP_append, List.countP_cons]
            unfold atKey at hcq hcnt
            simp only [List.countP_nil, hne]
            simp only [Bool.false_eq_true, if_false]
            omega
          obtain ⟨q2, h2, hp2⟩ := ih _ hok2 hle2 hc2
          refine ⟨q2, h2, hp2.trans ?_⟩
          refine List.Perm.trans ?_ hstep.symm
          unfold advanceAll PriorityQueue.push
          have e1 : stepCursor k t = some t.inc := by
            unfold stepCursor
            simp [hk, hb]
          rw [List.filterMap_append]
          simp only [List.filterMap_cons, List.filterMap_nil,
            stepCursor_of_not_eqKey hne, e1]
          exact List.perm_append_singleton _ _
        | false =>
          simp only [Bool.false_eq_true, if_false]
          have hc2 : atKey k r < n := by omega
          obtain ⟨q2, h2, hp2⟩ := ih r (fun c hc => hok c (hrq c hc))
            (fun c hc => hle c (hrq c hc)) hc2
          refine ⟨q2, h2, hp2.trans ?_⟩
          refine List.Perm.trans ?_ hstep.symm
          unfold advanceAll
          have e1 : stepCursor k t = none := by
            unfold stepCursor
            simp [hk, hb]
          simp only [List.filterMap_cons, e1]
          exact List.Perm.refl _
      | false =>
        simp only [Bool.false_eq_true, if_false]
        refine ⟨q, rfl, ?_⟩
        have hall : ∀ c ∈ q, stepCursor k c = some c := by
          intro c hc
          apply stepCursor_of_not_eqKey
          have htk : (k : WithBot K) < t.keyB := by
            refine lt_of_le_of_ne (hle t htq) ?_
            intro he
            have := (SegmentIterator.eqKey_iff t k).2 he.symm
            rw [hk] at this
            cases this
          cases hc2 : c.entryIterator.eqKey k with
          | false => rfl
          | true =>
            have hck := (SegmentIterator.eqKey_iff c k).1 hc2
            rcases List.mem_cons.1 (hperm.subset hc) with rfl | hcr
            · rw [hk] at hc2
              cases hc2
            · have := hmin c hcr
              rw [hck] at this
              exact absurd (lt_of_lt_of_le htk this) (lt_irrefl _)
        unfold advanceAll
        rw [filterMap_eq_self_of _ q hall]

/-- A cursor kept by a pass for key `k`, the least current key of the frontier: it has the
segment index it had, its entries are entries it had, it is in good standing, and all its
keys are above `k`. -/
theorem stepCursor_some {k : K} {c d : SegmentIterator K} (hc : CursorOk c)
    (hle : (k : WithBot K) ≤ c.keyB) (h : stepCursor k c = some d) :
    d.segment_index_ = c.segment_index_ ∧
    (∀ e ∈ d.entryIterator.rest, e ∈ c.entryIterator.rest) ∧
    CursorOk d ∧ ∀ x ∈ d.keys, k < x := by
  unfold stepCursor at h
  cases hk : c.entryIterator.eqKey k with
  | true =>
    rw [hk] at h
    simp only [if_true] at h
    cases hb : c.inc.toBool with
    | false => rw [hb] at h; simp at h
    | true =>
      rw [hb] at h
      simp only [if_true, Option.some.injEq] at h
      subst h
      refine ⟨rfl, ?_, hc.inc_ok hk hb, (hc.inc_keys hk).2⟩
      intro e he
      rw [SegmentIterator.inc_rest] at he
      exact List.mem_of_mem_tail he
  | false =>
    rw [hk] at h
    simp only [Bool.false_eq_true, if_false, Option.some.injEq] at h
    subst h
    refine ⟨rfl, fun e he => he, hc, ?_⟩
    intro x hx
    have h1 : (k : WithBot K) < c.keyB := by
      refine lt_of_le_of_ne hle ?_
      intro he
      have := (SegmentIterator.eqKey_iff c k).2 he.symm
      rw [hk] at this
      cases this
    exact WithBot.coe_lt_coe.1 (lt_of_lt_of_le h1 (hc.keyB_le x hx))

/-- A key of a cursor before the pass for `k` is `k` itself or a key of the cursor kept for
it. -/
theorem stepCursor_keys {k : K} {c : SegmentIterator K} (x : K) (hx : x ∈ c.keys) :
    x = k ∨ ∃ d, stepCursor k c = some d ∧ x ∈ d.keys := by
  unfold stepCursor
  cases hk : c.entryIterator.eqKey k with
  | false => exact Or.inr ⟨c, by simp, hx⟩
  | true =>
    obtain ⟨v, tl, hr⟩ := SegmentIterator.rest_of_eqKey hk
    unfold SegmentIterator.keys at hx
    rw [hr] at hx
    simp only [List.map_cons, List.mem_cons] at hx
    rcases hx with hx | hx
    · exact Or.inl hx
    · right
      have hrest : c.inc.entryIterator.rest = tl := by
        rw [SegmentIterator.inc_rest, hr]
        rfl
      have hb : c.inc.toBool = true := by
        rw [SegmentIterator.toBool_iff, hrest]
        intro h0
        rw [h0] at hx
        simp at hx
      refine ⟨c.inc, by simp [hb], ?_⟩
      unfold SegmentIterator.keys
      rw [hrest]
      exact hx

theorem stepCursor_index {k : K} {c d : SegmentIterator K} (h : stepCursor k c = some d) :
    d.segment_index_ = c.segment_index_ := by
  unfold stepCursor at h
  split at h
  · split at h
    · cases h; rfl
    · cases h
  · cases h; rfl

theorem advanceAll_index_sublist (k : K) :
    ∀ (q : PriorityQueue K),
      List.Sublist ((advanceAll k q).map SegmentIterator.segment_index_)
        (q.map SegmentIterator.segment_index_) := by
  intro q
  induction q with
  | nil => exact List.Sublist.refl _
  | cons c q ih =>
    unfold advanceAll at ih ⊢
    rw [List.filterMap_cons]
    cases h : stepCursor k c with
    | none => exact List.Sublist.cons _ ih
    | some d =>
      simp only [List.map_cons]
      rw [stepCursor_index h]
      exact List.Sublist.cons₂ _ ih

theorem stepCursor_length_le (k : K) (c : SegmentIterator K) :
    ((stepCursor k c).map (fun d => d.entryIterator.rest.length)).getD 0 ≤
      c.entryIterator.rest.length := by
  unfold stepCursor
  split
  · split
    · simp [SegmentIterator.inc_rest]
    · simp
  · simp

theorem advanceAll_remaining_le (k : K) :
    ∀ (q : PriorityQueue K),
      PriorityQueue.remaining (advanceAll k q) ≤ PriorityQueue.remaining q := by
  intro q
  induction q with
  | nil => exact le_refl _
  | cons c q ih =>
    have h1 := stepCursor_length_le k c
    unfold advanceAll PriorityQueue.remaining at ih ⊢
    rw [List.filterMap_cons]
    cases h : stepCursor k c with
    | none =>
      simp only [List.map_cons, List.sum_cons]
      omega
    | some d =>
      rw [h] at h1
      simp only [Option.map_some', Option.getD_some] at h1
      simp only [List.map_cons, List.sum_cons]
      omega

/-- Advancing the cursors at `k` passes at least one entry when some cursor is at `k`. -/
theorem advanceAll_remaining_lt (k : K) :
    ∀ (q : PriorityQueue K), (∃ c ∈ q, c.entryIterator.eqKey k = true) →
      PriorityQueue.remaining (advanceAll k q) < PriorityQueue.remaining q := by
  intro q
  induction q with
  | nil => intro h; obtain ⟨c, hc, _⟩ := h; cases hc
  | cons c q ih =>
    intro h
    have h2 := advanceAll_remaining_le k q
    unfold advanceAll PriorityQueue.remaining at ih h2 ⊢
    rw [List.filterMap_cons]
    cases hk : c.entryIterator.eqKey k with
    | true =>
      obtain ⟨v, tl, hr⟩ := SegmentIterator.rest_of_eqKey hk
      have h1 := stepCursor_length_le k c
      have hs : stepCursor k c = if c.inc.toBool then some c.inc else none := by
        unfold stepCursor
        simp [hk]
      cases hb : c.inc.toBool with
      | true =>
        rw [hb] at hs
        simp only [if_true] at hs
        rw [hs]
        simp only [List.map_cons, List.sum_cons, SegmentIterator.inc_rest, hr, List.tail_cons,
          List.length_cons]
        omega
      | false =>
        rw [hb] at hs
        simp only [Bool.false_eq_true, if_false] at hs
        rw [hs]
        simp only [List.map_cons, List.sum_cons, hr, List.length_cons]
        omega
    | false =>
      have hq : ∃ d ∈ q, d.entryIterator.eqKey k = true := by
        obtain ⟨d, hd, hdk⟩ := h
        rcases List.mem_cons.1 hd with rfl | hd
        · rw [hk] at hdk
          cases hdk
        · exact ⟨d, hd, hdk⟩
      have h3 := ih hq
      rw [stepCursor_of_not_eqKey hk]
      simp only [List.map_cons, List.sum_cons]
      omega

theorem PriorityQueue.remaining_perm {q1 q2 : PriorityQueue K} (h : List.Perm q1 q2) :
    PriorityQueue.remaining q1 = PriorityQueue.remaining q2 := by
  unfold PriorityQueue.remaining
  exact (h.map _).sum_eq

end Cursors

/-! ## The drain loop -/

section Drain

variable {K : Type} [LinearOrder K] {σ : Type}

/-- One pass of the outer loop: with the winner `t` at key `k` popped from a frontier in
good standing, the inner loop completes within its bound, and after the winner is advanced
and pushed again the frontier is the one before the pass with every cursor at `k`
advanced. -/
theorem pass_frontier {gt : EntryIterator K → EntryIterator K → Bool}
    (hgt : GtCompatible gt) {q r : PriorityQueue K} {t : SegmentIterator K}
    (hq : FrontierOk q) (hp : PriorityQueue.popMax gt q = some (t, r))
    {k : K} (hk : t.entryIterator.eqKey k = true) :
    ∃ q2, DictionaryMerger.shadowLoop gt (PriorityQueue.remaining r + 1) r k = some q2 ∧
      List.Perm (if t.inc.toBool then PriorityQueue.push q2 t.inc else q2) (advanceAll k q) := by
  have hperm := PriorityQueue.popMax_perm hp
  have hmin := PriorityQueue.popMax_key hgt hp
  have hrq : ∀ c ∈ r, c ∈ q := fun c hc => hperm.symm.subset (List.mem_cons_of_mem _ hc)
  have htk := (SegmentIterator.eqKey_iff t k).1 hk
  have hcnt : atKey k r < PriorityQueue.remaining r + 1 := by
    have h1 := atKey_le_length k r
    have h2 := PriorityQueue.length_le_remaining r (fun c hc => (hq.1 c (hrq c hc)).1)
    omega
  obtain ⟨q2, h2, hp2⟩ := shadowLoop_spec hgt k _ r (fun c hc => hq.1 c (hrq c hc))
    (fun c hc => htk ▸ hmin c hc) hcnt
  refine ⟨q2, h2, ?_⟩
  have hstep : List.Perm (advanceAll k q) (advanceAll k (t :: r)) := by
    unfold advanceAll
    exact hperm.filterMap _
  refine List.Perm.trans ?_ hstep.symm
  unfold advanceAll at hp2 ⊢
  rw [List.filterMap_cons]
  cases hb : t.inc.toBool with
  | true =>
    have e1 : stepCursor k t = some t.inc := by
      unfold stepCursor
      simp [hk, hb]
    simp only [if_true, e1]
    unfold PriorityQueue.push
    exact (List.perm_append_singleton _ _).trans (List.Perm.cons _ hp2)
  | false =>
    have e1 : stepCursor k t = none := by
      unfold stepCursor
      simp [hk, hb]
    simp only [Bool.false_eq_true, if_false, e1]
    exact hp2

/-- A frontier in good standing stays so when the cursors at its least key are advanced. -/
theorem FrontierOk.advanceAll_ok {q : PriorityQueue K} (hq : FrontierOk q) {k : K}
    (hle : ∀ c ∈ q, (k : WithBot K) ≤ c.keyB) : FrontierOk (advanceAll k q) := by
  constructor
  · intro d hd
    unfold keyvi.dictionary.advanceAll at hd
    obtain ⟨c, hc, hs⟩ := List.mem_filterMap.1 hd
    exact (stepCursor_some (hq.1 c hc) (hle c hc) hs).2.2.1
  · exact hq.2.sublist (advanceAll_index_sublist k q)

theorem FrontierOk.of_perm {q1 q2 : PriorityQueue K} (hq : FrontierOk q1)
    (h : List.Perm q1 q2) : FrontierOk q2 :=
  ⟨fun c hc => hq.1 c (h.symm.subset hc), (h.map _).nodup_iff.1 hq.2⟩

theorem DrainPost.of_perm_frontier {gt : EntryIterator K → EntryIterator K → Bool}
    {q1 q2 : PriorityQueue K} {out : List (Emit K)} (hd : DrainPost gt q1 out)
    (h : List.Perm q1 q2) : DrainPost gt q2 out := by
  obtain ⟨hA, hB, hC, hE⟩ := hd
  refine ⟨?_, ?_, hC, ?_⟩
  · intro e he
    obtain ⟨c, hc, h1⟩ := hA e he
    exact ⟨c, h.subset hc, h1⟩
  · intro c hc
    exact hB c (h.symm.subset hc)
  · intro hg e he c hc
    exact hE hg e he c (h.symm.subset hc)

/-- The pass for the winner `t`, followed by passes that satisfy `DrainPost` on the advanced
frontier, satisfies `DrainPost` on the frontier before the pass. -/
theorem DrainPost.cons {gt : EntryIterator K → EntryIterator K → Bool}
    (hgt : GtCompatible gt) {q r : PriorityQueue K} {t : SegmentIterator K}
    (hq : FrontierOk q) (hp : PriorityQueue.popMax gt q = some (t, r))
    {k : K} {v : Nat} {tl : List (K × Nat)} (hr : t.entryIterator.rest = (k, v) :: tl)
    {out : List (Emit K)} (hd : DrainPost gt (advanceAll k q) out)
    (h : ValueHandle) (calls : List ValueStoreCall) :
    DrainPost gt q ({ top_key := k, segment_it := t, valueId := v, handle := h,
                      valueStoreCalls := calls } :: out) := by
  have hperm := PriorityQueue.popMax_perm hp
  have hmin := PriorityQueue.popMax_key hgt hp
  have htq : t ∈ q := hperm.symm.subset (List.mem_cons_self _ _)
  have htk : t.keyB = (k : WithBot K) := SegmentIterator.keyB_of_cons hr
  have hle : ∀ c ∈ q, (k : WithBot K) ≤ c.keyB := by
    intro c hc
    rcases List.mem_cons.1 (hperm.subset hc) with rfl | hc
    · exact le_of_eq htk.symm
    · exact htk ▸ hmin c hc
  obtain ⟨hA, hB, hC, hE⟩ := hd
  have hmem : ∀ d ∈ advanceAll k q, ∃ c ∈ q, stepCursor k c = some d := by
    intro d hd
    unfold advanceAll at hd
    exact List.mem_filterMap.1 hd
  have habove : ∀ e ∈ out, k < e.top_key := by
    intro e he
    obtain ⟨d, hd, _, hin⟩ := hA e he
    obtain ⟨c, hc, hs⟩ := hmem d hd
    refine (stepCursor_some (hq.1 c hc) (hle c hc) hs).2.2.2 e.top_key ?_
    unfold SegmentIterator.keys
    exact List.mem_map.2 ⟨_, hin, rfl⟩
  refine ⟨?_, ?_, ?_, ?_⟩
  · intro e he
    rcases List.mem_cons.1 he with rfl | he
    · exact ⟨t, htq, rfl, by rw [hr]; exact List.mem_cons_self _ _⟩
    · obtain ⟨d, hd, hi, hin⟩ := hA e he
      obtain ⟨c, hc, hs⟩ := hmem d hd
      have h1 := stepCursor_some (hq.1 c hc) (hle c hc) hs
      exact ⟨c, hc, h1.1 ▸ hi, h1.2.1 _ hin⟩
  · intro c hc x hx
    rcases stepCursor_keys (k := k) x hx with rfl | ⟨d, hs, hxd⟩
    · exact ⟨_, List.mem_cons_self _ _, rfl⟩
    · have hd : d ∈ advanceAll k q := by
        unfold advanceAll
        exact List.mem_filterMap.2 ⟨c, hc, hs⟩
      obtain ⟨e, he, hek⟩ := hB d hd x hxd
      exact ⟨e, List.mem_cons_of_mem _ he, hek⟩
  · simp only [List.map_cons]
    rw [List.pairwise_cons]
    refine ⟨?_, hC⟩
    intro x hx
    obtain ⟨e, he, rfl⟩ := List.mem_map.1 hx
    exact habove e he
  · intro hg e he c hc hkc
    rcases List.mem_cons.1 he with rfl | he
    · simp only at hkc ⊢
      rcases List.mem_cons.1 (hperm.subset hc) with rfl | hcr
      · exact le_refl _
      · have h1 : c.keyB ≤ (k : WithBot K) := (hq.1 c hc).keyB_le k hkc
        have h2 : c.keyB = t.keyB := by
          rw [htk]
          exact le_antisymm h1 (hle c hc)
        exact PriorityQueue.popMax_index hg hp c hcr h2
    · rcases stepCursor_keys (k := k) e.top_key hkc with hek | ⟨d, hs, hxd⟩
      · exact absurd (habove e he) (by rw [hek]; exact lt_irrefl _)
      · have hd : d ∈ advanceAll k q := by
          unfold advanceAll
          exact List.mem_filterMap.2 ⟨c, hc, hs⟩
        have := hE hg e he d hd hxd
        rw [stepCursor_index hs] at this
        exact this

theorem DrainPost.nil (gt : EntryIterator K → EntryIterator K → Bool) :
    DrainPost gt ([] : PriorityQueue K) [] := by
  refine ⟨?_, ?_, ?_, ?_⟩
  · intro e he; cases he
  · intro c hc; cases hc
  · exact List.Pairwise.nil
  · intro _ e he; cases he

/-- The outer loop, started on a frontier in good standing with a bound above the number of
entries not yet passed, completes, and its passes satisfy `DrainPost`. -/
theorem drainLoop_spec {gt : EntryIterator K → EntryIterator K → Bool}
    (hgt : GtCompatible gt) (vs : ValueStoreT σ) (ap : Bool) :
    ∀ (n : Nat) (q : PriorityQueue K) (s : σ), FrontierOk q →
      PriorityQueue.remaining q ≤ n →
      ∃ out s1, DictionaryMerger.drainLoop gt vs ap (n + 1) q s = .ok (out, s1) ∧
        DrainPost gt q out := by
  intro n
  induction n with
  | zero =>
    intro q s hq hn
    have hlen := PriorityQueue.length_le_remaining q (fun c hc => (hq.1 c hc).1)
    have hq0 : q = [] := List.length_eq_zero.1 (by omega)
    subst hq0
    exact ⟨[], s, rfl, DrainPost.nil gt⟩
  | succ n ih =>
    intro q s hq hn
    cases hp : PriorityQueue.popMax gt q with
    | none =>
      have hq0 := PriorityQueue.popMax_eq_none hp
      subst hq0
      exact ⟨[], s, rfl, DrainPost.nil gt⟩
    | some tr =>
      obtain ⟨t, r⟩ := tr
      obtain ⟨htop, hpop⟩ := PriorityQueue.top_eq hp
      have hperm := PriorityQueue.popMax_perm hp
      have htq : t ∈ q := hperm.symm.subset (List.mem_cons_self _ _)
      obtain ⟨k, v, tl, hr⟩ := (hq.1 t htq).exists_cons
      have hkey : t.entryIterator.GetKey = some k := by
        unfold EntryIterator.GetKey
        rw [hr]
        rfl
      have hval : t.entryIterator.GetValueId = some v := by
        unfold EntryIterator.GetValueId
        rw [hr]
        rfl
      have hk : t.entryIterator.eqKey k = true :=
        (SegmentIterator.eqKey_iff t k).2 (SegmentIterator.keyB_of_cons hr)
      obtain ⟨q2, h2, hp2⟩ := pass_frontier hgt hq hp hk
      have hmin := PriorityQueue.popMax_key hgt hp
      have hle : ∀ c ∈ q, (k : WithBot K) ≤ c.keyB := by
        intro c hc
        rcases List.mem_cons.1 (hperm.subset hc) with rfl | hc
        · exact le_of_eq (SegmentIterator.keyB_of_cons hr).symm
        · exact (SegmentIterator.keyB_of_cons hr) ▸ hmin c hc
      have hq3 : FrontierOk (if t.inc.toBool then PriorityQueue.push q2 t.inc else q2) :=
        (hq.advanceAll_ok hle).of_perm hp2.symm
      have hrem : PriorityQueue.remaining
          (if t.inc.toBool then PriorityQueue.push q2 t.inc else q2) ≤ n := by
        rw [PriorityQueue.remaining_perm hp2]
        have := advanceAll_remaining_lt k q ⟨t, htq, hk⟩
        omega
      obtain ⟨out, s1, hrec, hpost⟩ :=
        ih _ (DictionaryMerger.makeHandle vs ap s t v).2.2 hq3 hrem
      refine ⟨{ top_key := k, segment_it := t, valueId := v,
                handle := (DictionaryMerger.makeHandle vs ap s t v).1,
                valueStoreCalls := (DictionaryMerger.makeHandle vs ap s t v).2.1 } :: out, s1,
        ?_, DrainPost.cons hgt hq hp hr (hpost.of_perm_frontier hp2) _ _⟩
      rw [DictionaryMerger.drainLoop]
      simp only [htop, hpop, hkey, hval, h2, hrec]

/-- The inner loop never removes a cursor that is at the end. -/
theorem shadowLoop_keeps_end (gt : EntryIterator K → EntryIterator K → Bool) (k : K) :
    ∀ (n : Nat) (q q2 : PriorityQueue K), DictionaryMerger.shadowLoop gt n q k = some q2 →
      ∀ c ∈ q, c.entryIterator.rest = [] → c ∈ q2 := by
  intro n
  induction n with
  | zero => intro q q2 h; cases h
  | succ n ih =>
    intro q q2 h c hc hend
    unfold DictionaryMerger.shadowLoop at h
    cases hp : PriorityQueue.popMax gt q with
    | none =>
      have hq0 := PriorityQueue.popMax_eq_none hp
      subst hq0
      cases hc
    | some tr =>
      obtain ⟨t, r⟩ := tr
      obtain ⟨htop, hpop⟩ := PriorityQueue.top_eq hp
      have hperm := PriorityQueue.popMax_perm hp
      rw [htop] at h
      simp only [hpop] at h
      cases hk : t.entryIterator.eqKey k with
      | false =>
        rw [hk] at h
        simp only [Bool.false_eq_true, if_false, Option.some.injEq] at h
        exact h ▸ hc
      | true =>
        rw [hk] at h
        simp only [if_true] at h
        have hcr : c ∈ r := by
          rcases List.mem_cons.1 (hperm.subset hc) with rfl | hcr
          · obtain ⟨v, tl, hr⟩ := SegmentIterator.rest_of_eqKey hk
            rw [hend] at hr
            cases hr
          · exact hcr
        refine ih _ q2 h c ?_ hend
        split
        · exact List.mem_append_left _ hcr
        · exact hcr

/-- A frontier that holds a cursor at the end makes the outer loop leave defined behaviour:
the cursor stays in the frontier until it is popped as the winner, and then its key is
read. -/
theorem drainLoop_error_of_end (gt : EntryIterator K → EntryIterator K → Bool)
    (vs : ValueStoreT σ) (ap : Bool) :
    ∀ (n : Nat) (q : PriorityQueue K) (s : σ), (∃ c ∈ q, c.entryIterator.rest = []) →
      ∃ e, DictionaryMerger.drainLoop gt vs ap n q s = .error e := by
  intro n
  induction n with
  | zero => intro q s _; exact ⟨_, rfl⟩
  | succ n ih =>
    intro q s hex
    obtain ⟨c, hc, hend⟩ := hex
    rw [DictionaryMerger.drainLoop]
    cases hp : PriorityQueue.popMax gt q with
    | none =>
      have hq0 := PriorityQueue.popMax_eq_none hp
      subst hq0
      cases hc
    | some tr =>
      obtain ⟨t, r⟩ := tr
      obtain ⟨htop, hpop⟩ := PriorityQueue.top_eq hp
      have hperm := PriorityQueue.popMax_perm hp
      simp only [htop, hpop]
      cases hr : t.entryIterator.rest with
      | nil =>
        have hkey : t.entryIterator.GetKey = none := by
          unfold EntryIterator.GetKey
          rw [hr]
          rfl
        simp only [hkey]
        exact ⟨_, rfl⟩
      | cons a tl =>
        have hkey : t.entryIterator.GetKey = some a.1 := by
          unfold EntryIterator.GetKey
          rw [hr]
          rfl
        have hval : t.entryIterator.GetValueId = some a.2 := by
          unfold EntryIterator.GetValueId
          rw [hr]
          rfl
        simp only [hkey, hval]
        have hcr : c ∈ r := by
          rcases List.mem_cons.1 (hperm.subset hc) with rfl | hcr
          · rw [hend] at hr
            cases hr
          · exact hcr
        cases h2 : DictionaryMerger.shadowLoop gt (PriorityQueue.remaining r + 1) r a.1 with
        | none => exact ⟨_, rfl⟩
        | some q2 =>
          simp only
          have hc2 := shadowLoop_keeps_end gt a.1 _ r q2 h2 c hcr hend
          have hc3 : c ∈ (if t.inc.toBool then PriorityQueue.push q2 t.inc else q2) := by
            split
            · exact List.mem_append_left _ hc2
            · exact hc2
          obtain ⟨e, he⟩ := ih _ (DictionaryMerger.makeHandle vs ap s t a.2).2.2 ⟨c, hc3, hend⟩
          rw [he]
          exact ⟨_, rfl⟩

end Drain

/-! ## Seeding and the whole of `Merge` -/

section MergeFacts

variable {K : Type} [LinearOrder K] {σ : Type}

theorem seed_append : ∀ (l : List (Automata K)) (i : Nat) (q : PriorityQueue K),
    DictionaryMerger.seed l i q = q ++ DictionaryMerger.seed l i [] := by
  intro l
  induction l with
  | nil => intro i q; simp [DictionaryMerger.seed]
  | cons a l ih =>
    intro i q
    unfold DictionaryMerger.seed
    rw [ih (i + 1) (PriorityQueue.push q _), ih (i + 1) (PriorityQueue.push [] _)]
    unfold PriorityQueue.push
    simp

theorem seed_cons (a : Automata K) (l : List (Automata K)) (i : Nat) :
    DictionaryMerger.seed (a :: l) i [] =
      { entry_iterator_ptr_ := EntryIterator.ofAutomata a, segment_index_ := i } ::
        DictionaryMerger.seed l (i + 1) [] := by
  rw [DictionaryMerger.seed, seed_append]
  rfl

/-- The cursors the seeding loop pushes: the `j`-th registered dictionary gets a cursor at
its first entry with segment index `i + j`. -/
theorem mem_seed : ∀ (l : List (Automata K)) (i : Nat) (c : SegmentIterator K),
    c ∈ DictionaryMerger.seed l i [] ↔
      ∃ j a, l[j]? = some a ∧
        c = { entry_iterator_ptr_ := EntryIterator.ofAutomata a, segment_index_ := i + j } := by
  intro l
  induction l with
  | nil => intro i c; simp [DictionaryMerger.seed]
  | cons a l ih =>
    intro i c
    rw [seed_cons, List.mem_cons, ih]
    constructor
    · rintro (h | ⟨j, b, hj, hc⟩)
      · exact ⟨0, a, by simp, by rw [h]; rfl⟩
      · exact ⟨j + 1, b, by simpa using hj, by rw [hc]; congr 1; omega⟩
    · rintro ⟨j, b, hj, hc⟩
      cases j with
      | zero =>
        left
        simp only [List.getElem?_cons_zero, Option.some.injEq] at hj
        rw [hc, hj]
        rfl
      | succ j =>
        right
        exact ⟨j, b, by simpa using hj, by rw [hc]; congr 1; omega⟩

theorem seed_index : ∀ (l : List (Automata K)) (i : Nat),
    (DictionaryMerger.seed l i []).map SegmentIterator.segment_index_ =
      List.range' i l.length := by
  intro l
  induction l with
  | nil => intro i; rfl
  | cons a l ih =>
    intro i
    rw [seed_cons, List.map_cons, ih]
    rfl

/-- Seeding strictly ascending, non-empty sources gives a frontier in good standing. -/
theorem seed_frontierOk (m : DictionaryMerger K) (hs : SourcesSorted m)
    (hne : SourcesNonEmpty m) : FrontierOk (DictionaryMerger.seed m.dicts_to_merge_ 0 []) := by
  constructor
  · intro c hc
    obtain ⟨j, a, hj, rfl⟩ := (mem_seed _ _ _).1 hc
    have ha : a ∈ m.dicts_to_merge_ := List.getElem?_mem hj
    exact ⟨hne a ha, hs a ha⟩
  · rw [seed_index]
    exact List.nodup_range' _ _

/-- What a completed `Merge` returns, in terms of its outer loop. -/
theorem Merge_ok_inv {gt : EntryIterator K → EntryIterator K → Bool} {vs : ValueStoreT σ}
    {m m1 : DictionaryMerger K} {filename : String} {run : MergeRun K}
    (h : DictionaryMerger.Merge gt vs m filename = .ok (m1, run)) :
    ∃ s1, DictionaryMerger.drainLoop gt vs m.append_merge_
        (PriorityQueue.remaining (DictionaryMerger.seed m.dicts_to_merge_ 0 []) + 1)
        (DictionaryMerger.seed m.dicts_to_merge_ 0 [])
        (vs.create (if m.append_merge_ then ValueStoreArg.inputFiles m.inputFiles_
                    else ValueStoreArg.params m.params_)) = .ok (run.emits, s1) ∧
      m1 = { m with dicts_to_merge_ := [] } ∧
      run.valueStoreArg = (if m.append_merge_ then ValueStoreArg.inputFiles m.inputFiles_
                           else ValueStoreArg.params m.params_) ∧
      run.calls = run.emits.map (fun e => GeneratorCall.Add e.top_key e.handle) ++
        [.CloseFeeding, .SetManifestFromString m.manifest_, .WriteToFile filename] := by
  unfold DictionaryMerger.Merge at h
  simp only at h
  split at h
  · cases h
  · next emits s1 heq =>
    simp only [Except.ok.injEq, Prod.mk.injEq] at h
    obtain ⟨h1, h2⟩ := h
    subst h1 h2
    exact ⟨s1, heq, rfl, rfl, rfl⟩

/-- A `Merge` whose outer loop completes, completes. -/
theorem Merge_ok_of_drain {gt : EntryIterator K → EntryIterator K → Bool} {vs : ValueStoreT σ}
    {m : DictionaryMerger K} (filename : String) {out : List (Emit K)} {s1 : σ}
    (h : DictionaryMerger.drainLoop gt vs m.append_merge_
        (PriorityQueue.remaining (DictionaryMerger.seed m.dicts_to_merge_ 0 []) + 1)
        (DictionaryMerger.seed m.dicts_to_merge_ 0 [])
        (vs.create (if m.append_merge_ then ValueStoreArg.inputFiles m.inputFiles_
                    else ValueStoreArg.params m.params_)) = .ok (out, s1)) :
    ∃ run, DictionaryMerger.Merge gt vs m filename = .ok ({ m with dicts_to_merge_ := [] }, run) ∧
      run.emits = out := by
  unfold DictionaryMerger.Merge
  simp only [h]
  exact ⟨_, rfl, rfl⟩

/-- A registered source without entries makes `Merge` leave defined behaviour, whatever the
cursor comparison `>` is: the seeding loop pushes its cursor, which is at the end. -/
theorem Merge_error_of_empty_source (gt : EntryIterator K → EntryIterator K → Bool)
    (vs : ValueStoreT σ) (m : DictionaryMerger K) (filename : String)
    (h : ¬ SourcesNonEmpty m) : ∃ e, DictionaryMerger.Merge gt vs m filename = .error e := by
  unfold SourcesNonEmpty at h
  push_neg at h
  obtain ⟨a, ha, hempty⟩ := h
  obtain ⟨j, hj, hja⟩ := List.getElem_of_mem ha
  have hmem : ({ entry_iterator_ptr_ := EntryIterator.ofAutomata a, segment_index_ := 0 + j } :
      SegmentIterator K) ∈ DictionaryMerger.seed m.dicts_to_merge_ 0 [] :=
    (mem_seed _ _ _).2 ⟨j, a, by rw [List.getElem?_eq_getElem hj, hja], rfl⟩
  obtain ⟨e, he⟩ := drainLoop_error_of_end gt vs m.append_merge_
    (PriorityQueue.remaining (DictionaryMerger.seed m.dicts_to_merge_ 0 []) + 1)
    (DictionaryMerger.seed m.dicts_to_merge_ 0 [])
    (vs.create (if m.append_merge_ then ValueStoreArg.inputFiles m.inputFiles_
                else ValueStoreArg.params m.params_)) ⟨_, hmem, hempty⟩
  refine ⟨e, ?_⟩
  unfold DictionaryMerger.Merge
  simp only [he]

/-- The outcome of `Merge` on strictly ascending sources: when it completes, no source is
empty and its passes satisfy `DrainPost` on the seeded frontier; and it completes when no
source is empty. -/
theorem Merge_spec {gt : EntryIterator K → EntryIterator K → Bool} (hgt : GtCompatible gt)
    (vs : ValueStoreT σ) (m : DictionaryMerger K) (filename : String)
    (hs : SourcesSorted m) :
    (∀ m1 run, DictionaryMerger.Merge gt vs m filename = .ok (m1, run) →
      SourcesNonEmpty m ∧
      DrainPost gt (DictionaryMerger.seed m.dicts_to_merge_ 0 []) run.emits) ∧
    (SourcesNonEmpty m → ∃ m1 run, DictionaryMerger.Merge gt vs m filename = .ok (m1, run)) := by
  have hdrain : SourcesNonEmpty m → ∃ out s1, DictionaryMerger.drainLoop gt vs m.append_merge_
        (PriorityQueue.remaining (DictionaryMerger.seed m.dicts_to_merge_ 0 []) + 1)
        (DictionaryMerger.seed m.dicts_to_merge_ 0 [])
        (vs.create (if m.append_merge_ then ValueStoreArg.inputFiles m.inputFiles_
                    else ValueStoreArg.params m.params_)) = .ok (out, s1) ∧
        DrainPost gt (DictionaryMerger.seed m.dicts_to_merge_ 0 []) out :=
    fun hne => drainLoop_spec hgt vs m.append_merge_ _ _ _ (seed_frontierOk m hs hne)
      (le_refl _)
  constructor
  · intro m1 run hok
    have hne : SourcesNonEmpty m := by
      by_contra hcon
      obtain ⟨e, he⟩ := Merge_error_of_empty_source gt vs m filename hcon
      rw [he] at hok
      cases hok
    obtain ⟨out, s1, hd, hpost⟩ := hdrain hne
    obtain ⟨s2, hd2, _⟩ := Merge_ok_inv hok
    rw [hd] at hd2
    simp only [Except.ok.injEq, Prod.mk.injEq] at hd2
    exact ⟨hne, hd2.1 ▸ hpost⟩
  · intro hne
    obtain ⟨out, s1, hd, _⟩ := hdrain hne
    obtain ⟨run, hrun, _⟩ := Merge_ok_of_drain filename hd
    exact ⟨_, run, hrun⟩

theorem addedKeys_eq {gt : EntryIterator K → EntryIterator K → Bool} {vs : ValueStoreT σ}
    {m m1 : DictionaryMerger K} {filename : String} {run : MergeRun K}
    (h : DictionaryMerger.Merge gt vs m filename = .ok (m1, run)) :
    run.addedKeys = run.emits.map Emit.top_key := by
  obtain ⟨_, _, _, _, hcalls⟩ := Merge_ok_inv h
  unfold MergeRun.addedKeys
  rw [hcalls, List.filterMap_append, List.filterMap_map]
  simp only [List.filterMap_cons, GeneratorCall.addKey?, List.filterMap_nil, List.append_nil]
  induction run.emits with
  | nil => rfl
  | cons e l ih => simp [List.filterMap_cons, GeneratorCall.addKey?, ih]

/-- One completed pass of the outer loop, read off its result. -/
theorem drainLoop_succ_ok {gt : EntryIterator K → EntryIterator K → Bool} {vs : ValueStoreT σ}
    {ap : Bool} {n : Nat} {q : PriorityQueue K} {s s1 : σ} {out : List (Emit K)}
    (h : DictionaryMerger.drainLoop gt vs ap (n + 1) q s = .ok (out, s1)) :
    (q = [] ∧ out = [] ∧ s1 = s) ∨
    ∃ t k v q2 rest,
      PriorityQueue.top gt q = some t ∧
      t.entryIterator.GetKey = some k ∧ t.entryIterator.GetValueId = some v ∧
      DictionaryMerger.shadowLoop gt (PriorityQueue.remaining (PriorityQueue.pop gt q) + 1)
        (PriorityQueue.pop gt q) k = some q2 ∧
      DictionaryMerger.drainLoop gt vs ap n
        (if t.inc.toBool then PriorityQueue.push q2 t.inc else q2)
        (DictionaryMerger.makeHandle vs ap s t v).2.2 = .ok (rest, s1) ∧
      out = { top_key := k, segment_it := t, valueId := v,
              handle := (DictionaryMerger.makeHandle vs ap s t v).1,
              valueStoreCalls := (DictionaryMerger.makeHandle vs ap s t v).2.1 } :: rest := by
  rw [DictionaryMerger.drainLoop] at h
  cases hp : PriorityQueue.popMax gt q with
  | none =>
    have hq0 := PriorityQueue.popMax_eq_none hp
    subst hq0
    left
    rw [PriorityQueue.top_nil] at h
    simp only [Except.ok.injEq, Prod.mk.injEq] at h
    exact ⟨rfl, h.1.symm, h.2.symm⟩
  | some tr =>
    obtain ⟨t, r⟩ := tr
    obtain ⟨htop, hpop⟩ := PriorityQueue.top_eq hp
    right
    simp only [htop] at h
    cases hkey : t.entryIterator.GetKey with
    | none => simp only [hkey] at h; cases h
    | some k =>
      cases hval : t.entryIterator.GetValueId with
      | none => simp only [hkey, hval] at h; cases h
      | some v =>
        simp only [hkey, hval] at h
        cases h2 : DictionaryMerger.shadowLoop gt
            (PriorityQueue.remaining (PriorityQueue.pop gt q) + 1) (PriorityQueue.pop gt q) k with
        | none => simp only [h2] at h; cases h
        | some q2 =>
          simp only [h2] at h
          cases hrec : DictionaryMerger.drainLoop gt vs ap n
              (if t.inc.toBool then PriorityQueue.push q2 t.inc else q2)
              (DictionaryMerger.makeHandle vs ap s t v).2.2 with
          | error e => simp only [hrec] at h; cases h
          | ok res =>
            obtain ⟨rest, s2⟩ := res
            simp only [hrec, Except.ok.injEq, Prod.mk.injEq] at h
            obtain ⟨h3, h4⟩ := h
            subst h4
            exact ⟨t, k, v, q2, rest, htop, hkey, hval, h2, hrec, h3.symm⟩

/-- Every pass of a completed outer loop read its key and its value id from the winner
cursor as popped, before advancing it. -/
theorem drainLoop_reads {gt : EntryIterator K → EntryIterator K → Bool} {vs : ValueStoreT σ}
    {ap : Bool} :
    ∀ (n : Nat) (q : PriorityQueue K) (s s1 : σ) (out : List (Emit K)),
      DictionaryMerger.drainLoop gt vs ap n q s = .ok (out, s1) →
      ∀ e ∈ out, e.segment_it.entryIterator.GetKey = some e.top_key ∧
        e.segment_it.entryIterator.GetValueId = some e.valueId := by
  intro n
  induction n with
  | zero => intro q s s1 out h; cases h
  | succ n ih =>
    intro q s s1 out h e he
    rcases drainLoop_succ_ok h with ⟨_, h0, _⟩ | ⟨t, k, v, q2, rest, _, hk, hv, _, hrec, hout⟩
    · rw [h0] at he
      cases he
    · rw [hout] at he
      rcases List.mem_cons.1 he with rfl | he
      · exact ⟨hk, hv⟩
      · exact ih _ _ _ _ hrec e he

/-- The passes of a completed `Merge` on strictly ascending sources, in terms of the
registered dictionaries: each pass emits an entry of the dictionary whose segment index the
winner carries; every key of every dictionary is emitted; the emitted keys ascend strictly;
and, when `>` is the negation of `<`, no dictionary holding an emitted key has a higher
segment index than the winner. -/
theorem Merge_sources {gt : EntryIterator K → EntryIterator K → Bool} (hgt : GtCompatible gt)
    {vs : ValueStoreT σ} {m m1 : DictionaryMerger K} {filename : String} {run : MergeRun K}
    (hs : SourcesSorted m)
    (hok : DictionaryMerger.Merge gt vs m filename = .ok (m1, run)) :
    (∀ e ∈ run.emits, ∃ a, m.dicts_to_merge_[e.segment_it.segmentIndex]? = some a ∧
        (e.top_key, e.valueId) ∈ a.file.entries) ∧
    (∀ a ∈ m.dicts_to_merge_, ∀ x ∈ a.keys, ∃ e ∈ run.emits, e.top_key = x) ∧
    (run.emits.map Emit.top_key).Pairwise (fun a b => a < b) ∧
    (GtNotLess gt → ∀ e ∈ run.emits, ∀ j a, m.dicts_to_merge_[j]? = some a →
        e.top_key ∈ a.keys → j ≤ e.segment_it.segmentIndex) := by
  obtain ⟨_, hA, hB, hC, hE⟩ := (Merge_spec hgt vs m filename hs).1 m1 run hok
  refine ⟨?_, ?_, hC, ?_⟩
  · intro e he
    obtain ⟨c, hc, hi, hin⟩ := hA e he
    obtain ⟨j, a, hj, rfl⟩ := (mem_seed _ _ _).1 hc
    refine ⟨a, ?_, hin⟩
    have : e.segment_it.segmentIndex = j := by
      unfold SegmentIterator.segmentIndex
      rw [← hi]
      simp
    rw [this]
    exact hj
  · intro a ha x hx
    obtain ⟨j, hj⟩ := List.mem_iff_getElem?.1 ha
    exact hB _ ((mem_seed _ _ _).2 ⟨j, a, hj, rfl⟩) x hx
  · intro hg e he j a hj hx
    have := hE hg e he _ ((mem_seed _ _ _).2 ⟨j, a, hj, rfl⟩) hx
    unfold SegmentIterator.segmentIndex
    simpa using this

end MergeFacts

/-! ## Completion without the ordering assumptions -/

section Completion

variable {K : Type} [LinearOrder K] {σ : Type}

theorem PriorityQueue.remaining_push (q : PriorityQueue K) (c : SegmentIterator K) :
    PriorityQueue.remaining (PriorityQueue.push q c) =
      PriorityQueue.remaining q + c.entryIterator.rest.length := by
  unfold PriorityQueue.remaining PriorityQueue.push
  simp

theorem PriorityQueue.remaining_popMax {gt : EntryIterator K → EntryIterator K → Bool}
    {q r : PriorityQueue K} {t : SegmentIterator K}
    (hp : PriorityQueue.popMax gt q = some (t, r)) :
    PriorityQueue.remaining q = t.entryIterator.rest.length + PriorityQueue.remaining r := by
  rw [PriorityQueue.remaining_perm (PriorityQueue.popMax_perm hp)]
  unfold PriorityQueue.remaining
  simp

/-- The inner loop completes within a bound above the number of entries not yet passed,
whatever the order of the keys is; it leaves no cursor at the end in the frontier and does
not add entries. -/
theorem shadowLoop_total (gt : EntryIterator K → EntryIterator K → Bool) (k : K) :
    ∀ (n : Nat) (q : PriorityQueue K), (∀ c ∈ q, c.entryIterator.rest ≠ []) →
      PriorityQueue.remaining q < n →
      ∃ q2, DictionaryMerger.shadowLoop gt n q k = some q2 ∧
        (∀ c ∈ q2, c.entryIterator.rest ≠ []) ∧
        PriorityQueue.remaining q2 ≤ PriorityQueue.remaining q := by
  intro n
  induction n with
  | zero => intro q _ h; omega
  | succ n ih =>
    intro q hne hrem
    unfold DictionaryMerger.shadowLoop
    cases hp : PriorityQueue.popMax gt q with
    | none =>
      have hq0 := PriorityQueue.popMax_eq_none hp
      subst hq0
      rw [PriorityQueue.top_nil]
      exact ⟨[], rfl, hne, le_refl _⟩
    | some tr =>
      obtain ⟨t, r⟩ := tr
      obtain ⟨htop, hpop⟩ := PriorityQueue.top_eq hp
      have hperm := PriorityQueue.popMax_perm hp
      have hsum := PriorityQueue.remaining_popMax hp
      have hrq : ∀ c ∈ r, c ∈ q := fun c hc => hperm.symm.subset (List.mem_cons_of_mem _ hc)
      rw [htop]
      simp only [hpop]
      cases hk : t.entryIterator.eqKey k with
      | false =>
        simp only [Bool.false_eq_true, if_false]
        exact ⟨q, rfl, hne, le_refl _⟩
      | true =>
        simp only [if_true]
        obtain ⟨v, tl, hr⟩ := SegmentIterator.rest_of_eqKey hk
        have hlen : t.inc.entryIterator.rest.length + 1 = t.entryIterator.rest.length := by
          rw [SegmentIterator.inc_rest, hr]
          simp
        cases hb : t.inc.toBool with
        | true =>
          simp only [if_true]
          have h1 : ∀ c ∈ PriorityQueue.push r t.inc, c.entryIterator.rest ≠ [] := by
            intro c hc
            rcases List.mem_append.1 hc with hc | hc
            · exact hne c (hrq c hc)
            · rw [List.mem_singleton.1 hc]
              exact (SegmentIterator.toBool_iff _).1 hb
          have h2 : PriorityQueue.remaining (PriorityQueue.push r t.inc) < n := by
            rw [PriorityQueue.remaining_push]
            omega
          obtain ⟨q2, hq2, hne2, hle2⟩ := ih _ h1 h2
          refine ⟨q2, hq2, hne2, ?_⟩
          rw [PriorityQueue.remaining_push] at hle2
          omega
        | false =>
          simp only [Bool.false_eq_true, if_false]
          obtain ⟨q2, hq2, hne2, hle2⟩ := ih r (fun c hc => hne c (hrq c hc)) (by omega)
          exact ⟨q2, hq2, hne2, by omega⟩

/-- The outer loop completes within a bound above the number of entries not yet passed when
no cursor of the frontier is at the end, whatever the order of the keys is. -/
theorem drainLoop_total (gt : EntryIterator K → EntryIterator K → Bool) (vs : ValueStoreT σ)
    (ap : Bool) :
    ∀ (n : Nat) (q : PriorityQueue K) (s : σ), (∀ c ∈ q, c.entryIterator.rest ≠ []) →
      PriorityQueue.remaining q ≤ n →
      ∃ out s1, DictionaryMerger.drainLoop gt vs ap (n + 1) q s = .ok (out, s1) := by
  intro n
  induction n with
  | zero =>
    intro q s hne hn
    have hlen := PriorityQueue.length_le_remaining q hne
    have hq0 : q = [] := List.length_eq_zero.1 (by omega)
    subst hq0
    exact ⟨[], s, rfl⟩
  | succ n ih =>
    intro q s hne hn
    cases hp : PriorityQueue.popMax gt q with
    | none =>
      have hq0 := PriorityQueue.popMax_eq_none hp
      subst hq0
      exact ⟨[], s, rfl⟩
    | some tr =>
      obtain ⟨t, r⟩ := tr
      obtain ⟨htop, hpop⟩ := PriorityQueue.top_eq hp
      have hperm := PriorityQueue.popMax_perm hp
      have hsum := PriorityQueue.remaining_popMax hp
      have htq : t ∈ q := hperm.symm.subset (List.mem_cons_self _ _)
      have hrq : ∀ c ∈ r, c ∈ q := fun c hc => hperm.symm.subset (List.mem_cons_of_mem _ hc)
      cases hr : t.entryIterator.rest with
      | nil => exact absurd hr (hne t htq)
      | cons a tl =>
        have hkey : t.entryIterator.GetKey = some a.1 := by
          unfold EntryIterator.GetKey
          rw [hr]
          rfl
        have hval : t.entryIterator.GetValueId = some a.2 := by
          unfold EntryIterator.GetValueId
          rw [hr]
          rfl
        obtain ⟨q2, hq2, hne2, hle2⟩ := shadowLoop_total gt a.1 (PriorityQueue.remaining r + 1) r
          (fun c hc => hne c (hrq c hc)) (by omega)
        have hlen : t.inc.entryIterator.rest.length = tl.length := by
          rw [SegmentIterator.inc_rest, hr]
          rfl
        have hne3 : ∀ c ∈ (if t.inc.toBool then PriorityQueue.push q2 t.inc else q2),
            c.entryIterator.rest ≠ [] := by
          intro c hc
          split at hc
          · next hb =>
            rcases List.mem_append.1 hc with hc | hc
            · exact hne2 c hc
            · rw [List.mem_singleton.1 hc]
              exact (SegmentIterator.toBool_iff _).1 hb
          · exact hne2 c hc
        have hrem3 : PriorityQueue.remaining
            (if t.inc.toBool then PriorityQueue.push q2 t.inc else q2) ≤ n := by
          rw [hr] at hsum
          simp only [List.length_cons] at hsum
          split
          · rw [PriorityQueue.remaining_push]
            omega
          · omega
        obtain ⟨out, s1, hrec⟩ :=
          ih _ (DictionaryMerger.makeHandle vs ap s t a.2).2.2 hne3 hrem3
        refine ⟨{ top_key := a.1, segment_it := t, valueId := a.2,
                  handle := (DictionaryMerger.makeHandle vs ap s t a.2).1,
                  valueStoreCalls := (DictionaryMerger.makeHandle vs ap s t a.2).2.1 } :: out,
          s1, ?_⟩
        rw [DictionaryMerger.drainLoop]
        simp only [htop, hpop, hkey, hval, hq2, hrec]

/-- `Merge` completes exactly when no registered source is empty. -/
theorem Merge_completes_iff (gt : EntryIterator K → EntryIterator K → Bool)
    (vs : ValueStoreT σ) (m : DictionaryMerger K) (filename : String) :
    (∃ m1 run, DictionaryMerger.Merge gt vs m filename = .ok (m1, run)) ↔ SourcesNonEmpty m := by
  constructor
  · rintro ⟨m1, run, hok⟩
    by_contra hcon
    obtain ⟨e, he⟩ := Merge_error_of_empty_source gt vs m filename hcon
    rw [he] at hok
    cases hok
  · intro hne
    have hq : ∀ c ∈ DictionaryMerger.seed m.dicts_to_merge_ 0 [],
        c.entryIterator.rest ≠ [] := by
      intro c hc
      obtain ⟨j, a, hj, rfl⟩ := (mem_seed _ _ _).1 hc
      exact hne a (List.getElem?_mem hj)
    obtain ⟨out, s1, hd⟩ := drainLoop_total gt vs m.append_merge_ _ _
      (vs.create (if m.append_merge_ then ValueStoreArg.inputFiles m.inputFiles_
                  else ValueStoreArg.params m.params_)) hq (le_refl _)
    obtain ⟨run, hrun, _⟩ := Merge_ok_of_drain filename hd
    exact ⟨_, run, hrun⟩

end Completion

/-! ## The drain loop read by read -/

section Steps

variable {K : Type} [LinearOrder K] {σ : Type}

theorem PriorityQueue.top_some {gt : EntryIterator K → EntryIterator K → Bool}
    {q : PriorityQueue K} {t : SegmentIterator K} (h : PriorityQueue.top gt q = some t) :
    ∃ r, PriorityQueue.popMax gt q = some (t, r) ∧ PriorityQueue.pop gt q = r := by
  unfold PriorityQueue.top at h
  unfold PriorityQueue.pop
  cases hpm : PriorityQueue.popMax gt q with
  | none => rw [hpm] at h; cases h
  | some tr =>
    obtain ⟨t1, r⟩ := tr
    rw [hpm] at h
    simp only [Option.map_some', Option.some.injEq] at h
    subst h
    exact ⟨r, rfl, rfl⟩

theorem PriorityQueue.top_eq_none {gt : EntryIterator K → EntryIterator K → Bool}
    {q : PriorityQueue K} (h : PriorityQueue.top gt q = none) : q = [] := by
  unfold PriorityQueue.top at h
  cases hpm : PriorityQueue.popMax gt q with
  | none => exact PriorityQueue.popMax_eq_none hpm
  | some tr => rw [hpm] at h; cases h

/-- The three kinds of step: the pop of a winner, the pop of a shadowed duplicate, and the
end of a pass. -/
theorem DrainState.step_cases {gt : EntryIterator K → EntryIterator K → Bool}
    {c d : DrainState K} (h : DrainState.step gt c = some d) :
    (c.segment_it = none ∧ ∃ t r k, PriorityQueue.popMax gt c.pqueue = some (t, r) ∧
      t.entryIterator.GetKey = some k ∧
      d = { c with pqueue := r, segment_it := some t }) ∨
    (∃ w k t r, c.segment_it = some w ∧ w.entryIterator.GetKey = some k ∧
      PriorityQueue.popMax gt c.pqueue = some (t, r) ∧ t.entryIterator.eqKey k = true ∧
      d = { c with pqueue := if t.inc.toBool then PriorityQueue.push r t.inc else r,
                   shadowPops := c.shadowPops + 1, advances := c.advances + 1 }) ∨
    (∃ w k, c.segment_it = some w ∧ w.entryIterator.GetKey = some k ∧
      (∀ t, PriorityQueue.top gt c.pqueue = some t → t.entryIterator.eqKey k = false) ∧
      d = DrainState.finishPass c w) := by
  unfold DrainState.step at h
  cases hw : c.segment_it with
  | none =>
    left
    rw [hw] at h
    simp only at h
    cases htop : PriorityQueue.top gt c.pqueue with
    | none => rw [htop] at h; cases h
    | some t =>
      rw [htop] at h
      simp only at h
      obtain ⟨r, hpm, hpop⟩ := PriorityQueue.top_some htop
      cases hk : t.entryIterator.GetKey with
      | none => rw [hk] at h; cases h
      | some k =>
        rw [hk] at h
        simp only [Option.some.injEq] at h
        refine ⟨rfl, t, r, k, hpm, hk, ?_⟩
        rw [← h, hpop]
  | some w =>
    right
    rw [hw] at h
    simp only at h
    cases hk : w.entryIterator.GetKey with
    | none => rw [hk] at h; cases h
    | some k =>
      rw [hk] at h
      simp only at h
      cases htop : PriorityQueue.top gt c.pqueue with
      | none =>
        right
        rw [htop] at h
        simp only [Option.some.injEq] at h
        refine ⟨w, k, rfl, hk, ?_, h.symm⟩
        intro t ht
        cases ht
      | some t =>
        rw [htop] at h
        simp only at h
        obtain ⟨r, hpm, hpop⟩ := PriorityQueue.top_some htop
        cases he : t.entryIterator.eqKey k with
        | true =>
          left
          rw [he] at h
          simp only [if_true, Option.some.injEq] at h
          refine ⟨w, k, t, r, rfl, hk, hpm, he, ?_⟩
          rw [← h, hpop]
        | false =>
          right
          rw [he] at h
          simp only [Bool.false_eq_true, if_false, Option.some.injEq] at h
          refine ⟨w, k, rfl, hk, ?_, h.symm⟩
          intro t1 ht1
          simp only [Option.some.injEq] at ht1
          rw [← ht1]
          exact he

theorem DrainState.stepN_succ_front (gt : EntryIterator K → EntryIterator K → Bool) :
    ∀ (n : Nat) (c : DrainState K),
      DrainState.stepN gt (n + 1) c = (DrainState.step gt c).bind (DrainState.stepN gt n) := by
  intro n
  induction n with
  | zero =>
    intro c
    simp [DrainState.stepN]
  | succ n ih =>
    intro c
    rw [DrainState.stepN, ih c]
    cases DrainState.step gt c with
    | none => rfl
    | some d => rfl

theorem DrainState.stepN_add (gt : EntryIterator K → EntryIterator K → Bool) :
    ∀ (b a : Nat) (c : DrainState K),
      DrainState.stepN gt (a + b) c =
        (DrainState.stepN gt a c).bind (DrainState.stepN gt b) := by
  intro b
  induction b with
  | zero =>
    intro a c
    simp [DrainState.stepN]
  | succ b ih =>
    intro a c
    rw [← Nat.add_assoc, DrainState.stepN, ih a c]
    cases DrainState.stepN gt a c with
    | none => rfl
    | some d => rfl

/-- A step adds no segment index: the indices after it are, up to order, among the indices
before it, each as often at most. -/
theorem DrainState.step_indices {gt : EntryIterator K → EntryIterator K → Bool}
    {c d : DrainState K} (h : DrainState.step gt c = some d) :
    List.Subperm d.indices c.indices := by
  rcases DrainState.step_cases h with ⟨hw, t, r, k, hpm, _, hd⟩ |
    ⟨w, k, t, r, hw, _, hpm, _, hd⟩ | ⟨w, k, hw, _, _, hd⟩
  · have hperm := (PriorityQueue.popMax_perm hpm).map SegmentIterator.segment_index_
    subst hd
    simp only [DrainState.indices, hw, Option.map_some', Option.toList_some, Option.map_none',
      Option.toList_none, List.append_nil]
    apply List.Perm.subperm
    refine List.Perm.trans ?_ hperm.symm
    simp only [List.map_cons]
    exact List.perm_append_singleton _ _
  · have hperm := (PriorityQueue.popMax_perm hpm).map SegmentIterator.segment_index_
    subst hd
    simp only [DrainState.indices, hw, Option.map_some', Option.toList_some]
    rw [List.subperm_append_right]
    rw [hperm.subperm_left]
    simp only [List.map_cons]
    split
    · apply List.Perm.subperm
      unfold PriorityQueue.push
      simp only [List.map_append, List.map_cons, List.map_nil, SegmentIterator.inc_index]
      exact List.perm_append_singleton _ _
    · exact List.Subperm.cons_self
  · subst hd
    simp only [DrainState.indices, DrainState.finishPass, hw, Option.map_some',
      Option.toList_some, Option.map_none', Option.toList_none, List.append_nil]
    split
    · apply List.Perm.subperm
      unfold PriorityQueue.push
      simp only [List.map_append, List.map_cons, List.map_nil, SegmentIterator.inc_index]
      exact List.Perm.refl _
    · exact (List.sublist_append_left _ _).subperm

/-- Every cursor after a step is a cursor before it, advanced or not: same segment index,
same dictionary. -/
theorem DrainState.step_origin {gt : EntryIterator K → EntryIterator K → Bool}
    {c d : DrainState K} (h : DrainState.step gt c = some d) :
    ∀ x ∈ d.cursors, ∃ y ∈ c.cursors, y.segment_index_ = x.segment_index_ ∧
      y.entryIterator.fsa = x.entryIterator.fsa := by
  rcases DrainState.step_cases h with ⟨hw, t, r, k, hpm, _, hd⟩ |
    ⟨w, k, t, r, hw, _, hpm, _, hd⟩ | ⟨w, k, hw, _, _, hd⟩
  · have hperm := PriorityQueue.popMax_perm hpm
    subst hd
    intro x hx
    simp only [DrainState.cursors, hw, Option.toList_some, Option.toList_none,
      List.append_nil, List.mem_append, List.mem_singleton] at hx ⊢
    refine ⟨x, ?_, rfl, rfl⟩
    rcases hx with hx | rfl
    · exact hperm.symm.subset (List.mem_cons_of_mem _ hx)
    · exact hperm.symm.subset (List.mem_cons_self _ _)
  · have hperm := PriorityQueue.popMax_perm hpm
    subst hd
    intro x hx
    simp only [DrainState.cursors, hw, Option.toList_some, List.mem_append,
      List.mem_singleton] at hx ⊢
    rcases hx with hx | rfl
    · have hcases : x ∈ r ∨ x = t.inc := by
        split at hx
        · rcases List.mem_append.1 hx with hx | hx
          · exact Or.inl hx
          · exact Or.inr (List.mem_singleton.1 hx)
        · exact Or.inl hx
      rcases hcases with hxr | rfl
      · exact ⟨x, Or.inl (hperm.symm.subset (List.mem_cons_of_mem _ hxr)), rfl, rfl⟩
      · exact ⟨t, Or.inl (hperm.symm.subset (List.mem_cons_self _ _)), rfl, rfl⟩
    · exact ⟨x, Or.inr rfl, rfl, rfl⟩
  · subst hd
    intro x hx
    simp only [DrainState.cursors, DrainState.finishPass, hw, Option.toList_some,
      Option.toList_none, List.append_nil, List.mem_append, List.mem_singleton] at hx ⊢
    have hcases : x ∈ c.pqueue ∨ x = w.inc := by
      split at hx
      · rcases List.mem_append.1 hx with hx | hx
        · exact Or.inl hx
        · exact Or.inr (List.mem_singleton.1 hx)
      · exact Or.inl hx
    rcases hcases with hxq | rfl
    · exact ⟨x, Or.inl hxq, rfl, rfl⟩
    · exact ⟨w, Or.inr rfl, rfl, rfl⟩

/-- The segment indices of a state reached from the seeded frontier of `Merge` are, up to
order, among `0 .. N-1`, each at most once, and every cursor iterates the registered
dictionary at its segment index. -/
theorem DrainState.stepN_indices (gt : EntryIterator K → EntryIterator K → Bool)
    (m : DictionaryMerger K) :
    ∀ (n : Nat) (c : DrainState K), DrainState.stepN gt n (DrainState.start m) = some c →
      List.Subperm c.indices (List.range' 0 m.dicts_to_merge_.length) ∧
      ∀ x ∈ c.cursors, m.dicts_to_merge_[x.segment_index_]? = some x.entryIterator.fsa := by
  intro n
  induction n with
  | zero =>
    intro c h
    simp only [DrainState.stepN, Option.some.injEq] at h
    subst h
    constructor
    · simp only [DrainState.indices, DrainState.start, Option.map_none', Option.toList_none,
        List.append_nil]
      rw [seed_index]
    · intro x hx
      simp only [DrainState.cursors, DrainState.start, Option.toList_none,
        List.append_nil] at hx
      obtain ⟨j, a, hj, rfl⟩ := (mem_seed _ _ _).1 hx
      simpa [EntryIterator.ofAutomata, SegmentIterator.entryIterator] using hj
  | succ n ih =>
    intro c h
    rw [DrainState.stepN] at h
    cases hn : DrainState.stepN gt n (DrainState.start m) with
    | none => rw [hn] at h; cases h
    | some b =>
      rw [hn] at h
      have hstep : DrainState.step gt b = some c := h
      obtain ⟨h1, h2⟩ := ih b hn
      refine ⟨(DrainState.step_indices hstep).trans h1, ?_⟩
      intro x hx
      obtain ⟨y, hy, hyi, hyf⟩ := DrainState.step_origin hstep x hx
      rw [← hyi, ← hyf]
      exact h2 y hy

theorem SegmentIterator.getKey_of_rest_ne {x : SegmentIterator K}
    (h : x.entryIterator.rest ≠ []) : ∃ k, x.entryIterator.GetKey = some k := by
  unfold EntryIterator.GetKey
  cases hr : x.entryIterator.rest with
  | nil => exact absurd hr h
  | cons a tl => exact ⟨a.1, rfl⟩

theorem SegmentIterator.inc_length {x : SegmentIterator K} (h : x.entryIterator.rest ≠ []) :
    x.inc.entryIterator.rest.length + 1 = x.entryIterator.rest.length := by
  rw [SegmentIterator.inc_rest]
  cases hr : x.entryIterator.rest with
  | nil => exact absurd hr h
  | cons a tl => simp

/-- The entries not yet passed after a cursor is advanced and pushed again unless it
reached the end: those of the frontier and those the advanced cursor still has. -/
theorem PriorityQueue.remaining_push_inc (q : PriorityQueue K) (x : SegmentIterator K) :
    PriorityQueue.remaining (if x.inc.toBool then PriorityQueue.push q x.inc else q) =
      PriorityQueue.remaining q + x.inc.entryIterator.rest.length := by
  split
  · exact PriorityQueue.remaining_push q x.inc
  · next hb =>
    have h0 : x.inc.entryIterator.rest = [] := by
      by_contra hne
      exact hb ((SegmentIterator.toBool_iff _).2 hne)
    rw [h0]
    rfl

theorem mem_push_inc {q : PriorityQueue K} {x y : SegmentIterator K}
    (h : y ∈ (if x.inc.toBool then PriorityQueue.push q x.inc else q)) :
    y ∈ q ∨ (y = x.inc ∧ x.inc.entryIterator.rest ≠ []) := by
  split at h
  · next hb =>
    rcases List.mem_append.1 h with h | h
    · exact Or.inl h
    · exact Or.inr ⟨List.mem_singleton.1 h, (SegmentIterator.toBool_iff _).1 hb⟩
  · exact Or.inl h

/-- A step keeps the bookkeeping and brings the end of the loop nearer. -/
theorem DrainState.step_balanced {gt : EntryIterator K → EntryIterator K → Bool}
    {total : Nat} {c d : DrainState K} (h : DrainState.step gt c = some d)
    (hc : DrainState.Balanced total c) :
    DrainState.Balanced total d ∧ d.measure < c.measure := by
  obtain ⟨hne, hcount, htotal⟩ := hc
  rcases DrainState.step_cases h with ⟨hw, t, r, k, hpm, _, hd⟩ |
    ⟨w, k, t, r, hw, _, hpm, hk, hd⟩ | ⟨w, k, hw, _, _, hd⟩
  · have hperm := PriorityQueue.popMax_perm hpm
    have hsum := PriorityQueue.remaining_popMax hpm
    subst hd
    simp only [DrainState.cursors, DrainState.pending, hw, Option.toList_none,
      List.append_nil, Option.map_none', Option.getD_none] at hne htotal
    refine ⟨⟨?_, hcount, ?_⟩, ?_⟩
    · intro x hx
      simp only [DrainState.cursors, Option.toList_some, List.mem_append,
        List.mem_singleton] at hx
      rcases hx with hx | rfl
      · exact hne x (hperm.symm.subset (List.mem_cons_of_mem _ hx))
      · exact hne x (hperm.symm.subset (List.mem_cons_self _ _))
    · simp only [DrainState.pending, Option.map_some', Option.getD_some]
      omega
    · simp only [DrainState.measure, DrainState.pending, hw, Option.map_some',
        Option.getD_some, Option.isNone_some, Option.isNone_none, Option.map_none',
        Option.getD_none, Bool.false_eq_true, if_false, if_true]
      omega
  · have hperm := PriorityQueue.popMax_perm hpm
    have hsum := PriorityQueue.remaining_popMax hpm
    have htq : t ∈ c.cursors := by
      simp only [DrainState.cursors, List.mem_append]
      exact Or.inl (hperm.symm.subset (List.mem_cons_self _ _))
    have hlen := SegmentIterator.inc_length (hne t htq)
    have hrem := PriorityQueue.remaining_push_inc r t
    subst hd
    simp only [DrainState.pending, hw, Option.map_some', Option.getD_some] at htotal
    refine ⟨⟨?_, ?_, ?_⟩, ?_⟩
    · intro x hx
      simp only [DrainState.cursors, hw, Option.toList_some, List.mem_append,
        List.mem_singleton] at hx
      rcases hx with hx | rfl
      · rcases mem_push_inc hx with hxr | ⟨rfl, hxne⟩
        · apply hne
          simp only [DrainState.cursors, List.mem_append]
          exact Or.inl (hperm.symm.subset (List.mem_cons_of_mem _ hxr))
        · exact hxne
      · apply hne
        simp only [DrainState.cursors, hw, Option.toList_some, List.mem_append,
          List.mem_singleton]
        exact Or.inr trivial
    · simp only
      omega
    · simp only [DrainState.pending, hw, Option.map_some', Option.getD_some]
      rw [hrem]
      omega
    · simp only [DrainState.measure, DrainState.pending, hw, Option.map_some',
        Option.getD_some, Option.isNone_some, Bool.false_eq_true, if_false]
      rw [hrem]
      omega
  · have hwq : w ∈ c.cursors := by
      simp only [DrainState.cursors, hw, Option.toList_some, List.mem_append,
        List.mem_singleton]
      exact Or.inr trivial
    have hlen := SegmentIterator.inc_length (hne w hwq)
    have hrem := PriorityQueue.remaining_push_inc c.pqueue w
    subst hd
    simp only [DrainState.pending, hw, Option.map_some', Option.getD_some] at htotal
    refine ⟨⟨?_, ?_, ?_⟩, ?_⟩
    · intro x hx
      simp only [DrainState.cursors, DrainState.finishPass, Option.toList_none,
        List.append_nil] at hx
      rcases mem_push_inc hx with hxq | ⟨rfl, hxne⟩
      · apply hne
        simp only [DrainState.cursors, List.mem_append]
        exact Or.inl hxq
      · exact hxne
    · simp only [DrainState.finishPass]
      omega
    · simp only [DrainState.pending, DrainState.finishPass, Option.map_none',
        Option.getD_none]
      rw [hrem]
      omega
    · simp only [DrainState.measure, DrainState.pending, DrainState.finishPass, hw,
        Option.map_some', Option.getD_some, Option.isNone_some, Option.isNone_none,
        Option.map_none', Option.getD_none, Bool.false_eq_true, if_false, if_true]
      rw [hrem]
      omega

/-- With the bookkeeping in place the loop stops only at its end: on an empty frontier at
the head of the outer loop, never at a read from the end sentinel. -/
theorem DrainState.step_none_balanced {gt : EntryIterator K → EntryIterator K → Bool}
    {total : Nat} {c : DrainState K} (h : DrainState.step gt c = none)
    (hc : DrainState.Balanced total c) : c.pqueue = [] ∧ c.segment_it = none := by
  obtain ⟨hne, _, _⟩ := hc
  unfold DrainState.step at h
  cases hw : c.segment_it with
  | none =>
    rw [hw] at h
    simp only at h
    cases htop : PriorityQueue.top gt c.pqueue with
    | none => exact ⟨PriorityQueue.top_eq_none htop, rfl⟩
    | some t =>
      rw [htop] at h
      simp only at h
      obtain ⟨r, hpm, _⟩ := PriorityQueue.top_some htop
      have htq : t ∈ c.cursors := by
        simp only [DrainState.cursors, List.mem_append]
        exact Or.inl ((PriorityQueue.popMax_perm hpm).symm.subset (List.mem_cons_self _ _))
      obtain ⟨k, hk⟩ := SegmentIterator.getKey_of_rest_ne (hne t htq)
      rw [hk] at h
      cases h
  | some w =>
    rw [hw] at h
    simp only at h
    have hwq : w ∈ c.cursors := by
      simp only [DrainState.cursors, hw, Option.toList_some, List.mem_append,
        List.mem_singleton]
      exact Or.inr trivial
    obtain ⟨k, hk⟩ := SegmentIterator.getKey_of_rest_ne (hne w hwq)
    rw [hk] at h
    simp only at h
    cases htop : PriorityQueue.top gt c.pqueue with
    | none => rw [htop] at h; cases h
    | some t =>
      rw [htop] at h
      simp only at h
      split at h <;> cases h

/-- The bookkeeping holds at every state the loop reaches. -/
theorem DrainState.stepN_balanced (gt : EntryIterator K → EntryIterator K → Bool)
    {total : Nat} {c0 : DrainState K} (h0 : DrainState.Balanced total c0) :
    ∀ (n : Nat) (c : DrainState K), DrainState.stepN gt n c0 = some c →
      DrainState.Balanced total c := by
  intro n
  induction n with
  | zero =>
    intro c h
    simp only [DrainState.stepN, Option.some.injEq] at h
    exact h ▸ h0
  | succ n ih =>
    intro c h
    rw [DrainState.stepN] at h
    cases hn : DrainState.stepN gt n c0 with
    | none => rw [hn] at h; cases h
    | some b =>
      rw [hn] at h
      have hstep : DrainState.step gt b = some c := h
      exact (DrainState.step_balanced hstep (ih b hn)).1

/-- With the bookkeeping in place the loop ends: after finitely many reads the frontier is
empty at the head of the outer loop. -/
theorem DrainState.terminates (gt : EntryIterator K → EntryIterator K → Bool) {total : Nat} :
    ∀ (bound : Nat) (c : DrainState K), DrainState.Balanced total c → c.measure ≤ bound →
      ∃ n d, DrainState.stepN gt n c = some d ∧ DrainState.step gt d = none ∧
        d.pqueue = [] ∧ d.segment_it = none ∧ DrainState.Balanced total d := by
  intro bound
  induction bound with
  | zero =>
    intro c hc hm
    cases hs : DrainState.step gt c with
    | none =>
      obtain ⟨h1, h2⟩ := DrainState.step_none_balanced hs hc
      exact ⟨0, c, rfl, hs, h1, h2, hc⟩
    | some d =>
      have := (DrainState.step_balanced hs hc).2
      omega
  | succ bound ih =>
    intro c hc hm
    cases hs : DrainState.step gt c with
    | none =>
      obtain ⟨h1, h2⟩ := DrainState.step_none_balanced hs hc
      exact ⟨0, c, rfl, hs, h1, h2, hc⟩
    | some d =>
      obtain ⟨hd, hlt⟩ := DrainState.step_balanced hs hc
      obtain ⟨n, e, hn, he⟩ := ih d hd (by omega)
      refine ⟨n + 1, e, ?_, he⟩
      rw [DrainState.stepN_succ_front, hs]
      exact hn

theorem remaining_seed : ∀ (l : List (Automata K)) (i : Nat),
    PriorityQueue.remaining (DictionaryMerger.seed l i []) =
      (l.map (fun a => a.file.entries.length)).sum := by
  intro l
  induction l with
  | nil => intro i; rfl
  | cons a l ih =>
    intro i
    rw [seed_cons]
    have := ih (i + 1)
    unfold PriorityQueue.remaining at this ⊢
    simp only [List.map_cons, List.sum_cons]
    rw [this]
    rfl

/-- The bookkeeping holds at the seeded frontier when no registered source is empty. -/
theorem DrainState.start_balanced (m : DictionaryMerger K) (hne : SourcesNonEmpty m) :
    DrainState.Balanced (totalEntries m) (DrainState.start m) := by
  refine ⟨?_, rfl, ?_⟩
  · intro x hx
    simp only [DrainState.cursors, DrainState.start, Option.toList_none,
      List.append_nil] at hx
    obtain ⟨j, a, hj, rfl⟩ := (mem_seed _ _ _).1 hx
    exact hne a (List.getElem?_mem hj)
  · simp only [DrainState.pending, DrainState.start, Option.map_none', Option.getD_none]
    rw [remaining_seed]
    unfold totalEntries
    omega

/-- The inner loop as steps: from the head of the inner loop with the winner `w` at `k`
held, as many steps as duplicates are popped lead to the frontier the inner loop returns,
where the loop condition fails. -/
theorem shadowLoop_steps (gt : EntryIterator K → EntryIterator K → Bool) (k : K) :
    ∀ (n : Nat) (q q2 : PriorityQueue K), DictionaryMerger.shadowLoop gt n q k = some q2 →
      ∀ (w : SegmentIterator K) (a sp adv : Nat), w.entryIterator.GetKey = some k →
      ∃ j, DrainState.stepN gt j
          { pqueue := q, segment_it := some w, adds := a, shadowPops := sp, advances := adv } =
          some { pqueue := q2, segment_it := some w, adds := a, shadowPops := sp + j,
                 advances := adv + j } ∧
        ∀ t, PriorityQueue.top gt q2 = some t → t.entryIterator.eqKey k = false := by
  intro n
  induction n with
  | zero => intro q q2 h; cases h
  | succ n ih =>
    intro q q2 h w a sp adv hw
    unfold DictionaryMerger.shadowLoop at h
    cases htop : PriorityQueue.top gt q with
    | none =>
      rw [htop] at h
      simp only [Option.some.injEq] at h
      subst h
      refine ⟨0, rfl, ?_⟩
      intro t ht
      rw [htop] at ht
      cases ht
    | some t =>
      rw [htop] at h
      simp only at h
      cases hk : t.entryIterator.eqKey k with
      | false =>
        rw [hk] at h
        simp only [Bool.false_eq_true, if_false, Option.some.injEq] at h
        subst h
        refine ⟨0, rfl, ?_⟩
        intro t1 ht1
        rw [htop] at ht1
        simp only [Option.some.injEq] at ht1
        exact ht1 ▸ hk
      | true =>
        rw [hk] at h
        simp only [if_true] at h
        obtain ⟨j, hj, hcond⟩ := ih _ q2 h w a (sp + 1) (adv + 1) hw
        refine ⟨j + 1, ?_, hcond⟩
        have hstep : DrainState.step gt
            { pqueue := q, segment_it := some w, adds := a, shadowPops := sp, advances := adv } =
            some { pqueue := if t.inc.toBool then (PriorityQueue.pop gt q).push t.inc
                             else PriorityQueue.pop gt q,
                   segment_it := some w, adds := a, shadowPops := sp + 1,
                   advances := adv + 1 } := by
          unfold DrainState.step
          simp only [hw, htop, hk, if_true]
        rw [DrainState.stepN_succ_front, hstep]
        simp only [Option.bind]
        rw [hj]
        have e1 : sp + 1 + j = sp + (j + 1) := by omega
        have e2 : adv + 1 + j = adv + (j + 1) := by omega
        rw [e1, e2]

/-- The outer loop as steps: when the bounded outer loop completes with the passes `out`,
the steps from the head of the outer loop lead to the end of the loop, with one `Add`
counted per pass. -/
theorem drainLoop_steps {gt : EntryIterator K → EntryIterator K → Bool} {vs : ValueStoreT σ}
    {ap : Bool} :
    ∀ (n : Nat) (q : PriorityQueue K) (s s1 : σ) (out : List (Emit K)),
      DictionaryMerger.drainLoop gt vs ap n q s = .ok (out, s1) →
      ∀ (a sp adv : Nat), ∃ j d, DrainState.stepN gt j
          { pqueue := q, segment_it := none, adds := a, shadowPops := sp, advances := adv } =
          some d ∧ DrainState.step gt d = none ∧ d.pqueue = [] ∧ d.segment_it = none ∧
        d.adds = a + out.length := by
  intro n
  induction n with
  | zero => intro q s s1 out h; cases h
  | succ n ih =>
    intro q s s1 out h a sp adv
    rcases drainLoop_succ_ok h with ⟨hq, h0, _⟩ | ⟨t, k, v, q2, rest, htop, hk, _, hsh, hrec, hout⟩
    · subst hq h0
      exact ⟨0, _, rfl, rfl, rfl, rfl, rfl⟩
    · have hstep1 : DrainState.step gt
          { pqueue := q, segment_it := none, adds := a, shadowPops := sp, advances := adv } =
          some { pqueue := PriorityQueue.pop gt q, segment_it := some t, adds := a,
                 shadowPops := sp, advances := adv } := by
        unfold DrainState.step
        simp only [htop, hk]
      obtain ⟨j1, hj1, hcond⟩ := shadowLoop_steps gt k _ _ q2 hsh t a sp adv hk
      have hstep2 : DrainState.step gt
          { pqueue := q2, segment_it := some t, adds := a, shadowPops := sp + j1,
            advances := adv + j1 } =
          some { pqueue := if t.inc.toBool then q2.push t.inc else q2, segment_it := none,
                 adds := a + 1, shadowPops := sp + j1, advances := adv + j1 + 1 } := by
        unfold DrainState.step
        simp only [hk]
        cases htop2 : PriorityQueue.top gt q2 with
        | none => rfl
        | some t2 =>
          simp only [hcond t2 htop2, Bool.false_eq_true, if_false]
          rfl
      obtain ⟨j2, d, hj2, hd⟩ := ih _ _ _ _ hrec (a + 1) (sp + j1) (adv + j1 + 1)
      refine ⟨1 + j1 + 1 + j2, d, ?_, hd.1, hd.2.1, hd.2.2.1, ?_⟩
      · rw [DrainState.stepN_add, DrainState.stepN, DrainState.stepN_add]
        have h1 : DrainState.stepN gt 1
            { pqueue := q, segment_it := none, adds := a, shadowPops := sp, advances := adv } =
            some { pqueue := PriorityQueue.pop gt q, segment_it := some t, adds := a,
                   shadowPops := sp, advances := adv } := by
          rw [DrainState.stepN_succ_front, hstep1]
          rfl
        rw [h1]
        simp only [Option.bind]
        rw [hj1]
        simp only [hstep2]
        exact hj2
      · rw [hd.2.2.2, hout, List.length_cons]
        omega

/-- The loop is deterministic: two runs of steps from the same state that both stop, stop
in the same state. -/
theorem DrainState.final_unique {gt : EntryIterator K → EntryIterator K → Bool}
    {c d1 d2 : DrainState K} {n1 n2 : Nat}
    (h1 : DrainState.stepN gt n1 c = some d1) (e1 : DrainState.step gt d1 = none)
    (h2 : DrainState.stepN gt n2 c = some d2) (e2 : DrainState.step gt d2 = none) :
    d1 = d2 := by
  have key : ∀ (a b : Nat) (x y : DrainState K), DrainState.stepN gt a c = some x →
      DrainState.step gt x = none → DrainState.stepN gt (a + b) c = some y → x = y := by
    intro a b x y hx ex hy
    rw [DrainState.stepN_add, hx] at hy
    simp only [Option.bind] at hy
    cases b with
    | zero =>
      simp only [DrainState.stepN, Option.some.injEq] at hy
      exact hy
    | succ b =>
      rw [DrainState.stepN_succ_front, ex] at hy
      cases hy
  rcases Nat.le_total n1 n2 with hle | hle
  · obtain ⟨b, rfl⟩ := Nat.exists_eq_add_of_le hle
    exact key n1 b d1 d2 h1 e1 h2
  · obtain ⟨b, rfl⟩ := Nat.exists_eq_add_of_le hle
    exact (key n2 b d2 d1 h2 e2 h1).symm

end Steps

/-! ## The claims -/

section Claims

variable {K : Type} [LinearOrder K] {σ : Type}

theorem gtNotLess_isNotLess : GtNotLess (EntryIterator.gtNotLess (K := K)) := fun _ _ => rfl

theorem exampleMerger_sorted :
    SourcesSorted (exampleMerger [exampleS0, exampleS1] ["s0", "s1"]) := by
  intro a ha
  simp only [exampleMerger, List.mem_cons, List.mem_singleton, List.not_mem_nil, or_false] at ha
  rcases ha with rfl | rfl <;> decide

/-- C1: for sources registered in order, each strictly ascending by key, the keys `Merge`
passes to the generator's `Add` are strictly ascending, so no key is passed twice; and
`Merge` completes when no source is empty.  The cursor comparison `>` may be either reading
(`GtCompatible`). -/
theorem Merge_added_keys_strictly_ascending
    (gt : EntryIterator K → EntryIterator K → Bool) (hgt : GtCompatible gt)
    (vs : ValueStoreT σ) (m : DictionaryMerger K) (filename : String)
    (hs : SourcesSorted m) :
    (∀ m1 run, DictionaryMerger.Merge gt vs m filename = .ok (m1, run) →
      run.addedKeys.Pairwise (fun a b => a < b)) ∧
    (SourcesNonEmpty m → ∃ m1 run, DictionaryMerger.Merge gt vs m filename = .ok (m1, run)) := by
  refine ⟨?_, (Merge_spec hgt vs m filename hs).2⟩
  intro m1 run hok
  rw [addedKeys_eq hok]
  exact (Merge_sources hgt hs hok).2.2.1

theorem Merge_added_keys_strictly_ascending_witness :
    GtCompatible (EntryIterator.gtNotLess (K := List Nat)) ∧
    SourcesSorted (exampleMerger [exampleS0, exampleS1] ["s0", "s1"]) ∧
    ((∀ m1 run, DictionaryMerger.Merge EntryIterator.gtNotLess exampleStore
        (exampleMerger [exampleS0, exampleS1] ["s0", "s1"]) "out" = .ok (m1, run) →
      run.addedKeys.Pairwise (fun a b => a < b)) ∧
    (SourcesNonEmpty (exampleMerger [exampleS0, exampleS1] ["s0", "s1"]) →
      ∃ m1 run, DictionaryMerger.Merge EntryIterator.gtNotLess exampleStore
        (exampleMerger [exampleS0, exampleS1] ["s0", "s1"]) "out" = .ok (m1, run))) :=
  ⟨gtNotLess_isNotLess.compatible, exampleMerger_sorted,
    Merge_added_keys_strictly_ascending EntryIterator.gtNotLess
      gtNotLess_isNotLess.compatible exampleStore _ "out" exampleMerger_sorted⟩

/-- For strictly ascending sources none of which is empty, `Merge` completes and the keys it
passes to `Add` are exactly the keys of the registered sources. -/
theorem Merge_added_keys_union
    (gt : EntryIterator K → EntryIterator K → Bool) (hgt : GtCompatible gt)
    (vs : ValueStoreT σ) (m : DictionaryMerger K) (filename : String)
    (hs : SourcesSorted m) (hne : SourcesNonEmpty m) :
    ∃ m1 run, DictionaryMerger.Merge gt vs m filename = .ok (m1, run) ∧
      ∀ x, x ∈ run.addedKeys ↔ ∃ a ∈ m.dicts_to_merge_, x ∈ a.keys := by
  obtain ⟨m1, run, hok⟩ := (Merge_spec hgt vs m filename hs).2 hne
  refine ⟨m1, run, hok, ?_⟩
  obtain ⟨hA, hB, _, _⟩ := Merge_sources hgt hs hok
  intro x
  rw [addedKeys_eq hok]
  constructor
  · intro hx
    obtain ⟨e, he, rfl⟩ := List.mem_map.1 hx
    obtain ⟨a, ha, hin⟩ := hA e he
    exact ⟨a, List.getElem?_mem ha, List.mem_map.2 ⟨_, hin, rfl⟩⟩
  · rintro ⟨a, ha, hx⟩
    obtain ⟨e, he, rfl⟩ := hB a ha x hx
    exact List.mem_map.2 ⟨e, he, rfl⟩

/-- C2, at the sources ["a"] and an empty dictionary: `Merge` does not complete,
whatever the cursor comparison `>` and the value store are, so the key "a" is not
passed to `Add`; under either reading of `>` the run reads from the end sentinel. -/
theorem Merge_with_empty_source_fails :
    (∀ (gt : EntryIterator (List Nat) → EntryIterator (List Nat) → Bool)
        (vs : ValueStoreT Unit) (filename : String),
      ∃ e, DictionaryMerger.Merge gt vs
        (exampleMerger [exampleA, exampleEmpty] ["a", "empty"]) filename = .error e) ∧
    DictionaryMerger.Merge EntryIterator.gtNotLess exampleStore
        (exampleMerger [exampleA, exampleEmpty] ["a", "empty"]) "out"
      = .error .endIteratorDereferenced ∧
    DictionaryMerger.Merge EntryIterator.gtStrict exampleStore
        (exampleMerger [exampleA, exampleEmpty] ["a", "empty"]) "out"
      = .error .endIteratorDereferenced := by
  refine ⟨?_, rfl, rfl⟩
  intro gt vs filename
  apply Merge_error_of_empty_source
  intro h
  exact h exampleEmpty (by simp [exampleMerger]) rfl

/-- With `>` read as the negation of `<`, for strictly ascending sources every pass of a
completed `Merge` takes as winner, for its key, the cursor of the source with the highest
segment index among the sources holding that key: the key and the value id are read from
that cursor and are an entry of that source, no source holding the key has a higher segment
index, every key of every source gets a winner, and no key is emitted twice, so the other
sources holding the key contribute no value.  `Merge` completes when no source is empty. -/
theorem Merge_winner_highest_segment_index
    (gt : EntryIterator K → EntryIterator K → Bool) (hgt : GtNotLess gt)
    (vs : ValueStoreT σ) (m : DictionaryMerger K) (filename : String)
    (hs : SourcesSorted m) :
    (∀ m1 run, DictionaryMerger.Merge gt vs m filename = .ok (m1, run) →
      (run.emits.map Emit.top_key).Nodup ∧
      (∀ a ∈ m.dicts_to_merge_, ∀ x ∈ a.keys, ∃ e ∈ run.emits, e.top_key = x) ∧
      ∀ e ∈ run.emits,
        e.segment_it.entryIterator.GetKey = some e.top_key ∧
        e.segment_it.entryIterator.GetValueId = some e.valueId ∧
        (∃ a, m.dicts_to_merge_[e.segment_it.segmentIndex]? = some a ∧
          (e.top_key, e.valueId) ∈ a.file.entries) ∧
        ∀ j a, m.dicts_to_merge_[j]? = some a → e.top_key ∈ a.keys →
          j ≤ e.segment_it.segmentIndex) ∧
    (SourcesNonEmpty m → ∃ m1 run, DictionaryMerger.Merge gt vs m filename = .ok (m1, run)) := by
  refine ⟨?_, (Merge_spec hgt.compatible vs m filename hs).2⟩
  intro m1 run hok
  obtain ⟨hA, hB, hC, hE⟩ := Merge_sources hgt.compatible hs hok
  obtain ⟨s1, hd, _⟩ := Merge_ok_inv hok
  refine ⟨?_, hB, ?_⟩
  · exact hC.imp (fun h => ne_of_lt h)
  · intro e he
    obtain ⟨h1, h2⟩ := drainLoop_reads _ _ _ _ _ hd e he
    exact ⟨h1, h2, hA e he, hE hgt e he⟩

theorem Merge_winner_highest_segment_index_witness :
    GtNotLess (EntryIterator.gtNotLess (K := List Nat)) ∧
    SourcesSorted (exampleMerger [exampleS0, exampleS1] ["s0", "s1"]) ∧
    ((∀ m1 run, DictionaryMerger.Merge EntryIterator.gtNotLess exampleStore
        (exampleMerger [exampleS0, exampleS1] ["s0", "s1"]) "out" = .ok (m1, run) →
      (run.emits.map Emit.top_key).Nodup ∧
      (∀ a ∈ (exampleMerger [exampleS0, exampleS1] ["s0", "s1"]).dicts_to_merge_,
        ∀ x ∈ a.keys, ∃ e ∈ run.emits, e.top_key = x) ∧
      ∀ e ∈ run.emits,
        e.segment_it.entryIterator.GetKey = some e.top_key ∧
        e.segment_it.entryIterator.GetValueId = some e.valueId ∧
        (∃ a, (exampleMerger [exampleS0, exampleS1]
            ["s0", "s1"]).dicts_to_merge_[e.segment_it.segmentIndex]? = some a ∧
          (e.top_key, e.valueId) ∈ a.file.entries) ∧
        ∀ j a, (exampleMerger [exampleS0, exampleS1] ["s0", "s1"]).dicts_to_merge_[j]? = some a →
          e.top_key ∈ a.keys → j ≤ e.segment_it.segmentIndex) ∧
    (SourcesNonEmpty (exampleMerger [exampleS0, exampleS1] ["s0", "s1"]) →
      ∃ m1 run, DictionaryMerger.Merge EntryIterator.gtNotLess exampleStore
        (exampleMerger [exampleS0, exampleS1] ["s0", "s1"]) "out" = .ok (m1, run))) :=
  ⟨gtNotLess_isNotLess, exampleMerger_sorted,
    Merge_winner_highest_segment_index EntryIterator.gtNotLess gtNotLess_isNotLess
      exampleStore _ "out" exampleMerger_sorted⟩

theorem gtStrict_compatible : GtCompatible (EntryIterator.gtStrict (K := K)) := by
  intro a b
  unfold EntryIterator.gtStrict
  constructor
  · exact id
  · intro h
    rw [EntryIterator.lt_eq_false_iff]
    exact le_of_lt ((EntryIterator.lt_iff b a).1 h)

/-- The first pop from the frontier seeded with S0 and S1, whatever `>` is between the two
readings: the cursor of S0, at "a", is on top. -/
theorem popMax_seed_S0_S1 (gt : EntryIterator (List Nat) → EntryIterator (List Nat) → Bool)
    (hgt : GtCompatible gt) :
    PriorityQueue.popMax gt
        [⟨EntryIterator.ofAutomata exampleS0, 0⟩, ⟨EntryIterator.ofAutomata exampleS1, 1⟩] =
      some (⟨EntryIterator.ofAutomata exampleS0, 0⟩, [⟨EntryIterator.ofAutomata exampleS1, 1⟩]) := by
  have hf : gt (EntryIterator.ofAutomata exampleS0) (EntryIterator.ofAutomata exampleS1) =
      false := by
    cases hv : gt (EntryIterator.ofAutomata exampleS0) (EntryIterator.ofAutomata exampleS1) with
    | false => rfl
    | true =>
      have h := (hgt _ _).2 hv
      have h2 : EntryIterator.lt (EntryIterator.ofAutomata exampleS0)
          (EntryIterator.ofAutomata exampleS1) = true := by rfl
      rw [h2] at h
      cases h
  have hlt : SegmentIterator.lt gt ⟨EntryIterator.ofAutomata exampleS0, 0⟩
      ⟨EntryIterator.ofAutomata exampleS1, 1⟩ = false := by
    unfold SegmentIterator.lt
    simp only [SegmentIterator.entryIterator]
    rw [if_pos (by decide)]
    exact hf
  simp only [PriorityQueue.popMax, hlt]
  rfl

/-- C4: with S0 = [("a", 1), ("b", 2)] registered first and S1 = [("b", 9), ("c", 3)]
registered second, whatever the cursor comparison `>` is between its two readings, `Merge`
calls `Add` exactly three times, for the keys "a", "b", "c" in this order; the winner of "a"
is segment 0 with value id 1, of "b" segment 1 with value id 9 (not 2), of "c" segment 1
with value id 3, and every handle passed to `Add` is built from its winner: in append mode
from the winner's segment index and value id, in rebuild mode from the payload handle of
the winner's dictionary (10 for S0, 20 for S1) and the winner's value id. -/
theorem Merge_example_S0_S1
    (gt : EntryIterator (List Nat) → EntryIterator (List Nat) → Bool) (hgt : GtCompatible gt) :
    (DictionaryMerger.Merge gt exampleStore
        (exampleMerger [exampleS0, exampleS1] ["s0", "s1"]) "out").toOption.map
      (fun p => (p.2.addedKeys, p.2.winners, p.2.calls)) =
    some ([[97], [98], [99]], [([97], 0, 1), ([98], 1, 9), ([99], 1, 3)],
          [.Add [97] { value_idx := 1, weight := 1, no_minimization := false },
           .Add [98] { value_idx := 1009, weight := 9, no_minimization := false },
           .Add [99] { value_idx := 1003, weight := 3, no_minimization := false },
           .CloseFeeding, .SetManifestFromString "", .WriteToFile "out"]) ∧
    (DictionaryMerger.Merge gt exampleStore
        (exampleRebuildMerger [exampleS0, exampleS1] ["s0", "s1"]) "out").toOption.map
      (fun p => (p.2.addedKeys, p.2.winners, p.2.calls)) =
    some ([[97], [98], [99]], [([97], 0, 1), ([98], 1, 9), ([99], 1, 3)],
          [.Add [97] { value_idx := 11, weight := 1, no_minimization := false },
           .Add [98] { value_idx := 29, weight := 9, no_minimization := false },
           .Add [99] { value_idx := 23, weight := 3, no_minimization := false },
           .CloseFeeding, .SetManifestFromString "", .WriteToFile "out"]) := by
  have hpop := popMax_seed_S0_S1 gt hgt
  constructor
  · have hseed : DictionaryMerger.seed
        (exampleMerger [exampleS0, exampleS1] ["s0", "s1"]).dicts_to_merge_ 0 [] =
        [⟨EntryIterator.ofAutomata exampleS0, 0⟩, ⟨EntryIterator.ofAutomata exampleS1, 1⟩] := rfl
    unfold DictionaryMerger.Merge
    simp only [hseed]
    rw [DictionaryMerger.drainLoop]
    simp only [PriorityQueue.top, PriorityQueue.pop, hpop]
    rfl
  · have hseed : DictionaryMerger.seed
        (exampleRebuildMerger [exampleS0, exampleS1] ["s0", "s1"]).dicts_to_merge_ 0 [] =
        [⟨EntryIterator.ofAutomata exampleS0, 0⟩, ⟨EntryIterator.ofAutomata exampleS1, 1⟩] := rfl
    unfold DictionaryMerger.Merge
    simp only [hseed]
    rw [DictionaryMerger.drainLoop]
    simp only [PriorityQueue.top, PriorityQueue.pop, hpop]
    rfl

theorem Merge_example_S0_S1_witness :
    GtCompatible (EntryIterator.gtStrict (K := List Nat)) ∧
    ((DictionaryMerger.Merge EntryIterator.gtStrict exampleStore
        (exampleMerger [exampleS0, exampleS1] ["s0", "s1"]) "out").toOption.map
      (fun p => (p.2.addedKeys, p.2.winners, p.2.calls)) =
    some ([[97], [98], [99]], [([97], 0, 1), ([98], 1, 9), ([99], 1, 3)],
          [.Add [97] { value_idx := 1, weight := 1, no_minimization := false },
           .Add [98] { value_idx := 1009, weight := 9, no_minimization := false },
           .Add [99] { value_idx := 1003, weight := 3, no_minimization := false },
           .CloseFeeding, .SetManifestFromString "", .WriteToFile "out"]) ∧
    (DictionaryMerger.Merge EntryIterator.gtStrict exampleStore
        (exampleRebuildMerger [exampleS0, exampleS1] ["s0", "s1"]) "out").toOption.map
      (fun p => (p.2.addedKeys, p.2.winners, p.2.calls)) =
    some ([[97], [98], [99]], [([97], 0, 1), ([98], 1, 9), ([99], 1, 3)],
          [.Add [97] { value_idx := 11, weight := 1, no_minimization := false },
           .Add [98] { value_idx := 29, weight := 9, no_minimization := false },
           .Add [99] { value_idx := 23, weight := 3, no_minimization := false },
           .CloseFeeding, .SetManifestFromString "", .WriteToFile "out"])) :=
  ⟨gtStrict_compatible, Merge_example_S0_S1 EntryIterator.gtStrict gtStrict_compatible⟩

theorem PriorityQueue.popMax_singleton (gt : EntryIterator K → EntryIterator K → Bool)
    (c : SegmentIterator K) : PriorityQueue.popMax gt [c] = some (c, []) := rfl

/-- The outer loop over the cursor of a single source copies that source entry by entry. -/
theorem drainLoop_single (gt : EntryIterator K → EntryIterator K → Bool) (vs : ValueStoreT σ)
    (ap : Bool) (a : Automata K) (i : Nat) :
    ∀ (l : List (K × Nat)) (s : σ), l ≠ [] →
      ∃ out s1, DictionaryMerger.drainLoop gt vs ap (l.length + 1)
          [⟨⟨a, l⟩, i⟩] s
            = .ok (out, s1) ∧
        out.map (fun e => (e.top_key, e.segment_it.segmentIndex, e.valueId)) =
          l.map (fun p => (p.1, i, p.2)) := by
  intro l
  induction l with
  | nil => intro s h; exact absurd rfl h
  | cons p tl ih =>
    intro s _
    obtain ⟨k, v⟩ := p
    have htop := (PriorityQueue.top_eq (PriorityQueue.popMax_singleton gt
      (⟨⟨a, (k, v) :: tl⟩, i⟩ :
        SegmentIterator K)))
    have hkey : (SegmentIterator.entryIterator (⟨⟨a, (k, v) :: tl⟩, i⟩ :
        SegmentIterator K)).GetKey = some k := rfl
    have hval : (SegmentIterator.entryIterator (⟨⟨a, (k, v) :: tl⟩, i⟩ :
        SegmentIterator K)).GetValueId = some v := rfl
    have hsh : DictionaryMerger.shadowLoop gt (PriorityQueue.remaining ([] : PriorityQueue K) + 1)
        [] k = some [] := rfl
    rw [List.length_cons, DictionaryMerger.drainLoop]
    simp only [htop.1, htop.2, hkey, hval, hsh]
    cases tl with
    | nil =>
      refine ⟨[_], _, rfl, rfl⟩
    | cons p2 tl2 =>
      obtain ⟨out, s1, hrec, hmap⟩ := ih
        (DictionaryMerger.makeHandle vs ap s
          (⟨⟨a, (k, v) :: p2 :: tl2⟩, i⟩ : SegmentIterator K) v).2.2 (by simp)
      have hq3 : (if (SegmentIterator.inc (⟨⟨a, (k, v) :: p2 :: tl2⟩, i⟩ :
            SegmentIterator K)).toBool
          then PriorityQueue.push [] (SegmentIterator.inc (⟨⟨a, (k, v) :: p2 :: tl2⟩, i⟩ :
            SegmentIterator K))
          else []) =
          [(⟨⟨a, p2 :: tl2⟩, i⟩ :
            SegmentIterator K)] := rfl
      rw [hq3, hrec]
      refine ⟨_, s1, rfl, ?_⟩
      simp only [List.map_cons]
      rw [hmap]
      rfl

/-- For a single registered source with at least one entry, `Merge` is a lossless copy: the
winners are the entries of the source in order, each under segment index 0. -/
theorem Merge_single_source_copy (gt : EntryIterator K → EntryIterator K → Bool)
    (vs : ValueStoreT σ) (m : DictionaryMerger K) (filename : String) (a : Automata K)
    (hm : m.dicts_to_merge_ = [a]) (hne : a.file.entries ≠ []) :
    ∃ m1 run, DictionaryMerger.Merge gt vs m filename = .ok (m1, run) ∧
      run.winners = a.file.entries.map (fun p => (p.1, 0, p.2)) := by
  obtain ⟨out, s1, hd, hmap⟩ := drainLoop_single gt vs m.append_merge_ a 0 a.file.entries
    (vs.create (if m.append_merge_ then ValueStoreArg.inputFiles m.inputFiles_
                else ValueStoreArg.params m.params_)) hne
  have hseed : DictionaryMerger.seed m.dicts_to_merge_ 0 [] =
      [{ entry_iterator_ptr_ := { fsa := a, rest := a.file.entries }, segment_index_ := 0 }] := by
    rw [hm]
    rfl
  have hrem : PriorityQueue.remaining (DictionaryMerger.seed m.dicts_to_merge_ 0 []) =
      a.file.entries.length := by
    rw [hseed]
    simp [PriorityQueue.remaining, SegmentIterator.entryIterator]
  have hd2 := hd
  rw [← hrem, ← hseed] at hd2
  obtain ⟨run, hrun, hemits⟩ := Merge_ok_of_drain filename hd2
  refine ⟨_, run, hrun, ?_⟩
  unfold MergeRun.winners
  rw [hemits]
  exact hmap

/-- C5, at a single registered source without entries: `Merge` reads from the end sentinel,
whatever the cursor comparison `>` and the value store are, instead of emitting the empty
sequence. -/
theorem Merge_single_empty_source_fails
    (gt : EntryIterator (List Nat) → EntryIterator (List Nat) → Bool)
    (vs : ValueStoreT Unit) (filename : String) :
    DictionaryMerger.Merge gt vs (exampleMerger [exampleEmpty] ["empty"]) filename =
      .error .endIteratorDereferenced := by
  rfl

/-- On a dictionary that opens with a value-store type other than the target's, `Add`
throws `invalid_argument` after it has recorded the path: the registered dictionaries are
as before, the input file list has the path appended. -/
theorem Add_type_mismatch (fs : String → Option (DictionaryFile K)) (vs : ValueStoreT σ)
    (m : DictionaryMerger K) (filename : String) (d : DictionaryFile K)
    (hopen : fs filename = some d) (htype : d.valueStoreType ≠ vs.GetValueStoreType) :
    DictionaryMerger.Add fs vs m filename =
      ({ m with inputFiles_ := m.inputFiles_ ++ [filename] }, .error .invalid_argument) := by
  unfold DictionaryMerger.Add Automata.load
  simp only [hopen, Option.map_some']
  rw [if_pos]
  exact htype

/-- C6, at an empty merger and the path "other", whose dictionary opens but has value-store
type 2 where the target store has type 1: `Add` fails with `invalid_argument` and leaves the
registered dictionaries unchanged, but the input file list, empty before the call, now
holds "other". -/
theorem Add_mismatch_records_path :
    (DictionaryMerger.Add exampleFs exampleStore (exampleMerger [] []) "other").2 =
      .error .invalid_argument ∧
    (DictionaryMerger.Add exampleFs exampleStore (exampleMerger [] []) "other").1.dicts_to_merge_.length
      = 0 ∧
    (DictionaryMerger.Add exampleFs exampleStore (exampleMerger [] []) "other").1.inputFiles_ =
      ["other"] ∧
    (DictionaryMerger.Add exampleFs exampleStore (exampleMerger [] []) "other").1.inputFiles_ ≠
      (exampleMerger [] []).inputFiles_ := by
  refine ⟨rfl, rfl, rfl, ?_⟩
  intro h
  have h2 : (DictionaryMerger.Add exampleFs exampleStore (exampleMerger [] [])
      "other").1.inputFiles_.length = (exampleMerger [] []).inputFiles_.length := by rw [h]
  exact absurd h2 (by decide)

/-- C7, in append mode, on two call sequences.  After a failed `Add "other"` and a successful
`Add "s0"`, `Merge` constructs the value store from the paths ["other", "s0"] while the only
registered source, "s0", has segment index 0.  After `Add "s0"`, `Merge`, `Add "s1"`, the
second `Merge` constructs the value store from ["s0", "s1"] while the only registered
source, "s1", has segment index 0 (its entries are the winners, under segment index 0). -/
theorem Merge_append_paths_misaligned :
    ((DictionaryMerger.callAll exampleFs EntryIterator.gtNotLess exampleStore
        (exampleMerger [] []) [.Add "other", .Add "s0"]).dicts_to_merge_.map Automata.filename
      = ["s0"] ∧
     (DictionaryMerger.Merge EntryIterator.gtNotLess exampleStore
        (DictionaryMerger.callAll exampleFs EntryIterator.gtNotLess exampleStore
          (exampleMerger [] []) [.Add "other", .Add "s0"]) "out").toOption.map
        (fun p => p.2.valueStoreArg) = some (.inputFiles ["other", "s0"])) ∧
    ((DictionaryMerger.callAll exampleFs EntryIterator.gtNotLess exampleStore
        (exampleMerger [] []) [.Add "s0", .Merge "out1", .Add "s1"]).dicts_to_merge_.map
        Automata.filename = ["s1"] ∧
     (DictionaryMerger.Merge EntryIterator.gtNotLess exampleStore
        (DictionaryMerger.callAll exampleFs EntryIterator.gtNotLess exampleStore
          (exampleMerger [] []) [.Add "s0", .Merge "out1", .Add "s1"]) "out2").toOption.map
        (fun p => (p.2.valueStoreArg, p.2.winners)) =
          some (.inputFiles ["s0", "s1"], [([98], 0, 9), ([99], 0, 3)])) := by
  refine ⟨⟨rfl, rfl⟩, ⟨rfl, rfl⟩⟩

theorem Add_manifest (fs : String → Option (DictionaryFile K)) (vs : ValueStoreT σ)
    (m : DictionaryMerger K) (filename : String) :
    (DictionaryMerger.Add fs vs m filename).1.manifest_ = m.manifest_ := by
  unfold DictionaryMerger.Add
  simp only
  split
  · rfl
  · split <;> rfl

theorem call_manifest (fs : String → Option (DictionaryFile K))
    (gt : EntryIterator K → EntryIterator K → Bool) (vs : ValueStoreT σ)
    (m : DictionaryMerger K) (c : Call) :
    (DictionaryMerger.call fs gt vs m c).manifest_ =
      (match c with
        | .SetManifestFromString manifest => manifest
        | _ => m.manifest_) := by
  cases c with
  | Add filename => exact Add_manifest fs vs m filename
  | SetManifestFromString manifest => rfl
  | Merge filename =>
    simp only [DictionaryMerger.call]
    cases h : DictionaryMerger.Merge gt vs m filename with
    | error e => rfl
    | ok res =>
      obtain ⟨m1, run⟩ := res
      obtain ⟨_, _, hm1, _⟩ := Merge_ok_inv h
      simp only
      rw [hm1]

theorem callAll_manifest (fs : String → Option (DictionaryFile K))
    (gt : EntryIterator K → EntryIterator K → Bool) (vs : ValueStoreT σ) :
    ∀ (calls : List Call) (m : DictionaryMerger K),
      (DictionaryMerger.callAll fs gt vs m calls).manifest_ = lastManifest m.manifest_ calls := by
  intro calls
  induction calls with
  | nil => intro m; rfl
  | cons c calls ih =>
    intro m
    unfold DictionaryMerger.callAll lastManifest
    simp only [List.foldl_cons]
    have h1 := ih (DictionaryMerger.call fs gt vs m c)
    unfold DictionaryMerger.callAll lastManifest at h1
    rw [h1, call_manifest]

/-- C8: the calls a completed `Merge` makes on the generator are one `Add` per pass of the
outer loop, then `CloseFeeding`, then `SetManifestFromString` with the stored manifest, then
`WriteToFile` with the output path, and nothing else; with no registered source `Merge`
completes with no `Add` at all; `Merge` completes exactly when no registered source is
empty; and after any sequence of calls on a constructed merger the stored manifest is the
string of the most recent `SetManifestFromString`, the empty string if there was none. -/
theorem Merge_generator_calls (gt : EntryIterator K → EntryIterator K → Bool)
    (vs : ValueStoreT σ) (m : DictionaryMerger K) (filename : String) :
    (∀ m1 run, DictionaryMerger.Merge gt vs m filename = .ok (m1, run) →
      run.calls = run.emits.map (fun e => GeneratorCall.Add e.top_key e.handle) ++
        [.CloseFeeding, .SetManifestFromString m.manifest_, .WriteToFile filename]) ∧
    (m.dicts_to_merge_ = [] →
      ∃ m1 run, DictionaryMerger.Merge gt vs m filename = .ok (m1, run) ∧
        run.calls = [.CloseFeeding, .SetManifestFromString m.manifest_, .WriteToFile filename]) ∧
    ((∃ m1 run, DictionaryMerger.Merge gt vs m filename = .ok (m1, run)) ↔ SourcesNonEmpty m) ∧
    (∀ (fs : String → Option (DictionaryFile K)) (c : Constants) (tempDir : String)
        (memory_limit : Nat) (params : vs_param_t) (calls : List Call),
      (DictionaryMerger.callAll fs gt vs
        (DictionaryMerger.create c tempDir memory_limit params) calls).manifest_ =
          lastManifest "" calls) := by
  refine ⟨?_, ?_, Merge_completes_iff gt vs m filename, ?_⟩
  · intro m1 run hok
    obtain ⟨_, _, _, _, hcalls⟩ := Merge_ok_inv hok
    exact hcalls
  · intro h0
    have hd : DictionaryMerger.drainLoop gt vs m.append_merge_
        (PriorityQueue.remaining (DictionaryMerger.seed m.dicts_to_merge_ 0 []) + 1)
        (DictionaryMerger.seed m.dicts_to_merge_ 0 [])
        (vs.create (if m.append_merge_ then ValueStoreArg.inputFiles m.inputFiles_
                    else ValueStoreArg.params m.params_)) =
        .ok ([], vs.create (if m.append_merge_ then ValueStoreArg.inputFiles m.inputFiles_
                            else ValueStoreArg.params m.params_)) := by
      rw [h0]
      rfl
    obtain ⟨run, hrun, hemits⟩ := Merge_ok_of_drain filename hd
    refine ⟨_, run, hrun, ?_⟩
    obtain ⟨_, _, _, _, hcalls⟩ := Merge_ok_inv hrun
    rw [hcalls, hemits]
    rfl
  · intro fs c tempDir memory_limit params calls
    exact callAll_manifest fs gt vs calls _

/-- C9: after `Merge` returns, the registered source list of the merger is empty, whatever
it held before, and a `Merge` called again on that merger seeds an empty frontier, completes
and makes no pass of the outer loop, so it passes no key to `Add`.  `Merge` returns exactly
when no registered source is empty. -/
theorem Merge_clears_sources (gt : EntryIterator K → EntryIterator K → Bool)
    (vs : ValueStoreT σ) (m : DictionaryMerger K) (filename : String) :
    (∀ m1 run, DictionaryMerger.Merge gt vs m filename = .ok (m1, run) →
      m1.dicts_to_merge_ = [] ∧
      DictionaryMerger.seed m1.dicts_to_merge_ 0 [] = [] ∧
      ∀ filename2, ∃ run2, DictionaryMerger.Merge gt vs m1 filename2 = .ok (m1, run2) ∧
        run2.emits = [] ∧ run2.addedKeys = []) ∧
    ((∃ m1 run, DictionaryMerger.Merge gt vs m filename = .ok (m1, run)) ↔ SourcesNonEmpty m) := by
  refine ⟨?_, Merge_completes_iff gt vs m filename⟩
  intro m1 run hok
  obtain ⟨_, _, hm1, _⟩ := Merge_ok_inv hok
  subst hm1
  refine ⟨rfl, rfl, ?_⟩
  intro filename2
  exact ⟨_, rfl, rfl, rfl⟩

/-- In append mode the outer loop leaves the value store as it is and builds every handle
from the weight lookup and the id remapping alone. -/
theorem drainLoop_append {gt : EntryIterator K → EntryIterator K → Bool} {vs : ValueStoreT σ} :
    ∀ (n : Nat) (q : PriorityQueue K) (s s1 : σ) (out : List (Emit K)),
      DictionaryMerger.drainLoop gt vs true n q s = .ok (out, s1) →
      s1 = s ∧ ∀ e ∈ out,
        e.handle = { value_idx := vs.GetMergeValueId s e.segment_it.segmentIndex e.valueId,
                     weight := vs.GetMergeWeight s e.valueId, no_minimization := false } ∧
        e.valueStoreCalls = [.GetMergeWeight e.valueId,
                             .GetMergeValueId e.segment_it.segmentIndex e.valueId] := by
  intro n
  induction n with
  | zero => intro q s s1 out h; cases h
  | succ n ih =>
    intro q s s1 out h
    rcases drainLoop_succ_ok h with ⟨_, h0, hs⟩ | ⟨t, k, v, q2, rest, _, _, _, _, hrec, hout⟩
    · refine ⟨hs, ?_⟩
      intro e he
      rw [h0] at he
      cases he
    · have hstate : (DictionaryMerger.makeHandle vs true s t v).2.2 = s := rfl
      rw [hstate] at hrec
      obtain ⟨hs1, hall⟩ := ih _ _ _ _ hrec
      refine ⟨hs1, ?_⟩
      intro e he
      rw [hout] at he
      rcases List.mem_cons.1 he with rfl | he
      · exact ⟨rfl, rfl⟩
      · exact hall e he

/-- C10: in append mode, in every completed `Merge` the value store is constructed from the
input file list, and for every pass of the outer loop the handle passed to `Add` has
`weight = GetMergeWeight(v)`, `value_idx = GetMergeValueId(s, v)` and `no_minimization =
false`, where `s` is the segment index of the winner cursor and `v` the value id that cursor
holds at the emitted key, as popped; the calls on the value store are these two lookups, so
`GetValue` is not called.  `Merge` completes exactly when no registered source is empty. -/
theorem Merge_append_value_handle (gt : EntryIterator K → EntryIterator K → Bool)
    (vs : ValueStoreT σ) (m : DictionaryMerger K) (filename : String)
    (hap : m.append_merge_ = true) :
    (∀ m1 run, DictionaryMerger.Merge gt vs m filename = .ok (m1, run) →
      run.valueStoreArg = .inputFiles m.inputFiles_ ∧
      run.calls = run.emits.map (fun e => GeneratorCall.Add e.top_key e.handle) ++
        [.CloseFeeding, .SetManifestFromString m.manifest_, .WriteToFile filename] ∧
      ∀ e ∈ run.emits,
        e.segment_it.entryIterator.GetKey = some e.top_key ∧
        e.segment_it.entryIterator.GetValueId = some e.valueId ∧
        e.handle.weight = vs.GetMergeWeight (vs.create (.inputFiles m.inputFiles_)) e.valueId ∧
        e.handle.value_idx = vs.GetMergeValueId (vs.create (.inputFiles m.inputFiles_))
          e.segment_it.segmentIndex e.valueId ∧
        e.handle.no_minimization = false ∧
        e.valueStoreCalls = [.GetMergeWeight e.valueId,
                             .GetMergeValueId e.segment_it.segmentIndex e.valueId]) ∧
    ((∃ m1 run, DictionaryMerger.Merge gt vs m filename = .ok (m1, run)) ↔ SourcesNonEmpty m) := by
  refine ⟨?_, Merge_completes_iff gt vs m filename⟩
  intro m1 run hok
  obtain ⟨s1, hd, _, harg, hcalls⟩ := Merge_ok_inv hok
  rw [hap] at hd harg
  simp only [if_true] at hd harg
  refine ⟨harg, hcalls, ?_⟩
  intro e he
  obtain ⟨hk, hv⟩ := drainLoop_reads _ _ _ _ _ hd e he
  obtain ⟨hh, hc⟩ := (drainLoop_append _ _ _ _ _ hd).2 e he
  refine ⟨hk, hv, ?_, ?_, ?_, hc⟩ <;> rw [hh]

theorem Merge_append_value_handle_witness :
    (exampleMerger [exampleS0, exampleS1] ["s0", "s1"]).append_merge_ = true ∧
    ((∀ m1 run, DictionaryMerger.Merge EntryIterator.gtNotLess exampleStore
        (exampleMerger [exampleS0, exampleS1] ["s0", "s1"]) "out" = .ok (m1, run) →
      run.valueStoreArg = .inputFiles ["s0", "s1"] ∧
      run.calls = run.emits.map (fun e => GeneratorCall.Add e.top_key e.handle) ++
        [.CloseFeeding, .SetManifestFromString "", .WriteToFile "out"] ∧
      ∀ e ∈ run.emits,
        e.segment_it.entryIterator.GetKey = some e.top_key ∧
        e.segment_it.entryIterator.GetValueId = some e.valueId ∧
        e.handle.weight = e.valueId ∧
        e.handle.value_idx = 1000 * e.segment_it.segmentIndex + e.valueId ∧
        e.handle.no_minimization = false ∧
        e.valueStoreCalls = [.GetMergeWeight e.valueId,
                             .GetMergeValueId e.segment_it.segmentIndex e.valueId]) ∧
    ((∃ m1 run, DictionaryMerger.Merge EntryIterator.gtNotLess exampleStore
        (exampleMerger [exampleS0, exampleS1] ["s0", "s1"]) "out" = .ok (m1, run)) ↔
      SourcesNonEmpty (exampleMerger [exampleS0, exampleS1] ["s0", "s1"]))) :=
  ⟨rfl, Merge_append_value_handle EntryIterator.gtNotLess exampleStore
    (exampleMerger [exampleS0, exampleS1] ["s0", "s1"]) "out" rfl⟩

/-- On a dictionary that opens with the target's value-store type, `Add` appends it to the
registered dictionaries, opened with the loading strategy of the merge mode. -/
theorem Add_success_appends (fs : String → Option (DictionaryFile K))
    (vs : ValueStoreT σ) (m : DictionaryMerger K) (filename : String) (d : DictionaryFile K)
    (hopen : fs filename = some d) (ht : d.valueStoreType = vs.GetValueStoreType) :
    (DictionaryMerger.Add fs vs m filename).1.dicts_to_merge_ =
      m.dicts_to_merge_ ++ [{ filename := filename, lazy := m.append_merge_, file := d }] := by
  unfold DictionaryMerger.Add Automata.load
  simp only [hopen, Option.map_some']
  rw [if_neg]
  simpa [Automata.GetValueStoreType] using ht

theorem seed_snoc : ∀ (l : List (Automata K)) (a : Automata K) (i : Nat),
    DictionaryMerger.seed (l ++ [a]) i [] =
      DictionaryMerger.seed l i [] ++
        [{ entry_iterator_ptr_ := EntryIterator.ofAutomata a, segment_index_ := i + l.length }] := by
  intro l
  induction l with
  | nil => intro a i; rfl
  | cons b l ih =>
    intro a i
    rw [List.cons_append, seed_cons, seed_cons, ih, List.cons_append, List.length_cons]
    have h : i + 1 + l.length = i + (l.length + 1) := by omega
    rw [h]

/-- C12: on a dictionary that opens, `Add` fails (with `invalid_argument`) if and only if
its value-store type tag differs from the target store's, and succeeds otherwise; when it
succeeds it appends exactly that dictionary at the end of the registered list and leaves
the earlier ones and their order as they were, so the seeding loop of the next `Merge`
gives the earlier dictionaries the cursors and segment indices they had and the new one
the next index, the number of dictionaries registered before it; when it fails the
registered list is unchanged. -/
theorem Add_registers_at_end (fs : String → Option (DictionaryFile K)) (vs : ValueStoreT σ)
    (m : DictionaryMerger K) (filename : String) (d : DictionaryFile K)
    (hopen : fs filename = some d) :
    ((DictionaryMerger.Add fs vs m filename).2 = .error .invalid_argument ↔
      d.valueStoreType ≠ vs.GetValueStoreType) ∧
    ((DictionaryMerger.Add fs vs m filename).2 = .ok () ↔
      d.valueStoreType = vs.GetValueStoreType) ∧
    (d.valueStoreType = vs.GetValueStoreType →
      (DictionaryMerger.Add fs vs m filename).1.dicts_to_merge_ =
        m.dicts_to_merge_ ++ [{ filename := filename, lazy := m.append_merge_, file := d }] ∧
      DictionaryMerger.seed (DictionaryMerger.Add fs vs m filename).1.dicts_to_merge_ 0 [] =
        DictionaryMerger.seed m.dicts_to_merge_ 0 [] ++
          [{ entry_iterator_ptr_ := EntryIterator.ofAutomata
               { filename := filename, lazy := m.append_merge_, file := d },
             segment_index_ := m.dicts_to_merge_.length }]) ∧
    (d.valueStoreType ≠ vs.GetValueStoreType →
      (DictionaryMerger.Add fs vs m filename).1.dicts_to_merge_ = m.dicts_to_merge_) := by
  by_cases ht : d.valueStoreType = vs.GetValueStoreType
  · have hadd : DictionaryMerger.Add fs vs m filename =
        ({ m with inputFiles_ := m.inputFiles_ ++ [filename],
                  dicts_to_merge_ := m.dicts_to_merge_ ++
                    [{ filename := filename, lazy := m.append_merge_, file := d }] }, .ok ()) := by
      unfold DictionaryMerger.Add Automata.load
      simp only [hopen, Option.map_some']
      rw [if_neg]
      simpa [Automata.GetValueStoreType] using ht
    rw [hadd]
    refine ⟨?_, ?_, ?_, ?_⟩
    · simp [ht]
    · simp [ht]
    · intro _
      refine ⟨rfl, ?_⟩
      simp only
      rw [seed_snoc]
      simp
    · intro hne
      exact absurd ht hne
  · rw [Add_type_mismatch fs vs m filename d hopen ht]
    refine ⟨?_, ?_, ?_, ?_⟩
    · simp [ht]
    · simp [ht]
    · intro h
      exact absurd h ht
    · intro _
      rfl

theorem Add_registers_at_end_witness :
    exampleFs "s1" = some exampleS1.file ∧
    (((DictionaryMerger.Add exampleFs exampleStore (exampleMerger [exampleS0] ["s0"]) "s1").2 =
        .error .invalid_argument ↔
      exampleS1.file.valueStoreType ≠ exampleStore.GetValueStoreType) ∧
    ((DictionaryMerger.Add exampleFs exampleStore (exampleMerger [exampleS0] ["s0"]) "s1").2 =
        .ok () ↔
      exampleS1.file.valueStoreType = exampleStore.GetValueStoreType) ∧
    (exampleS1.file.valueStoreType = exampleStore.GetValueStoreType →
      (DictionaryMerger.Add exampleFs exampleStore (exampleMerger [exampleS0] ["s0"])
          "s1").1.dicts_to_merge_ =
        (exampleMerger [exampleS0] ["s0"]).dicts_to_merge_ ++
          [{ filename := "s1", lazy := (exampleMerger [exampleS0] ["s0"]).append_merge_,
             file := exampleS1.file }] ∧
      DictionaryMerger.seed (DictionaryMerger.Add exampleFs exampleStore
          (exampleMerger [exampleS0] ["s0"]) "s1").1.dicts_to_merge_ 0 [] =
        DictionaryMerger.seed (exampleMerger [exampleS0] ["s0"]).dicts_to_merge_ 0 [] ++
          [{ entry_iterator_ptr_ := EntryIterator.ofAutomata
               { filename := "s1", lazy := (exampleMerger [exampleS0] ["s0"]).append_merge_,
                 file := exampleS1.file },
             segment_index_ := (exampleMerger [exampleS0] ["s0"]).dicts_to_merge_.length }]) ∧
    (exampleS1.file.valueStoreType ≠ exampleStore.GetValueStoreType →
      (DictionaryMerger.Add exampleFs exampleStore (exampleMerger [exampleS0] ["s0"])
          "s1").1.dicts_to_merge_ = (exampleMerger [exampleS0] ["s0"]).dicts_to_merge_)) :=
  ⟨rfl, Add_registers_at_end exampleFs exampleStore (exampleMerger [exampleS0] ["s0"]) "s1"
    exampleS1.file rfl⟩

theorem lookup_append_singleton (p : vs_param_t) (k k1 v : String) (hne : k ≠ k1) :
    (p ++ [(k1, v)]).lookup k = p.lookup k := by
  induction p with
  | nil =>
    have h : (k == k1) = false := by simpa using hne
    simp [List.lookup, h]
  | cons e p ih =>
    obtain ⟨a, b⟩ := e
    simp only [List.cons_append, List.lookup]
    cases h : (k == a) with
    | true => rfl
    | false => exact ih

theorem lookup_append_singleton_self (p : vs_param_t) (k v : String)
    (habs : p.lookup k = none) : (p ++ [(k, v)]).lookup k = some v := by
  induction p with
  | nil => simp [List.lookup]
  | cons e p ih =>
    obtain ⟨a, b⟩ := e
    simp only [List.cons_append, List.lookup] at habs ⊢
    cases h : (k == a) with
    | true => rw [h] at habs; cases habs
    | false =>
      rw [h] at habs
      exact ih habs

/-- The parameter map the constructor stores: the caller's when it holds the temporary-path
key, the caller's with that key set to the temporary directory otherwise. -/
theorem create_params_eq (c : Constants) (tempDir : String) (memory_limit : Nat)
    (params : vs_param_t) :
    (DictionaryMerger.create (K := K) c tempDir memory_limit params).params_ =
      (if (params.lookup c.TEMPORARY_PATH_KEY).isSome then params
       else params ++ [(c.TEMPORARY_PATH_KEY, tempDir)]) := by
  unfold DictionaryMerger.create mapCount mapSet
  cases h : (params.lookup c.TEMPORARY_PATH_KEY).isSome <;> simp

theorem Add_frame (fs : String → Option (DictionaryFile K)) (vs : ValueStoreT σ)
    (m : DictionaryMerger K) (filename : String) :
    (DictionaryMerger.Add fs vs m filename).1.append_merge_ = m.append_merge_ ∧
    (DictionaryMerger.Add fs vs m filename).1.params_ = m.params_ ∧
    (DictionaryMerger.Add fs vs m filename).1.memory_limit_ = m.memory_limit_ := by
  unfold DictionaryMerger.Add
  simp only
  split
  · exact ⟨rfl, rfl, rfl⟩
  · split <;> exact ⟨rfl, rfl, rfl⟩

theorem call_frame (fs : String → Option (DictionaryFile K))
    (gt : EntryIterator K → EntryIterator K → Bool) (vs : ValueStoreT σ)
    (m : DictionaryMerger K) (c : Call) :
    (DictionaryMerger.call fs gt vs m c).append_merge_ = m.append_merge_ ∧
    (DictionaryMerger.call fs gt vs m c).params_ = m.params_ ∧
    (DictionaryMerger.call fs gt vs m c).memory_limit_ = m.memory_limit_ := by
  cases c with
  | Add filename => exact Add_frame fs vs m filename
  | SetManifestFromString manifest => exact ⟨rfl, rfl, rfl⟩
  | Merge filename =>
    simp only [DictionaryMerger.call]
    cases h : DictionaryMerger.Merge gt vs m filename with
    | error e => exact ⟨rfl, rfl, rfl⟩
    | ok res =>
      obtain ⟨m1, run⟩ := res
      obtain ⟨_, _, hm1, _⟩ := Merge_ok_inv h
      simp only
      rw [hm1]
      exact ⟨rfl, rfl, rfl⟩

/-- No call of a public method changes the merge mode, the parameter map or the memory
limit. -/
theorem callAll_frame (fs : String → Option (DictionaryFile K))
    (gt : EntryIterator K → EntryIterator K → Bool) (vs : ValueStoreT σ) :
    ∀ (calls : List Call) (m : DictionaryMerger K),
      (DictionaryMerger.callAll fs gt vs m calls).append_merge_ = m.append_merge_ ∧
      (DictionaryMerger.callAll fs gt vs m calls).params_ = m.params_ ∧
      (DictionaryMerger.callAll fs gt vs m calls).memory_limit_ = m.memory_limit_ := by
  intro calls
  induction calls with
  | nil => intro m; exact ⟨rfl, rfl, rfl⟩
  | cons c calls ih =>
    intro m
    have h1 := ih (DictionaryMerger.call fs gt vs m c)
    have h2 := call_frame fs gt vs m c
    unfold DictionaryMerger.callAll at h1 ⊢
    simp only [List.foldl_cons]
    exact ⟨h1.1.trans h2.1, h1.2.1.trans h2.2.1, h1.2.2.trans h2.2.2⟩

/-- What a completed `Merge` hands to the value store constructor and to
`CreateGenerator`. -/
theorem Merge_arguments {gt : EntryIterator K → EntryIterator K → Bool} {vs : ValueStoreT σ}
    {m m1 : DictionaryMerger K} {filename : String} {run : MergeRun K}
    (h : DictionaryMerger.Merge gt vs m filename = .ok (m1, run)) :
    run.generatorParams = m.params_ ∧ run.memory_limit = m.memory_limit_ ∧
    run.sparse_array_size_sum = (m.dicts_to_merge_.map Automata.SparseArraySize).sum ∧
    run.valueStoreArg = (if m.append_merge_ then ValueStoreArg.inputFiles m.inputFiles_
                         else ValueStoreArg.params m.params_) := by
  unfold DictionaryMerger.Merge at h
  simp only at h
  split at h
  · cases h
  · simp only [Except.ok.injEq, Prod.mk.injEq] at h
    obtain ⟨_, h2⟩ := h
    subst h2
    exact ⟨rfl, rfl, rfl, rfl⟩

/-- C13: when the temporary-path key and the merge-mode key are different strings, the
constructed merger runs in append mode if and only if the caller's parameter set holds the
merge-mode key with the append selector as its value; no later call changes the mode, and
it is the mode `Add` opens dictionaries with (lazily in append mode) and `Merge` constructs
the value store with (from the input file list in append mode, from the parameter map
otherwise). -/
theorem create_append_mode (c : Constants) (hc : c.TEMPORARY_PATH_KEY ≠ c.MERGE_MODE)
    (tempDir : String) (memory_limit : Nat) (params : vs_param_t) :
    ((DictionaryMerger.create (K := K) c tempDir memory_limit params).append_merge_ = true ↔
      params.lookup c.MERGE_MODE = some c.MERGE_APPEND) ∧
    (∀ (fs : String → Option (DictionaryFile K))
        (gt : EntryIterator K → EntryIterator K → Bool) (vs : ValueStoreT σ)
        (calls : List Call),
      (DictionaryMerger.callAll fs gt vs
          (DictionaryMerger.create c tempDir memory_limit params) calls).append_merge_ =
        (DictionaryMerger.create (K := K) c tempDir memory_limit params).append_merge_) ∧
    (∀ (fs : String → Option (DictionaryFile K)) (vs : ValueStoreT σ)
        (m : DictionaryMerger K) (filename : String) (d : DictionaryFile K),
      fs filename = some d → d.valueStoreType = vs.GetValueStoreType →
      (DictionaryMerger.Add fs vs m filename).1.dicts_to_merge_ =
        m.dicts_to_merge_ ++ [{ filename := filename, lazy := m.append_merge_, file := d }]) ∧
    (∀ (gt : EntryIterator K → EntryIterator K → Bool) (vs : ValueStoreT σ)
        (m m1 : DictionaryMerger K) (filename : String) (run : MergeRun K),
      DictionaryMerger.Merge gt vs m filename = .ok (m1, run) →
      run.valueStoreArg = (if m.append_merge_ then ValueStoreArg.inputFiles m.inputFiles_
                           else ValueStoreArg.params m.params_)) := by
  refine ⟨?_, ?_, ?_, ?_⟩
  · have hp := create_params_eq (K := K) c tempDir memory_limit params
    have hl : (DictionaryMerger.create (K := K) c tempDir memory_limit params).params_.lookup
        c.MERGE_MODE = params.lookup c.MERGE_MODE := by
      rw [hp]
      split
      · rfl
      · exact lookup_append_singleton params _ _ _ (Ne.symm hc)
    have hm : (DictionaryMerger.create (K := K) c tempDir memory_limit params).append_merge_ =
        (if mapCount (DictionaryMerger.create (K := K) c tempDir memory_limit params).params_
              c.MERGE_MODE > 0
         then decide (c.MERGE_APPEND =
           mapGet (DictionaryMerger.create (K := K) c tempDir memory_limit params).params_
             c.MERGE_MODE)
         else false) := rfl
    rw [hm]
    unfold mapCount mapGet
    rw [hl]
    cases h : params.lookup c.MERGE_MODE with
    | none => simp
    | some v =>
      simp only [Option.isSome_some, if_true, Nat.lt_irrefl, Option.getD_some,
        Option.some.injEq]
      simp only [gt_iff_lt, Nat.lt_one_iff, Nat.zero_lt_one, if_true, decide_eq_true_eq]
      exact eq_comm
  · intro fs gt vs calls
    exact (callAll_frame fs gt vs calls _).1
  · intro fs vs m filename d hopen ht
    exact ((Add_success_appends fs vs m filename d hopen ht))
  · intro gt vs m m1 filename run h
    exact (Merge_arguments h).2.2.2

theorem create_append_mode_witness :
    exampleConstants.TEMPORARY_PATH_KEY ≠ exampleConstants.MERGE_MODE ∧
    ((DictionaryMerger.create (K := List Nat) exampleConstants "/tmp" 1073741824
        [("merge_mode", "append")]).append_merge_ = true ↔
      List.lookup exampleConstants.MERGE_MODE [("merge_mode", "append")] =
        some exampleConstants.MERGE_APPEND) :=
  ⟨by decide,
   (@create_append_mode (List Nat) _ Unit exampleConstants (by decide) "/tmp" 1073741824
      [("merge_mode", "append")]).1⟩

/-- C14: the parameter map the constructor stores holds a temporary-path entry: the
caller's value when the caller gave one, the temporary directory otherwise; under every
other key it holds what the caller's map holds; it is the caller's map itself, with the one
entry appended when it was absent.  No later call changes it, and a completed `Merge` hands
the stored map to `CreateGenerator` and, in rebuild mode, to the value store constructor. -/
theorem create_normalizes_params (c : Constants) (tempDir : String) (memory_limit : Nat)
    (params : vs_param_t) :
    ((DictionaryMerger.create (K := K) c tempDir memory_limit params).params_.lookup
        c.TEMPORARY_PATH_KEY = some ((params.lookup c.TEMPORARY_PATH_KEY).getD tempDir)) ∧
    (∀ key, key ≠ c.TEMPORARY_PATH_KEY →
      (DictionaryMerger.create (K := K) c tempDir memory_limit params).params_.lookup key =
        params.lookup key) ∧
    ((DictionaryMerger.create (K := K) c tempDir memory_limit params).params_ =
      (if (params.lookup c.TEMPORARY_PATH_KEY).isSome then params
       else params ++ [(c.TEMPORARY_PATH_KEY, tempDir)])) ∧
    (∀ (fs : String → Option (DictionaryFile K))
        (gt : EntryIterator K → EntryIterator K → Bool) (vs : ValueStoreT σ)
        (calls : List Call),
      (DictionaryMerger.callAll fs gt vs
          (DictionaryMerger.create c tempDir memory_limit params) calls).params_ =
        (DictionaryMerger.create (K := K) c tempDir memory_limit params).params_) ∧
    (∀ (gt : EntryIterator K → EntryIterator K → Bool) (vs : ValueStoreT σ)
        (m m1 : DictionaryMerger K) (filename : String) (run : MergeRun K),
      DictionaryMerger.Merge gt vs m filename = .ok (m1, run) →
      run.generatorParams = m.params_ ∧
      (m.append_merge_ = false → run.valueStoreArg = .params m.params_) ∧
      m1.params_ = m.params_) := by
  have hp := create_params_eq (K := K) c tempDir memory_limit params
  refine ⟨?_, ?_, hp, ?_, ?_⟩
  · rw [hp]
    cases h : params.lookup c.TEMPORARY_PATH_KEY with
    | none =>
      simp only [Option.isSome_none, Bool.false_eq_true, if_false, Option.getD_none]
      exact lookup_append_singleton_self params _ _ h
    | some v =>
      simp only [Option.isSome_some, if_true, Option.getD_some]
      exact h
  · intro key hkey
    rw [hp]
    split
    · rfl
    · exact lookup_append_singleton params _ _ _ hkey
  · intro fs gt vs calls
    exact (callAll_frame fs gt vs calls _).2.1
  · intro gt vs m m1 filename run h
    obtain ⟨h1, _, _, h4⟩ := Merge_arguments h
    obtain ⟨_, _, hm1, _⟩ := Merge_ok_inv h
    refine ⟨h1, ?_, by rw [hm1]⟩
    intro hap
    rw [h4, hap]
    rfl

/-- C15: when the cursor comparison `>` is the mirrored strict order of the current keys
(`a > b` exactly when `b < a`), `operator<` of `SegmentIterator` orders by key only: it is
`rhs.key < key` whatever the segment indices are, and for two cursors with equal current
keys it is false in both directions, so a cursor with the higher segment index is not
ranked above one with the lower. -/
theorem SegmentIterator_lt_key_only (gt : EntryIterator K → EntryIterator K → Bool)
    (hgt : ∀ a b, gt a b = EntryIterator.lt b a) (x y : SegmentIterator K) :
    SegmentIterator.lt gt x y = EntryIterator.lt y.entryIterator x.entryIterator ∧
    (x.keyB = y.keyB →
      SegmentIterator.lt gt x y = false ∧ SegmentIterator.lt gt y x = false) := by
  have hkey : ∀ a b : SegmentIterator K,
      SegmentIterator.lt gt a b = EntryIterator.lt b.entryIterator a.entryIterator := by
    intro a b
    unfold SegmentIterator.lt
    split
    · exact hgt _ _
    · rfl
  refine ⟨hkey x y, ?_⟩
  intro heq
  rw [hkey x y, hkey y x, EntryIterator.lt_eq_false_iff, EntryIterator.lt_eq_false_iff]
  exact ⟨le_of_eq heq, le_of_eq heq.symm⟩

theorem SegmentIterator_lt_key_only_witness :
    (∀ a b : EntryIterator (List Nat),
      EntryIterator.gtStrict a b = EntryIterator.lt b a) ∧
    (SegmentIterator.lt EntryIterator.gtStrict
        (⟨EntryIterator.ofAutomata exampleA, 0⟩ : SegmentIterator (List Nat))
        ⟨EntryIterator.ofAutomata exampleS0, 1⟩ =
      EntryIterator.lt (EntryIterator.ofAutomata exampleS0) (EntryIterator.ofAutomata exampleA) ∧
    ((⟨EntryIterator.ofAutomata exampleA, 0⟩ : SegmentIterator (List Nat)).keyB =
        (⟨EntryIterator.ofAutomata exampleS0, 1⟩ : SegmentIterator (List Nat)).keyB →
      SegmentIterator.lt EntryIterator.gtStrict
        (⟨EntryIterator.ofAutomata exampleA, 0⟩ : SegmentIterator (List Nat))
        ⟨EntryIterator.ofAutomata exampleS0, 1⟩ = false ∧
      SegmentIterator.lt EntryIterator.gtStrict
        (⟨EntryIterator.ofAutomata exampleS0, 1⟩ : SegmentIterator (List Nat))
        ⟨EntryIterator.ofAutomata exampleA, 0⟩ = false)) :=
  ⟨fun _ _ => rfl,
   SegmentIterator_lt_key_only EntryIterator.gtStrict (fun _ _ => rfl)
     ⟨EntryIterator.ofAutomata exampleA, 0⟩ ⟨EntryIterator.ofAutomata exampleS0, 1⟩⟩

/-- With `>` read as the negation of `<`, `x < y` on cursors holds exactly when the key of
`x` is above the key of `y`, or the keys are equal and `x` has the lower segment index. -/
theorem SegmentIterator.lt_iff_of_notLess {gt : EntryIterator K → EntryIterator K → Bool}
    (hgt : GtNotLess gt) (x y : SegmentIterator K) :
    SegmentIterator.lt gt x y = true ↔
      (y.keyB < x.keyB ∨ (x.keyB = y.keyB ∧ x.segment_index_ < y.segment_index_)) := by
  unfold SegmentIterator.lt
  split
  · next hi =>
    rw [hgt]
    simp only [Bool.not_eq_true', EntryIterator.lt_eq_false_iff]
    show y.keyB ≤ x.keyB ↔ _
    constructor
    · intro h
      rcases lt_or_eq_of_le h with h1 | h1
      · exact Or.inl h1
      · exact Or.inr ⟨h1.symm, hi⟩
    · rintro (h | ⟨h, _⟩)
      · exact le_of_lt h
      · exact le_of_eq h.symm
  · next hi =>
    rw [EntryIterator.lt_iff]
    show y.keyB < x.keyB ↔ _
    constructor
    · intro h
      exact Or.inl h
    · rintro (h | ⟨_, h⟩)
      · exact h
      · exact absurd h hi

/-- C19: when the cursor comparison `>` is the negation of `<`, `operator<` of
`SegmentIterator` is a strict total order on cursors with pairwise distinct segment
indices: `x < y` holds exactly when the key of `x` is above the key of `y`, or the keys are
equal and `x` has the lower segment index; it is irreflexive and transitive, any two cursors
with different segment indices are comparable, and the element the frontier surfaces from
cursors with pairwise distinct segment indices is above every other: it has the least key
and, among the cursors at that key, the highest segment index. -/
theorem SegmentIterator_lt_strict_total (gt : EntryIterator K → EntryIterator K → Bool)
    (hgt : GtNotLess gt) :
    (∀ x y : SegmentIterator K, SegmentIterator.lt gt x y = true ↔
      (y.keyB < x.keyB ∨ (x.keyB = y.keyB ∧ x.segment_index_ < y.segment_index_))) ∧
    (∀ x : SegmentIterator K, SegmentIterator.lt gt x x = false) ∧
    (∀ x y z : SegmentIterator K, SegmentIterator.lt gt x y = true →
      SegmentIterator.lt gt y z = true → SegmentIterator.lt gt x z = true) ∧
    (∀ x y : SegmentIterator K, x.segment_index_ ≠ y.segment_index_ →
      SegmentIterator.lt gt x y = true ∨ SegmentIterator.lt gt y x = true) ∧
    (∀ (q r : PriorityQueue K) (t : SegmentIterator K),
      (q.map SegmentIterator.segment_index_).Nodup →
      PriorityQueue.popMax gt q = some (t, r) →
      PriorityQueue.top gt q = some t ∧
      ∀ c ∈ r, SegmentIterator.lt gt c t = true ∧ t.keyB ≤ c.keyB ∧
        (c.keyB = t.keyB → c.segment_index_ < t.segment_index_)) := by
  have hiff := SegmentIterator.lt_iff_of_notLess hgt
  refine ⟨hiff, ?_, ?_, ?_, ?_⟩
  · intro x
    cases h : SegmentIterator.lt gt x x with
    | false => rfl
    | true =>
      rcases (hiff x x).1 h with h1 | ⟨_, h1⟩
      · exact absurd h1 (lt_irrefl _)
      · exact absurd h1 (Nat.lt_irrefl _)
  · intro x y z hxy hyz
    rw [hiff] at hxy hyz ⊢
    rcases hxy with h1 | ⟨h1, h2⟩
    · rcases hyz with h3 | ⟨h3, _⟩
      · exact Or.inl (lt_trans h3 h1)
      · exact Or.inl (h3 ▸ h1)
    · rcases hyz with h3 | ⟨h3, h4⟩
      · exact Or.inl (h1 ▸ h3)
      · exact Or.inr ⟨h1.trans h3, Nat.lt_trans h2 h4⟩
  · intro x y hne
    rw [hiff, hiff]
    rcases lt_trichotomy x.keyB y.keyB with h | h | h
    · exact Or.inr (Or.inl h)
    · rcases Nat.lt_or_gt_of_ne hne with h2 | h2
      · exact Or.inl (Or.inr ⟨h, h2⟩)
      · exact Or.inr (Or.inr ⟨h.symm, h2⟩)
    · exact Or.inl (Or.inl h)
  · intro q r t hnd hp
    refine ⟨(PriorityQueue.top_eq hp).1, ?_⟩
    intro c hc
    have hk := PriorityQueue.popMax_key hgt.compatible hp c hc
    have hi := PriorityQueue.popMax_index hgt hp c hc
    have hnd2 : ((t :: r).map SegmentIterator.segment_index_).Nodup :=
      ((PriorityQueue.popMax_perm hp).map _).nodup_iff.1 hnd
    have hne : c.segment_index_ ≠ t.segment_index_ := by
      simp only [List.map_cons, List.nodup_cons, List.mem_map, not_exists, not_and] at hnd2
      exact hnd2.1 c hc
    have hstrict : c.keyB = t.keyB → c.segment_index_ < t.segment_index_ :=
      fun h => lt_of_le_of_ne (hi h) hne
    refine ⟨?_, hk, hstrict⟩
    rw [hiff]
    rcases lt_or_eq_of_le hk with h | h
    · exact Or.inl h
    · exact Or.inr ⟨h.symm, hstrict h.symm⟩

theorem SegmentIterator_lt_strict_total_witness :
    GtNotLess (EntryIterator.gtNotLess (K := List Nat)) ∧
    (∀ x : SegmentIterator (List Nat), SegmentIterator.lt EntryIterator.gtNotLess x x = false) ∧
    SegmentIterator.lt EntryIterator.gtNotLess
      (⟨EntryIterator.ofAutomata exampleA, 0⟩ : SegmentIterator (List Nat))
      ⟨EntryIterator.ofAutomata exampleS0, 1⟩ = true :=
  ⟨gtNotLess_isNotLess,
   (SegmentIterator_lt_strict_total EntryIterator.gtNotLess gtNotLess_isNotLess).2.1,
   rfl⟩

/-- Every cursor the inner loop leaves in the frontier is a cursor it found there, advanced
or not: same segment index, same dictionary. -/
theorem shadowLoop_origin (gt : EntryIterator K → EntryIterator K → Bool) (k : K) :
    ∀ (n : Nat) (q q2 : PriorityQueue K), DictionaryMerger.shadowLoop gt n q k = some q2 →
      ∀ d ∈ q2, ∃ c ∈ q, c.segment_index_ = d.segment_index_ ∧
        c.entryIterator.fsa = d.entryIterator.fsa := by
  intro n
  induction n with
  | zero => intro q q2 h; cases h
  | succ n ih =>
    intro q q2 h d hd
    unfold DictionaryMerger.shadowLoop at h
    cases hp : PriorityQueue.popMax gt q with
    | none =>
      have hq0 := PriorityQueue.popMax_eq_none hp
      subst hq0
      rw [PriorityQueue.top_nil] at h
      simp only [Option.some.injEq] at h
      exact ⟨d, h ▸ hd, rfl, rfl⟩
    | some tr =>
      obtain ⟨t, r⟩ := tr
      obtain ⟨htop, hpop⟩ := PriorityQueue.top_eq hp
      have hperm := PriorityQueue.popMax_perm hp
      rw [htop] at h
      simp only [hpop] at h
      cases hk : t.entryIterator.eqKey k with
      | false =>
        rw [hk] at h
        simp only [Bool.false_eq_true, if_false, Option.some.injEq] at h
        exact ⟨d, h ▸ hd, rfl, rfl⟩
      | true =>
        rw [hk] at h
        simp only [if_true] at h
        obtain ⟨c, hc, hci, hcf⟩ := ih _ q2 h d hd
        have hcases : c ∈ r ∨ c = t.inc := by
          split at hc
          · rcases List.mem_append.1 hc with hc | hc
            · exact Or.inl hc
            · exact Or.inr (List.mem_singleton.1 hc)
          · exact Or.inl hc
        rcases hcases with hcr | rfl
        · exact ⟨c, hperm.symm.subset (List.mem_cons_of_mem _ hcr), hci, hcf⟩
        · exact ⟨t, hperm.symm.subset (List.mem_cons_self _ _), hci, hcf⟩

/-- Every winner of a completed outer loop is a cursor of the frontier the loop started on,
advanced or not: same segment index, same dictionary. -/
theorem drainLoop_origin {gt : EntryIterator K → EntryIterator K → Bool} {vs : ValueStoreT σ}
    {ap : Bool} :
    ∀ (n : Nat) (q : PriorityQueue K) (s s1 : σ) (out : List (Emit K)),
      DictionaryMerger.drainLoop gt vs ap n q s = .ok (out, s1) →
      ∀ e ∈ out, ∃ c ∈ q, c.segment_index_ = e.segment_it.segment_index_ ∧
        c.entryIterator.fsa = e.segment_it.entryIterator.fsa := by
  intro n
  induction n with
  | zero => intro q s s1 out h; cases h
  | succ n ih =>
    intro q s s1 out h e he
    rcases drainLoop_succ_ok h with ⟨_, h0, _⟩ | ⟨t, k, v, q2, rest, htop, _, _, hsh, hrec, hout⟩
    · rw [h0] at he
      cases he
    · have hp : ∃ r, PriorityQueue.popMax gt q = some (t, r) ∧ PriorityQueue.pop gt q = r := by
        unfold PriorityQueue.top at htop
        unfold PriorityQueue.pop
        cases hpm : PriorityQueue.popMax gt q with
        | none => rw [hpm] at htop; cases htop
        | some tr =>
          obtain ⟨t1, r⟩ := tr
          rw [hpm] at htop
          simp only [Option.map_some', Option.some.injEq] at htop
          subst htop
          exact ⟨r, rfl, rfl⟩
      obtain ⟨r, hpm, hpop⟩ := hp
      have hperm := PriorityQueue.popMax_perm hpm
      rw [hpop] at hsh
      rw [hout] at he
      rcases List.mem_cons.1 he with rfl | he
      · exact ⟨t, hperm.symm.subset (List.mem_cons_self _ _), rfl, rfl⟩
      · obtain ⟨c, hc, hci, hcf⟩ := ih _ _ _ _ hrec e he
        have hcases : c ∈ q2 ∨ c = t.inc := by
          split at hc
          · rcases List.mem_append.1 hc with hc | hc
            · exact Or.inl hc
            · exact Or.inr (List.mem_singleton.1 hc)
          · exact Or.inl hc
        rcases hcases with hc2 | rfl
        · obtain ⟨c0, hc0, h0i, h0f⟩ := shadowLoop_origin gt k _ r q2 hsh c hc2
          exact ⟨c0, hperm.symm.subset (List.mem_cons_of_mem _ hc0), h0i.trans hci, h0f.trans hcf⟩
        · exact ⟨t, hperm.symm.subset (List.mem_cons_self _ _), hci, hcf⟩

/-- In rebuild mode the outer loop calls `GetValue` once per pass, handing it the payload
handle of the winner's dictionary and the winner's value id, and builds the handles as
`rebuildHandles` does. -/
theorem drainLoop_rebuild {gt : EntryIterator K → EntryIterator K → Bool} {vs : ValueStoreT σ} :
    ∀ (n : Nat) (q : PriorityQueue K) (s s1 : σ) (out : List (Emit K)),
      DictionaryMerger.drainLoop gt vs false n q s = .ok (out, s1) →
      out.map Emit.handle = rebuildHandles vs s
        (out.map (fun e => (e.segment_it.entryIterator.GetFsa.file.payload, e.valueId))) ∧
      ∀ e ∈ out, e.valueStoreCalls =
        [.GetMergeWeight e.valueId,
         .GetValue e.segment_it.entryIterator.GetFsa.file.payload e.valueId] := by
  intro n
  induction n with
  | zero => intro q s s1 out h; cases h
  | succ n ih =>
    intro q s s1 out h
    rcases drainLoop_succ_ok h with ⟨_, h0, _⟩ | ⟨t, k, v, q2, rest, _, _, _, _, hrec, hout⟩
    · subst h0
      exact ⟨rfl, fun e he => by cases he⟩
    · obtain ⟨h1, h2⟩ := ih _ _ _ _ hrec
      subst hout
      refine ⟨?_, ?_⟩
      · simp only [List.map_cons, rebuildHandles]
        rw [h1]
        rfl
      · intro e he
        rcases List.mem_cons.1 he with rfl | he
        · rfl
        · exact h2 e he

theorem getValueCalls_bind (l : List (Emit K))
    (h : ∀ e ∈ l, e.valueStoreCalls =
      [.GetMergeWeight e.valueId,
       .GetValue e.segment_it.entryIterator.GetFsa.file.payload e.valueId]) :
    getValueCalls (l.flatMap Emit.valueStoreCalls) =
      l.map (fun e => ValueStoreCall.GetValue
        e.segment_it.entryIterator.GetFsa.file.payload e.valueId) := by
  induction l with
  | nil => rfl
  | cons e l ih =>
    have he := h e (List.mem_cons_self _ _)
    have hl := ih (fun d hd => h d (List.mem_cons_of_mem _ hd))
    unfold getValueCalls at hl ⊢
    rw [List.flatMap_cons, List.filter_append, hl, he]
    rfl

/-- C11: in rebuild mode, in every completed `Merge` the value store is constructed from
the parameter map, and `GetValue` is called exactly once per pass of the outer loop, in
emit order and nowhere else, with the payload handle of the dictionary the winner cursor
comes from (the registered dictionary at the winner's segment index) and the value id the
winner holds at the emitted key; the handle passed to `Add` takes the id that call returns
and the flag that call returns when handed `false`, and its weight is `GetMergeWeight` of
the winner's value id.  `Merge` completes exactly when no registered source is empty. -/
theorem Merge_rebuild_value_handle (gt : EntryIterator K → EntryIterator K → Bool)
    (vs : ValueStoreT σ) (m : DictionaryMerger K) (filename : String)
    (hap : m.append_merge_ = false) :
    (∀ m1 run, DictionaryMerger.Merge gt vs m filename = .ok (m1, run) →
      run.valueStoreArg = .params m.params_ ∧
      run.calls = run.emits.map (fun e => GeneratorCall.Add e.top_key e.handle) ++
        [.CloseFeeding, .SetManifestFromString m.manifest_, .WriteToFile filename] ∧
      getValueCalls (run.emits.flatMap Emit.valueStoreCalls) =
        run.emits.map (fun e => ValueStoreCall.GetValue
          e.segment_it.entryIterator.GetFsa.file.payload e.valueId) ∧
      run.emits.map Emit.handle = rebuildHandles vs (vs.create (.params m.params_))
        (run.emits.map (fun e => (e.segment_it.entryIterator.GetFsa.file.payload, e.valueId))) ∧
      ∀ e ∈ run.emits,
        e.segment_it.entryIterator.GetKey = some e.top_key ∧
        e.segment_it.entryIterator.GetValueId = some e.valueId ∧
        m.dicts_to_merge_[e.segment_it.segmentIndex]? = some e.segment_it.entryIterator.GetFsa ∧
        e.valueStoreCalls =
          [.GetMergeWeight e.valueId,
           .GetValue e.segment_it.entryIterator.GetFsa.file.payload e.valueId]) ∧
    ((∃ m1 run, DictionaryMerger.Merge gt vs m filename = .ok (m1, run)) ↔ SourcesNonEmpty m) := by
  refine ⟨?_, Merge_completes_iff gt vs m filename⟩
  intro m1 run hok
  obtain ⟨s1, hd, _, harg, hcalls⟩ := Merge_ok_inv hok
  rw [hap] at hd harg
  simp only [Bool.false_eq_true, if_false] at hd harg
  obtain ⟨hh, hc⟩ := drainLoop_rebuild _ _ _ _ _ hd
  refine ⟨harg, hcalls, getValueCalls_bind _ hc, hh, ?_⟩
  intro e he
  obtain ⟨hk, hv⟩ := drainLoop_reads _ _ _ _ _ hd e he
  refine ⟨hk, hv, ?_, hc e he⟩
  obtain ⟨c, hcq, hci, hcf⟩ := drainLoop_origin _ _ _ _ _ hd e he
  obtain ⟨j, a, hj, rfl⟩ := (mem_seed _ _ _).1 hcq
  have h1 : e.segment_it.segmentIndex = j := by
    unfold SegmentIterator.segmentIndex
    rw [← hci]
    simp
  have h2 : e.segment_it.entryIterator.GetFsa = a := by
    unfold EntryIterator.GetFsa
    rw [← hcf]
    rfl
  rw [h1, h2]
  exact hj

theorem Merge_rebuild_value_handle_witness :
    (exampleRebuildMerger [exampleS0, exampleS1] ["s0", "s1"]).append_merge_ = false ∧
    (∀ m1 run, DictionaryMerger.Merge EntryIterator.gtNotLess exampleCountingStore
        (exampleRebuildMerger [exampleS0, exampleS1] ["s0", "s1"]) "out" = .ok (m1, run) →
      run.valueStoreArg = .params [("temporary_path", "/tmp")] ∧
      getValueCalls (run.emits.flatMap Emit.valueStoreCalls) =
        run.emits.map (fun e => ValueStoreCall.GetValue
          e.segment_it.entryIterator.GetFsa.file.payload e.valueId)) ∧
    (DictionaryMerger.Merge EntryIterator.gtNotLess exampleCountingStore
        (exampleRebuildMerger [exampleS0, exampleS1] ["s0", "s1"]) "out").toOption.map
      (fun p => (p.2.emits.flatMap Emit.valueStoreCalls, p.2.emits.map Emit.handle)) =
    some ([.GetMergeWeight 1, .GetValue 10 1, .GetMergeWeight 9, .GetValue 20 9,
           .GetMergeWeight 3, .GetValue 20 3],
          [{ value_idx := 0, weight := 1, no_minimization := true },
           { value_idx := 1, weight := 9, no_minimization := true },
           { value_idx := 2, weight := 3, no_minimization := true }]) :=
  ⟨rfl,
   fun m1 run h =>
     ⟨((Merge_rebuild_value_handle EntryIterator.gtNotLess exampleCountingStore
        (exampleRebuildMerger [exampleS0, exampleS1] ["s0", "s1"]) "out" rfl).1 m1 run h).1,
      ((Merge_rebuild_value_handle EntryIterator.gtNotLess exampleCountingStore
        (exampleRebuildMerger [exampleS0, exampleS1] ["s0", "s1"]) "out" rfl).1 m1 run h).2.2.1⟩,
   rfl⟩

/-- When no registered source is empty, at every read of the frontier every cursor held in
it, and the winner held, is not at the end. -/
theorem Merge_frontier_cursors_live (gt : EntryIterator K → EntryIterator K → Bool)
    (m : DictionaryMerger K) (hne : SourcesNonEmpty m) (n : Nat) (c : DrainState K)
    (h : DrainState.stepN gt n (DrainState.start m) = some c) :
    ∀ x ∈ c.cursors, x.toBool = true := by
  intro x hx
  exact (SegmentIterator.toBool_iff x).2
    ((DrainState.stepN_balanced gt (DrainState.start_balanced m hne) n c h).1 x hx)

/-- C16, at a single registered dictionary without entries: at the first evaluation of the
outer loop condition the frontier holds one cursor and that cursor is at the end; it is the
top of the frontier, whatever the cursor comparison `>` is, and the loop stops there on a
frontier that is not empty, at the read of its key. -/
theorem Merge_frontier_holds_end_cursor
    (gt : EntryIterator (List Nat) → EntryIterator (List Nat) → Bool) :
    DrainState.stepN gt 0 (DrainState.start (exampleMerger [exampleEmpty] ["empty"])) =
      some (DrainState.start (exampleMerger [exampleEmpty] ["empty"])) ∧
    (DrainState.start (exampleMerger [exampleEmpty] ["empty"])).pqueue.map
      SegmentIterator.toBool = [false] ∧
    (PriorityQueue.top gt
      (DrainState.start (exampleMerger [exampleEmpty] ["empty"])).pqueue).map
      SegmentIterator.toBool = some false ∧
    DrainState.step gt (DrainState.start (exampleMerger [exampleEmpty] ["empty"])) = none := by
  exact ⟨rfl, rfl, rfl, rfl⟩

/-- C17: at every read of the frontier during `Merge` over `N` registered sources, the
cursors held in the frontier together with the winner held have pairwise distinct segment
indices, all below `N`; the frontier holds at most `N` cursors; every cursor iterates the
registered dictionary at its segment index, so no two cursors belong to one source; and
advancing a cursor leaves its segment index as it is. -/
theorem Merge_frontier_segment_indices (gt : EntryIterator K → EntryIterator K → Bool)
    (m : DictionaryMerger K) (n : Nat) (c : DrainState K)
    (h : DrainState.stepN gt n (DrainState.start m) = some c) :
    c.indices.Nodup ∧
    (∀ i ∈ c.indices, i < m.dicts_to_merge_.length) ∧
    c.pqueue.length ≤ m.dicts_to_merge_.length ∧
    (∀ x ∈ c.cursors, m.dicts_to_merge_[x.segmentIndex]? = some x.entryIterator.GetFsa) ∧
    (∀ x : SegmentIterator K, x.inc.segmentIndex = x.segmentIndex) := by
  obtain ⟨hsub, horigin⟩ := DrainState.stepN_indices gt m n c h
  obtain ⟨l0, hperm, hsl⟩ := hsub
  have hnd : c.indices.Nodup :=
    hperm.nodup_iff.1 ((List.nodup_range' 0 m.dicts_to_merge_.length).sublist hsl)
  refine ⟨hnd, ?_, ?_, horigin, fun _ => rfl⟩
  · intro i hi
    have h1 : i ∈ List.range' 0 m.dicts_to_merge_.length :=
      hsl.subset (hperm.symm.subset hi)
    have h2 := List.mem_range'.1 h1
    obtain ⟨j, hj, rfl⟩ := h2
    omega
  · have h1 : c.indices.length ≤ (List.range' 0 m.dicts_to_merge_.length).length := by
      rw [← hperm.length_eq]
      exact hsl.length_le
    rw [List.length_range'] at h1
    have h2 : c.pqueue.length ≤ c.indices.length := by
      unfold DrainState.indices
      rw [List.length_append, List.length_map]
      omega
    omega

theorem Merge_frontier_segment_indices_witness :
    DrainState.stepN EntryIterator.gtNotLess 3
        (DrainState.start (exampleMerger [exampleS0, exampleS1] ["s0", "s1"])) =
      some exampleDrainState ∧
    exampleDrainState.indices = [0, 1] ∧
    (exampleDrainState.indices.Nodup ∧
     (∀ i ∈ exampleDrainState.indices,
        i < (exampleMerger [exampleS0, exampleS1] ["s0", "s1"]).dicts_to_merge_.length) ∧
     exampleDrainState.pqueue.length ≤
        (exampleMerger [exampleS0, exampleS1] ["s0", "s1"]).dicts_to_merge_.length ∧
     (∀ x ∈ exampleDrainState.cursors,
        (exampleMerger [exampleS0, exampleS1] ["s0", "s1"]).dicts_to_merge_[x.segmentIndex]? =
          some x.entryIterator.GetFsa) ∧
     (∀ x : SegmentIterator (List Nat), x.inc.segmentIndex = x.segmentIndex)) :=
  ⟨rfl, rfl,
   Merge_frontier_segment_indices EntryIterator.gtNotLess
     (exampleMerger [exampleS0, exampleS1] ["s0", "s1"]) 3 exampleDrainState (by rfl)⟩

/-- C18: for registered sources none of which is empty, the drain loop of `Merge` ends
after finitely many reads of the frontier, on an empty frontier at the head of the outer
loop; by then the number of cursor increments made, those of winners and those of shadowed
duplicates together, is the number of entries of all sources, and so is the number of `Add`
calls plus the number of shadowed duplicates popped; `Merge` completes, and its calls of
`Add` are as many as the loop counted. -/
theorem Merge_drain_terminates (gt : EntryIterator K → EntryIterator K → Bool)
    (vs : ValueStoreT σ) (m : DictionaryMerger K) (filename : String)
    (hne : SourcesNonEmpty m) :
    ∃ n d m1 run,
      DrainState.stepN gt n (DrainState.start m) = some d ∧
      DrainState.step gt d = none ∧ d.pqueue = [] ∧ d.segment_it = none ∧
      d.advances = totalEntries m ∧
      d.adds + d.shadowPops = totalEntries m ∧
      DictionaryMerger.Merge gt vs m filename = .ok (m1, run) ∧
      run.addedKeys.length = d.adds := by
  obtain ⟨n, d, hn, hstop, hq, hw, hbal⟩ :=
    DrainState.terminates gt (DrainState.start m).measure (DrainState.start m)
      (DrainState.start_balanced m hne) (le_refl _)
  obtain ⟨m1, run, hok⟩ := (Merge_completes_iff gt vs m filename).2 hne
  obtain ⟨s1, hd, _⟩ := Merge_ok_inv hok
  obtain ⟨j, d2, hj, hstop2, _, _, hadds⟩ := drainLoop_steps _ _ _ _ _ hd 0 0 0
  have heq : d = d2 := DrainState.final_unique hn hstop hj hstop2
  obtain ⟨_, hcount, htotal⟩ := hbal
  have hpend : d.pending = 0 := by
    unfold DrainState.pending
    rw [hq, hw]
    rfl
  refine ⟨n, d, m1, run, hn, hstop, hq, hw, by omega, by omega, hok, ?_⟩
  rw [addedKeys_eq hok, List.length_map, heq, hadds]
  omega

theorem exampleMerger_nonEmpty :
    SourcesNonEmpty (exampleMerger [exampleS0, exampleS1] ["s0", "s1"]) := by
  intro a ha
  simp only [exampleMerger, List.mem_cons, List.mem_singleton, List.not_mem_nil, or_false] at ha
  rcases ha with rfl | rfl <;> decide

theorem Merge_drain_terminates_witness :
    SourcesNonEmpty (exampleMerger [exampleS0, exampleS1] ["s0", "s1"]) ∧
    totalEntries (exampleMerger [exampleS0, exampleS1] ["s0", "s1"]) = 4 ∧
    ∃ n d m1 run,
      DrainState.stepN EntryIterator.gtNotLess n
        (DrainState.start (exampleMerger [exampleS0, exampleS1] ["s0", "s1"])) = some d ∧
      DrainState.step EntryIterator.gtNotLess d = none ∧ d.pqueue = [] ∧
      d.segment_it = none ∧
      d.advances = totalEntries (exampleMerger [exampleS0, exampleS1] ["s0", "s1"]) ∧
      d.adds + d.shadowPops =
        totalEntries (exampleMerger [exampleS0, exampleS1] ["s0", "s1"]) ∧
      DictionaryMerger.Merge EntryIterator.gtNotLess exampleStore
        (exampleMerger [exampleS0, exampleS1] ["s0", "s1"]) "out" = .ok (m1, run) ∧
      run.addedKeys.length = d.adds :=
  ⟨exampleMerger_nonEmpty, rfl,
   Merge_drain_terminates EntryIterator.gtNotLess exampleStore
     (exampleMerger [exampleS0, exampleS1] ["s0", "s1"]) "out" exampleMerger_nonEmpty⟩

end Claims

end keyvi.dictionary
